import Mathlib

/-!
# gococo: the incremental project cache and the go.mod rewriter

A shallow embedding of `pkg/build/cache.go` (package `build`, the controller driven by an
explicit list of package files), `pkg/build/cache/copy.go` (package `cache`, the controller
that walks the project directory recursively) and `pkg/build/tmpfolder.go`
(`updateGoModFile`), together with the parts of the Go standard library, of the operating
system and of `golang.org/x/mod/modfile` that this code calls.

Go strings are character lists, Go maps are association lists read through `get?`,
the filesystem is an explicit store passed from call to call, and a recursion that Go
does not bound (following symbolic links) takes a fuel argument whose exhaustion is the
outcome `diverge`.
-/

set_option autoImplicit false

namespace Gococo

/-! ## Strings -/

/-- Go `string`, as the list of its characters. -/
abbrev GoString := List Char

/-- The number of bytes of a string in UTF-8, Go's `len(s)`. -/
def byteLen (s : GoString) : Nat := (s.map Char.utf8Size).sum

/-- Go `strings.Split(s, string(sep))` for a one-character separator: the pieces between
the separators, `[""]` for the empty string. -/
def splitOn (sep : Char) : GoString → List GoString
  | [] => [[]]
  | c :: cs =>
    if c = sep then [] :: splitOn sep cs
    else
      match splitOn sep cs with
      | [] => [[c]]
      | w :: ws => (c :: w) :: ws

/-- Go `strings.Join(elems, string(sep))` for a one-character separator. -/
def joinWith (sep : Char) : List GoString → GoString
  | [] => []
  | [w] => w
  | w :: ws => w ++ sep :: joinWith sep ws

/-- Go `unicode.IsSpace`: the Latin-1 spaces and the code points with the White_Space
property. -/
def isSpace (c : Char) : Bool :=
  let n := c.toNat
  n = 0x20 || (0x09 ≤ n && n ≤ 0x0D) || n = 0x85 || n = 0xA0 || n = 0x1680 ||
  (0x2000 ≤ n && n ≤ 0x200A) || n = 0x2028 || n = 0x2029 || n = 0x202F || n = 0x205F ||
  n = 0x3000

/-- Go `strings.TrimSpace`: leading and trailing white space removed. -/
def TrimSpace (s : GoString) : GoString :=
  ((s.dropWhile isSpace).reverse.dropWhile isSpace).reverse

/-- The value of a decimal digit, `none` for any other character. -/
def digitVal (c : Char) : Option Nat :=
  if '0' ≤ c ∧ c ≤ '9' then some (c.toNat - '0'.toNat) else none

/-- The number written by a non-empty string of decimal digits (most significant first),
continuing from `acc`. -/
def parseDigits : Nat → GoString → Option Nat
  | acc, [] => some acc
  | acc, c :: cs =>
    match digitVal c with
    | none => none
    | some d => parseDigits (10 * acc + d) cs

/-- Go `strconv.ParseInt(s, 10, 64)`: an optional sign, then one or more decimal digits,
the value within the range of `int64`; `none` stands for the syntax and range errors. -/
def ParseInt (s : GoString) : Option Int :=
  match s with
  | [] => none
  | c :: cs =>
    let neg := c = '-'
    let body := if c = '+' ∨ c = '-' then cs else s
    match body with
    | [] => none
    | _ :: _ =>
      match parseDigits 0 body with
      | none => none
      | some n =>
        if neg then (if n ≤ 2 ^ 63 then some (-(n : Int)) else none)
        else (if n < 2 ^ 63 then some (n : Int) else none)

/-- The decimal digits of a natural number, most significant first, `fuel` bounding their
number. -/
def natDigits : Nat → Nat → GoString
  | 0, _ => []
  | fuel + 1, n =>
    if n < 10 then [Char.ofNat (n + 48)]
    else natDigits fuel (n / 10) ++ [Char.ofNat (n % 10 + 48)]

/-- Go `fmt.Sprintf("%v", n)` for an `int64`: the decimal numeral, `-` first when
negative. -/
def formatInt (n : Int) : GoString :=
  if n < 0 then '-' :: natDigits (n.natAbs + 1) n.natAbs else natDigits (n.natAbs + 1) n.natAbs

/-! ## Paths (`path/filepath` on Unix) -/

/-- One step of `filepath.Clean` over the elements of a path: `acc` holds the elements
kept so far, the last one first. Empty elements and `.` are dropped, `..` removes the
last kept element when there is a real one, is dropped at the root, and is kept
otherwise. -/
def cleanStep (rooted : Bool) (acc : List GoString) (c : GoString) : List GoString :=
  if c = [] ∨ c = ['.'] then acc
  else if c = ['.', '.'] then
    match acc with
    | [] => if rooted then [] else [c]
    | a :: rest => if a = ['.', '.'] then c :: acc else rest
  else c :: acc

/-- Go `filepath.Clean`. -/
def Clean (path : GoString) : GoString :=
  match path with
  | [] => ['.']
  | c :: _ =>
    let rooted : Bool := c = '/'
    let body := joinWith '/' ((splitOn '/' path).foldl (cleanStep rooted) []).reverse
    if rooted then '/' :: body else if body = [] then ['.'] else body

/-- Go `filepath.Join` of two elements: a leading empty element is ignored, the rest is
joined with `/` and cleaned. -/
def Join (a b : GoString) : GoString :=
  if a = [] then (if b = [] then [] else Clean b) else Clean (a ++ '/' :: b)

/-- Go `filepath.IsAbs`. -/
def IsAbs (path : GoString) : Bool :=
  match path with
  | '/' :: _ => true
  | _ => false

/-- The part of a path up to and including its last `/`. -/
def dirPart (path : GoString) : GoString :=
  (path.reverse.dropWhile (fun c => c ≠ '/')).reverse

/-- Go `filepath.Dir`. -/
def Dir (path : GoString) : GoString := Clean (dirPart path)

/-- The non-empty elements of a path. -/
def elements (path : GoString) : List GoString :=
  (splitOn '/' path).filter (fun w => w ≠ [])

/-- The elements of two paths after their common leading elements. -/
def dropCommon : List GoString → List GoString → List GoString × List GoString
  | b :: bs, t :: ts => if b = t then dropCommon bs ts else (b :: bs, t :: ts)
  | bs, ts => (bs, ts)

/-- Go `filepath.Rel`: the path that leads from `basepath` to `targpath`; `none` when one
is rooted and the other is not, or when `basepath` would have to be left through a `..`
of its own. -/
def Rel (basepath targpath : GoString) : Option GoString :=
  let base := Clean basepath
  let targ := Clean targpath
  if targ = base then some ['.']
  else if IsAbs base ≠ IsAbs targ then none
  else
    let b := if base = ['.'] then [] else elements base
    match dropCommon b (elements targ) with
    | ([], ts) => some (joinWith '/' ts)
    | (b0 :: bs, ts) =>
      if b0 = ['.', '.'] then none
      else some (joinWith '/' ((b0 :: bs).map (fun _ => ['.', '.']) ++ ts))

/-! ## Maps from paths to modification times -/

/-- Go `map[string]int64`: an association list in which the first binding of a key is its
value. -/
abbrev ModMap := List (GoString × Int)

/-- Go `m[k]` with the comma-ok form: the value bound to `k`, if any. -/
def ModMap.get? : ModMap → GoString → Option Int
  | [], _ => none
  | (k', v) :: rest, k => if k' = k then some v else ModMap.get? rest k

/-- Go `m[k] = v`: the binding of `k` is replaced. -/
def ModMap.set (m : ModMap) (k : GoString) (v : Int) : ModMap :=
  (k, v) :: m.filter (fun e => e.1 ≠ k)

/-- Go `reflect.DeepEqual` on two non-nil maps: every key of either map is a key of the
other one with the same value. -/
def DeepEqual (a b : ModMap) : Bool :=
  a.all (fun e => decide (b.get? e.1 = a.get? e.1)) &&
  b.all (fun e => decide (a.get? e.1 = b.get? e.1))

/-! ## Errors and outcomes -/

/-- The system errors the model distinguishes. -/
inductive Errno
  | ENOENT | EACCES | ENOTDIR | EISDIR | EINVAL | ELOOP | EEXIST
  deriving DecidableEq, Repr

/-- Go `error` values other than `nil`: a system error for a path, the error of
`strconv.ParseInt` for an input, or a message. -/
inductive GoError
  | sys (e : Errno) (path : GoString)
  | num (input : GoString)
  | text (msg : String)
  deriving DecidableEq, Repr

/-- How a call ends: it returns `nil`, it returns an error, the process exits through
`log.Fatalf`, a run-time panic, or the recursion does not come back within the fuel. -/
inductive Outcome
  | nil
  | error (e : GoError)
  | fatal
  | panic
  | diverge
  deriving DecidableEq, Repr

/-! ## The filesystem -/

/-- The type bits of `os.FileMode` that the walkers look at. -/
inductive FileMode
  | regular | dir | symlink | namedPipe | socket | device
  deriving DecidableEq, Repr

/-- What `os.Lstat` and `os.Stat` report: the type of the entry and
`ModTime().UnixNano()`. -/
structure FileInfo where
  mode : FileMode
  modTime : Int
  deriving DecidableEq, Repr

/-- The kinds of special file. -/
inductive SpecialKind
  | namedPipe | socket | device
  deriving DecidableEq, Repr

/-- The type bits of a special file. -/
def SpecialKind.mode : SpecialKind → FileMode
  | .namedPipe => .namedPipe
  | .socket => .socket
  | .device => .device

/-- An entry of the filesystem. `access` is false for a file that cannot be opened and for
a directory that can be neither listed, nor searched, nor changed. -/
inductive Node
  | file (modTime : Int) (data : GoString) (access : Bool)
  | dir (modTime : Int) (names : List GoString) (access : Bool)
  | symlink (modTime : Int) (target : GoString)
  | special (kind : SpecialKind) (modTime : Int)
  deriving DecidableEq, Repr

/-- The filesystem: the entries by cleaned path (a relative path is relative to the
working directory), and the time that a write stamps on what it touches. -/
structure FS where
  nodes : List (GoString × Node)
  now : Int
  deriving DecidableEq, Repr

/-- The first entry stored under a key. -/
def lookupNode : List (GoString × Node) → GoString → Option Node
  | [], _ => none
  | (k, n) :: rest, p => if k = p then some n else lookupNode rest p

/-- The entry a path names, without following a symbolic link. -/
def FS.node? (fs : FS) (path : GoString) : Option Node := lookupNode fs.nodes (Clean path)

/-- The filesystem with the entry of a path replaced, or added. -/
def FS.put (fs : FS) (path : GoString) (n : Node) : FS :=
  { fs with nodes := (Clean path, n) :: fs.nodes.filter (fun e => e.1 ≠ Clean path) }

/-- The type and modification time of an entry. -/
def Node.info : Node → FileInfo
  | .file t _ _ => ⟨.regular, t⟩
  | .dir t _ _ => ⟨.dir, t⟩
  | .symlink t _ => ⟨.symlink, t⟩
  | .special k t => ⟨k.mode, t⟩

/-- The directories that the lookup of a cleaned path passes through, the outermost
first: the proper prefixes of the path that end before a `/`. The root and the working
directory, where every lookup starts, are not among them. -/
def dirsOnWay : GoString → GoString → List GoString
  | _, [] => []
  | seen, c :: rest =>
    if c = '/' ∧ seen ≠ [] then seen.reverse :: dirsOnWay (c :: seen) rest
    else dirsOnWay (c :: seen) rest

/-- The error that stops a lookup before the last element of the path: each directory on
the way has to be there (`ENOENT`), to be a directory (`ENOTDIR`) and to let itself be
searched (`EACCES`). Every call that takes a path makes this check first, on the path as
it is given. What is reached through a symbolic link to a directory is stored under the
path through the link. -/
def searchError (fs : FS) : List GoString → Option Errno
  | [] => none
  | d :: rest =>
    match fs.node? d with
    | none => some .ENOENT
    | some (.dir _ _ true) => searchError fs rest
    | some (.dir _ _ false) => some .EACCES
    | some (.symlink _ _) => searchError fs rest
    | some _ => some .ENOTDIR

/-- Whether a lookup passes through an entry: a directory that can be searched, or a
symbolic link. -/
def Node.passable : Node → Bool
  | .dir _ _ true => true
  | .symlink _ _ => true
  | _ => false

/-- Go `os.Lstat`: the lookup fails with `ENOTDIR` when an element before the last one is
a file, with `EACCES` when it is a directory that cannot be searched, and with `ENOENT`
when an element is not there. -/
def Lstat (fs : FS) (path : GoString) : Except GoError FileInfo :=
  match searchError fs (dirsOnWay [] (Clean path)) with
  | some e => .error (.sys e path)
  | none =>
    match fs.node? path with
    | none => .error (.sys .ENOENT path)
    | some n => .ok n.info

/-- The path reached from `path` by following symbolic links, at most `fuel` of them; a
relative link target is relative to the directory of the link. -/
def resolve : Nat → FS → GoString → Except GoError GoString
  | 0, fs, path =>
    match fs.node? path with
    | some (.symlink _ _) => .error (.sys .ELOOP path)
    | _ => .ok path
  | fuel + 1, fs, path =>
    match fs.node? path with
    | some (.symlink _ target) =>
      resolve fuel fs (if IsAbs target then target else Join (Dir path) target)
    | _ => .ok path

/-- The number of symbolic links the system follows in one lookup. -/
def MAXSYMLINKS : Nat := 40

/-- Go `os.Stat`: as `os.Lstat`, on the entry reached through symbolic links. -/
def Stat (fs : FS) (path : GoString) : Except GoError FileInfo :=
  match searchError fs (dirsOnWay [] (Clean path)) with
  | some e => .error (.sys e path)
  | none =>
    match resolve MAXSYMLINKS fs path with
    | .error e => .error e
    | .ok p =>
      match fs.node? p with
      | none => .error (.sys .ENOENT path)
      | some n => .ok n.info

/-- Go `os.Readlink`. -/
def Readlink (fs : FS) (path : GoString) : Except GoError GoString :=
  match searchError fs (dirsOnWay [] (Clean path)) with
  | some e => .error (.sys e path)
  | none =>
    match fs.node? path with
    | none => .error (.sys .ENOENT path)
    | some (.symlink _ target) => .ok target
    | some _ => .error (.sys .EINVAL path)

/-- Go `os.ReadDir`, called on directories: the names of the entries of the directory,
sorted. -/
def ReadDir (fs : FS) (path : GoString) : Except GoError (List GoString) :=
  match searchError fs (dirsOnWay [] (Clean path)) with
  | some e => .error (.sys e path)
  | none =>
    match fs.node? path with
    | none => .error (.sys .ENOENT path)
    | some (.dir _ names true) => .ok (names.insertionSort (fun a b => a ≤ b))
    | some (.dir _ _ false) => .error (.sys .EACCES path)
    | some _ => .error (.sys .ENOTDIR path)

/-- Go `DirEntry.Info` of the entry `name` of the directory `dir`: the `Lstat` of the
entry at the time of the call. -/
def DirEntryInfo (fs : FS) (dir name : GoString) : Except GoError FileInfo :=
  Lstat fs (dir ++ '/' :: name)

/-- Go `os.Open`: the path of the opened entry, links followed. -/
def Open (fs : FS) (path : GoString) : Except GoError GoString :=
  match searchError fs (dirsOnWay [] (Clean path)) with
  | some e => .error (.sys e path)
  | none =>
    match resolve MAXSYMLINKS fs path with
    | .error e => .error e
    | .ok p =>
      match fs.node? p with
      | none => .error (.sys .ENOENT path)
      | some (.file _ _ false) => .error (.sys .EACCES path)
      | some (.dir _ _ false) => .error (.sys .EACCES path)
      | some (.special _ _) => .error (.sys .EACCES path)
      | some _ => .ok p

/-- Reading an opened entry to its end: the bytes of a file, an error on a directory. -/
def readAll (fs : FS) (handle : GoString) : Except GoError GoString :=
  match fs.node? handle with
  | some (.file _ data _) => .ok data
  | _ => .error (.sys .EISDIR handle)

/-- The last element of a path. -/
def baseName (path : GoString) : GoString :=
  ((Clean path).reverse.takeWhile (fun c => c ≠ '/')).reverse

/-- The directory that holds the entry of a path, when it exists and can be changed. -/
def parentDir (fs : FS) (path : GoString) : Except GoError (Int × List GoString) :=
  match fs.node? (Dir (Clean path)) with
  | none => .error (.sys .ENOENT path)
  | some (.dir t names true) => .ok (t, names)
  | some (.dir _ _ false) => .error (.sys .EACCES path)
  | some _ => .error (.sys .ENOTDIR path)

/-- The filesystem with a new entry under a path, its name added to the directory that
holds it. -/
def FS.link (fs : FS) (path : GoString) (n : Node) : Except GoError FS :=
  match parentDir fs path with
  | .error e => .error e
  | .ok (_, names) =>
    .ok ((fs.put (Dir (Clean path))
      (.dir fs.now (if baseName path ∈ names then names else names ++ [baseName path]) true)).put
      path n)

/-- Go `os.Mkdir`. -/
def Mkdir (fs : FS) (path : GoString) : Except GoError FS :=
  match searchError fs (dirsOnWay [] (Clean path)) with
  | some e => .error (.sys e path)
  | none =>
    match fs.node? path with
    | some _ => .error (.sys .EEXIST path)
    | none => fs.link path (.dir fs.now [] true)

/-- Go `os.MkdirAll`: nothing to do on a directory, an error on another entry, otherwise
the missing parents first and then the directory. -/
def MkdirAllAux : Nat → FS → GoString → Except GoError FS
  | 0, _, path => .error (.sys .ENOENT path)
  | fuel + 1, fs, path =>
    match Stat fs path with
    | .ok info => if info.mode = .dir then .ok fs else .error (.sys .ENOTDIR path)
    | .error _ =>
      if Dir (Clean path) = Clean path then Mkdir fs path
      else
        match MkdirAllAux fuel fs (Dir (Clean path)) with
        | .error e => .error e
        | .ok fs1 => Mkdir fs1 path

/-- Go `os.MkdirAll`. -/
def MkdirAll (fs : FS) (path : GoString) : Except GoError FS :=
  MkdirAllAux (path.length + 1) fs path

/-- Go `os.Create`: the file is created empty, or emptied; the result is the filesystem
and the path of the opened file. -/
def Create (fs : FS) (path : GoString) : Except GoError (FS × GoString) :=
  match searchError fs (dirsOnWay [] (Clean path)) with
  | some e => .error (.sys e path)
  | none =>
    match resolve MAXSYMLINKS fs path with
    | .error e => .error e
    | .ok p =>
      match fs.node? p with
      | some (.file _ _ true) => .ok (fs.put p (.file fs.now [] true), p)
      | some (.file _ _ false) => .error (.sys .EACCES path)
      | some (.dir _ _ _) => .error (.sys .EISDIR path)
      | some _ => .error (.sys .EACCES path)
      | none =>
        match fs.link p (.file fs.now [] true) with
        | .error e => .error e
        | .ok fs1 => .ok (fs1, p)

/-- Writing to an opened file (`File.WriteString`, the writing half of `io.Copy`): the
bytes are appended. -/
def FS.write (fs : FS) (handle : GoString) (bytes : GoString) : FS :=
  match fs.node? handle with
  | some (.file _ data a) => fs.put handle (.file fs.now (data ++ bytes) a)
  | _ => fs

/-- Whether `path` is `root` or lies under it. -/
def isUnder (root path : GoString) : Bool :=
  path = root || (root ++ ['/']).isPrefixOf path || root = ['/']

/-- Go `os.RemoveAll`: nothing to do when the path names nothing, also when a directory on
the way to it is not there; otherwise the entry and
all that lies under it are removed, which needs every directory involved to be
changeable. -/
def RemoveAll (fs : FS) (path : GoString) : Except GoError FS :=
  match searchError fs (dirsOnWay [] (Clean path)) with
  | some .ENOENT => .ok fs
  | some e => .error (.sys e path)
  | none =>
    match fs.node? path with
    | none => .ok fs
    | some _ =>
      match parentDir fs path with
      | .error e => .error e
      | .ok (_, names) =>
        if fs.nodes.any (fun e => isUnder (Clean path) e.1 &&
            (match e.2 with | .dir _ (_ :: _) false => true | _ => false)) then
          .error (.sys .EACCES path)
        else
          .ok ({ fs with nodes := fs.nodes.filter (fun e => !isUnder (Clean path) e.1) }.put
            (Dir (Clean path)) (.dir fs.now (names.filter (fun n => n ≠ baseName path)) true))

/-- Go `os.ReadFile`: the file is opened and read to its end. -/
def ReadFile (fs : FS) (name : GoString) : Except GoError GoString :=
  match Open fs name with
  | .error e => .error e
  | .ok f => readAll fs f

/-- Go `os.WriteFile`: the file is created, or emptied, and the data is written to it. -/
def WriteFile (fs : FS) (name data : GoString) : Except GoError FS :=
  match Create fs name with
  | .error e => .error e
  | .ok (fs1, f) => .ok (fs1.write f data)

/-- Whether an entry is a symbolic link. -/
def Node.isLink : Node → Bool
  | .symlink _ _ => true
  | _ => false

/-- Two filesystems have the same symbolic links at the same paths. -/
def sameLinks (fs fs1 : FS) : Prop :=
  ∀ (q : GoString) (t : Int) (target : GoString),
    fs.node? q = some (.symlink t target) ↔ fs1.node? q = some (.symlink t target)

/-- Whether an entry is a regular file. -/
def Node.isFile : Node → Bool
  | .file _ _ _ => true
  | _ => false

/-- A regular file stands at a path, links followed. -/
def regularAt (fs : FS) (path : GoString) : Prop :=
  ∃ p n, resolve MAXSYMLINKS fs path = .ok p ∧ fs.node? p = some n ∧ n.isFile = true

/-- The second filesystem has the symbolic links of the first one, and a regular file
wherever the first one has one. -/
def stable (fs fs1 : FS) : Prop :=
  sameLinks fs fs1 ∧
    ∀ q n, fs.node? q = some n → n.isFile = true → ∃ n1, fs1.node? q = some n1 ∧ n1.isFile = true

/-- Go `os.IsNotExist`. -/
def IsNotExist : GoError → Bool
  | .sys .ENOENT _ => true
  | _ => false

/-! ## The digest file -/

/-- Go `bufio.MaxScanTokenSize`, the size of the largest buffer a `Scanner` allocates. -/
def MaxScanTokenSize : Nat := 64 * 1024

/-- The lines of a text as `bufio.ScanLines` cuts them, before the carriage return is
dropped: the pieces ended by a newline, and a last piece without one when it is not
empty. -/
def rawLines (data : GoString) : List GoString :=
  let segs := splitOn '\n' data
  if segs.getLast? = some [] then segs.dropLast else segs

/-- The `dropCR` of `bufio`: one trailing carriage return removed. -/
def dropCR (line : GoString) : GoString :=
  if line.getLast? = some '\r' then line.dropLast else line

/-- The tokens that the calls of `Scanner.Scan` yield with the default buffer and
`bufio.ScanLines`: the lines of the text up to the first line that does not fit in the
buffer, where `Scan` returns false for good (`ErrTooLong`). -/
def scanLines (data : GoString) : List GoString :=
  ((rawLines data).takeWhile (fun l => decide (byteLen l < MaxScanTokenSize))).map dropCR

/-- The loop of `NewBuildCache` over the lines of the digest file (`cache.go` lines
93 to 107, the same text as `cache/copy.go` lines 74 to 88), filling `oldMod`. -/
def loadLines : List GoString → ModMap → Except GoError ModMap
  | [], oldMod => .ok oldMod
  | text :: rest, oldMod =>
    let trimed := TrimSpace text
    if trimed.length = 0 then loadLines rest oldMod
    else
      let line := splitOn ' ' trimed
      if line.length ≠ 2 then .error (.text "digest file bad format")
      else
        match ParseInt (line.getD 1 []) with
        | none => .error (.num (line.getD 1 []))
        | some modTime => loadLines rest (oldMod.set (line.getD 0 []) modTime)

/-- What the scanner of `NewBuildCache` gets from the opened digest file: its bytes, and
nothing when the read fails. -/
def scannerInput (fs : FS) (f : GoString) : GoString :=
  match readAll fs f with
  | .ok data => data
  | .error _ => []

/-- The lines of a text, their carriage return dropped. -/
def fileLines (data : GoString) : List GoString := (rawLines data).map dropCR

/-- The loading of the old digest in `NewBuildCache` from the bytes of the file. -/
def loadDigest (data : GoString) : Except GoError ModMap :=
  loadLines (scanLines data) []

/-- The lines that `saveCache` writes for a mapping, in the order of the iteration:
`fmt.Sprintf("%v %v\n", path, modTime)`. -/
def digestText : ModMap → GoString
  | [] => []
  | (path, modTime) :: rest => path ++ ' ' :: formatInt modTime ++ '\n' :: digestText rest

/-- The line that `saveCache` writes for an entry, without its newline. -/
def digestLine (e : GoString × Int) : GoString := e.1 ++ ' ' :: formatInt e.2

/-- A path that is not empty and has no white space. -/
def plainPath (k : GoString) : Bool := decide (k ≠ []) && k.all (fun c => !isSpace c)

/-- A mapping that the digest file can hold: no path twice, every path not empty and
without white space, every time an `int64`, and every line shorter than the buffer of
the scanner. -/
def ModMap.tidy (m : ModMap) : Prop :=
  (m.map Prod.fst).Nodup ∧
  ∀ e ∈ m, plainPath e.1 = true ∧ -(2 : Int) ^ 63 ≤ e.2 ∧ e.2 < (2 : Int) ^ 63 ∧
    byteLen (digestLine e) < MaxScanTokenSize

instance (m : ModMap) : Decidable m.tidy := by
  unfold ModMap.tidy
  infer_instance

/-- A mapping each of whose entries fits a line of the digest file: the path is not empty
and has no white space, the time is an `int64`, and the line is shorter than the buffer
of the scanner. -/
def ModMap.plain (m : ModMap) : Prop :=
  ∀ e ∈ m, plainPath e.1 = true ∧ -(2 : Int) ^ 63 ≤ e.2 ∧ e.2 < (2 : Int) ^ 63 ∧
    byteLen (digestLine e) < MaxScanTokenSize

instance (m : ModMap) : Decidable m.plain := by
  unfold ModMap.plain
  infer_instance

/-- The environment variables read by `NewBuildCache`; a variable that is not set reads
as the empty string. -/
structure Env where
  GOCOCO_CACHE_DIR : GoString
  GOCOCO_CACHE_DIGEST : GoString
  deriving DecidableEq, Repr

/-- The constant `CACHE_DIR`. -/
def CACHE_DIR : GoString := ".gococo".toList

/-- The constant `CACHE_DIGEST`. -/
def CACHE_DIGEST : GoString := "digest.modtime".toList

/-- The value that `NewBuildCache` gives to the field `cacheDir` (the same text in both
packages). -/
def cacheDirFor (env : Env) (base : GoString) : GoString :=
  if env.GOCOCO_CACHE_DIR ≠ [] then Join base env.GOCOCO_CACHE_DIR else Join base CACHE_DIR

/-- The value that `NewBuildCache` gives to the field `cacheDigestFile` (the same text in
both packages). -/
def cacheDigestFileFor (env : Env) (base : GoString) : GoString :=
  if env.GOCOCO_CACHE_DIGEST ≠ [] then Join (cacheDirFor env base) env.GOCOCO_CACHE_DIGEST
  else Join (cacheDirFor env base) CACHE_DIGEST

/-! ## Package `build`: `pkg/build/cache.go` -/

namespace build

/-- The field of `ModulePublic` that the cache reads. -/
structure ModulePublic where
  GoMod : GoString
  deriving DecidableEq, Repr

/-- The fields of `Package` that the cache reads; `Module` is a pointer that may be
nil. -/
structure Package where
  Dir : GoString
  Module : Option ModulePublic
  GoFiles : List GoString
  CgoFiles : List GoString
  CompiledGoFiles : List GoString
  IgnoredGoFiles : List GoString
  IgnoredOtherFiles : List GoString
  CFiles : List GoString
  CXXFiles : List GoString
  MFiles : List GoString
  HFiles : List GoString
  FFiles : List GoString
  SFiles : List GoString
  SwigFiles : List GoString
  SwigCXXFiles : List GoString
  SysoFiles : List GoString
  EmbedFiles : List GoString
  deriving DecidableEq, Repr

/-- The struct `BuildCache` of package `build`; `skipPattern` is a set of paths. -/
structure BuildCache where
  oldMod : ModMap
  newMod : ModMap
  isCacheNeedsRefresh : Bool
  baseDir : GoString
  cacheDir : GoString
  cacheDigestFile : GoString
  skipPattern : List GoString
  pkgs : List Package
  deriving DecidableEq, Repr

/-- The type `cacheOption`: the options that the package offers, `WithSkip(p)` and
`WithPackage(pkgs)`. `WithPackage` takes a Go map and appends its values in the order in
which `range` visits them, which the language leaves open: the list given here is the
packages of the map in the order of this one call, and another call of the option on the
same map may come with any permutation of it (`cacheOption.sameUpToOrder`). -/
inductive cacheOption
  | WithSkip (p : GoString)
  | WithPackage (pkgs : List Package)
  deriving DecidableEq, Repr

/-- The call `o(bc)` of an option on the controller. -/
def cacheOption.apply : cacheOption → BuildCache → BuildCache
  | .WithSkip p, bc => { bc with skipPattern := Join bc.baseDir p :: bc.skipPattern }
  | .WithPackage pkgs, bc => { bc with pkgs := bc.pkgs ++ pkgs }

/-- The constructor `NewBuildCache` of package `build`. -/
def NewBuildCache (env : Env) (fs : FS) (base : GoString) (opts : List cacheOption) :
    Except GoError BuildCache :=
  if base = [] then .error (.text "empty base path")
  else
    let cacheDir := cacheDirFor env base
    let cacheDigestFile := cacheDigestFileFor env base
    let bc : BuildCache :=
      { oldMod := [], newMod := [], isCacheNeedsRefresh := false, baseDir := base,
        cacheDir := cacheDir, cacheDigestFile := cacheDigestFile, skipPattern := [], pkgs := [] }
    let finish : BuildCache → Except GoError BuildCache := fun bc =>
      let bc := opts.foldl (fun bc o => o.apply bc) bc
      .ok { bc with skipPattern := bc.cacheDir :: bc.skipPattern }
    match Lstat fs cacheDigestFile with
    | .error err =>
      if IsNotExist err then finish { bc with isCacheNeedsRefresh := true } else .error err
    | .ok _ =>
      match Open fs cacheDigestFile with
      | .error err => .error err
      | .ok f =>
        match loadDigest (scannerInput fs f) with
        | .error err => .error err
        | .ok oldMod => finish { bc with oldMod := oldMod }

/-- The method `GetCacheDir`. -/
def BuildCache.GetCacheDir (bc : BuildCache) : GoString := Join bc.cacheDir "cache".toList

/-- The method `NeedRefresh`. -/
def BuildCache.NeedRefresh (bc : BuildCache) : Bool := bc.isCacheNeedsRefresh

/-- The method `sourceFiles`: the files of a package, each joined to its directory. -/
def BuildCache.sourceFiles (_bc : BuildCache) (pkg : Package) : List GoString :=
  let help := fun (s : GoString) => Join pkg.Dir s
  (pkg.GoFiles ++ pkg.CgoFiles ++ pkg.CompiledGoFiles ++ pkg.IgnoredGoFiles ++ pkg.CFiles ++
    pkg.IgnoredOtherFiles ++ pkg.CXXFiles ++ pkg.MFiles ++ pkg.HFiles ++ pkg.FFiles ++
    pkg.SFiles ++ pkg.SwigFiles ++ pkg.SwigCXXFiles ++ pkg.SysoFiles ++ pkg.EmbedFiles).map help

/-- The first loop of `dfsMod`: the files of all the packages. -/
def BuildCache.modFiles (bc : BuildCache) : List GoString :=
  (bc.pkgs.map bc.sourceFiles).flatten

/-- The second loop of `dfsMod`: the modification time of each file goes into `newMod`,
through the link when the file is a symbolic link; the first error ends the loop. -/
def dfsModLoop (fs : FS) : List GoString → BuildCache → Option GoError × BuildCache
  | [], bc => (none, bc)
  | src :: rest, bc =>
    match Lstat fs src with
    | .error err => (some err, bc)
    | .ok info =>
      if info.mode = .symlink then
        match Readlink fs src with
        | .error err => (some err, bc)
        | .ok orig =>
          match Stat fs orig with
          | .error err => (some err, bc)
          | .ok f => dfsModLoop fs rest { bc with newMod := bc.newMod.set src f.modTime }
      else
        match Stat fs src with
        | .error err => (some err, bc)
        | .ok f => dfsModLoop fs rest { bc with newMod := bc.newMod.set src f.modTime }

/-- The method `dfsMod`. -/
def BuildCache.dfsMod (bc : BuildCache) (fs : FS) : Option GoError × BuildCache :=
  dfsModLoop fs bc.modFiles bc

/-- The first loop of `dfsCopy`: `go.mod` and `go.sum` as long as no module file is
known, then the files of the package; `none` when a package has no module (a nil
pointer is read). -/
def copyFiles (bc : BuildCache) : List Package → GoString → List GoString →
    Option (List GoString)
  | [], _, srcFiles => some srcFiles
  | pkg :: rest, modFile, srcFiles =>
    if modFile = [] then
      match pkg.Module with
      | none => none
      | some m =>
        copyFiles bc rest m.GoMod
          (srcFiles ++ [m.GoMod, Join bc.baseDir "go.sum".toList] ++ bc.sourceFiles pkg)
    else copyFiles bc rest modFile (srcFiles ++ bc.sourceFiles pkg)

/-- The second loop of `dfsCopy`: each file is copied to its place under the storage
directory. -/
def dfsCopyLoop (bc : BuildCache) : List GoString → FS → Outcome × FS
  | [], fs => (.nil, fs)
  | src :: rest, fs =>
    match Rel bc.baseDir src with
    | none => (.fatal, fs)
    | some relPath =>
      let dst := Join bc.GetCacheDir relPath
      let dstDir := Dir dst
      match MkdirAll fs dstDir with
      | .error _ => (.fatal, fs)
      | .ok fs1 =>
        match Create fs1 dst with
        | .error err => (.error err, fs1)
        | .ok (fs2, f) =>
          match Open fs2 src with
          | .error err => (.error err, fs2)
          | .ok s =>
            match readAll fs2 s with
            | .error err => (.error err, fs2)
            | .ok data => dfsCopyLoop bc rest (fs2.write f data)

/-- The method `dfsCopy`. -/
def BuildCache.dfsCopy (bc : BuildCache) (fs : FS) : Outcome × FS :=
  match copyFiles bc bc.pkgs [] [] with
  | none => (.panic, fs)
  | some srcFiles => dfsCopyLoop bc srcFiles fs

/-- The method `saveCache`: the digest file is created anew and one line per entry of
`newMod` is written to it. -/
def BuildCache.saveCache (bc : BuildCache) (fs : FS) : Outcome × FS :=
  match Create fs bc.cacheDigestFile with
  | .error err => (.error err, fs)
  | .ok (fs1, f) => (.nil, fs1.write f (digestText bc.newMod))

/-- Lines 140 to 152 of `Cache`: the storage directory is removed and made again, the
files are copied and the digest is saved. The results of `os.MkdirAll` and of `dfsCopy`
are dropped, as in the source; only an exit or a panic inside `dfsCopy` keeps `saveCache`
from running. -/
def BuildCache.refresh (bc : BuildCache) (fs : FS) : Outcome × BuildCache × FS :=
  let cacheDir := bc.GetCacheDir
  match RemoveAll fs cacheDir with
  | .error err => (.error err, bc, fs)
  | .ok fs1 =>
    let fs2 := match MkdirAll fs1 cacheDir with | .ok fs2 => fs2 | .error _ => fs1
    match bc.dfsCopy fs2 with
    | (.fatal, fs3) => (.fatal, bc, fs3)
    | (.panic, fs3) => (.panic, bc, fs3)
    | (_, fs3) =>
      match bc.saveCache fs3 with
      | (err, fs4) => (err, bc, fs4)

/-- The method `Cache` of package `build`; the result of `dfsMod` is dropped, as in the
source. -/
def BuildCache.Cache (bc : BuildCache) (fs : FS) : Outcome × BuildCache × FS :=
  let bc := (bc.dfsMod fs).2
  if !bc.isCacheNeedsRefresh then
    if DeepEqual bc.newMod bc.oldMod then
      (.nil, { bc with isCacheNeedsRefresh := false }, fs)
    else
      BuildCache.refresh { bc with isCacheNeedsRefresh := true } fs
  else BuildCache.refresh bc fs

/-- The fields of the controller that the walker does not write. -/
def BuildCache.sameBut (bc bc' : BuildCache) : Prop :=
  bc'.oldMod = bc.oldMod ∧ bc'.isCacheNeedsRefresh = bc.isCacheNeedsRefresh ∧
  bc'.baseDir = bc.baseDir ∧ bc'.cacheDir = bc.cacheDir ∧
  bc'.cacheDigestFile = bc.cacheDigestFile ∧ bc'.skipPattern = bc.skipPattern ∧
  bc'.pkgs = bc.pkgs

end build

namespace build

/-- The reads of the walker of package `build` over `files` give the same on two
filesystems: `os.Lstat`, `os.Readlink` and `os.Stat` of each file, and `os.Stat` of the
target of each link. -/
def sameSources (fs fs1 : FS) (files : List GoString) : Prop :=
  ∀ p ∈ files, Lstat fs1 p = Lstat fs p ∧ Readlink fs1 p = Readlink fs p ∧
    Stat fs1 p = Stat fs p ∧ ∀ orig, Readlink fs p = .ok orig → Stat fs1 orig = Stat fs orig

/-- Two calls of an option that differ at most in the order in which the `range` of
`WithPackage` visits the entries of its map: Go leaves that order open, and it changes from
one call to the next. -/
def cacheOption.sameUpToOrder : cacheOption → cacheOption → Prop
  | .WithSkip p, .WithSkip q => p = q
  | .WithPackage a, .WithPackage b => a.Perm b
  | _, _ => False

/-- The body of the second loop of `dfsMod` for one file: the time that goes into `newMod`,
or the error that ends the loop. -/
def modTimeOf (fs : FS) (src : GoString) : Except GoError Int :=
  match Lstat fs src with
  | .error err => .error err
  | .ok info =>
    if info.mode = .symlink then
      match Readlink fs src with
      | .error err => .error err
      | .ok orig =>
        match Stat fs orig with
        | .error err => .error err
        | .ok f => .ok f.modTime
    else
      match Stat fs src with
      | .error err => .error err
      | .ok f => .ok f.modTime

end build

/-! ## Package `cache`: `pkg/build/cache/copy.go` and `option.go` -/

namespace cache

/-- The struct `BuildCache` of package `cache`; `skipPattern` is a set of paths. -/
structure BuildCache where
  oldMod : ModMap
  newMod : ModMap
  isCacheNeedsRefresh : Bool
  baseDir : GoString
  cacheDir : GoString
  cacheDigestFile : GoString
  skipPattern : List GoString
  deriving DecidableEq, Repr

/-- The type `Option` of package `cache`: the option that the package offers,
`WithSkip(p)`. -/
inductive CacheOption
  | WithSkip (p : GoString)
  deriving DecidableEq, Repr

/-- The call `o(bc)` of an option on the controller. -/
def CacheOption.apply : CacheOption → BuildCache → BuildCache
  | .WithSkip p, bc => { bc with skipPattern := Join bc.baseDir p :: bc.skipPattern }

/-- The constructor `NewBuildCache` of package `cache`. -/
def NewBuildCache (env : Env) (fs : FS) (base : GoString) (opts : List CacheOption) :
    Except GoError BuildCache :=
  if base = [] then .error (.text "empty base path")
  else
    let cacheDir := cacheDirFor env base
    let cacheDigestFile := cacheDigestFileFor env base
    let bc : BuildCache :=
      { oldMod := [], newMod := [], isCacheNeedsRefresh := false, baseDir := base,
        cacheDir := cacheDir, cacheDigestFile := cacheDigestFile, skipPattern := [] }
    let finish : BuildCache → Except GoError BuildCache := fun bc =>
      let bc := opts.foldl (fun bc o => o.apply bc) bc
      .ok { bc with skipPattern := bc.cacheDir :: bc.skipPattern }
    match Lstat fs cacheDigestFile with
    | .error err =>
      if IsNotExist err then finish { bc with isCacheNeedsRefresh := true } else .error err
    | .ok _ =>
      match Open fs cacheDigestFile with
      | .error err => .error err
      | .ok f =>
        match loadDigest (scannerInput fs f) with
        | .error err => .error err
        | .ok oldMod => finish { bc with oldMod := oldMod }

/-- The method `GetCacheDir`. -/
def BuildCache.GetCacheDir (bc : BuildCache) : GoString := Join bc.cacheDir "cache".toList

/-- The method `NeedRefresh`. -/
def BuildCache.NeedRefresh (bc : BuildCache) : Bool := bc.isCacheNeedsRefresh

/-- The method `finfo`: the modification time of the entry goes into `newMod`. -/
def BuildCache.finfo (bc : BuildCache) (fs : FS) (src : GoString) : Outcome × BuildCache :=
  match Lstat fs src with
  | .error err => (.error err, bc)
  | .ok f => (.nil, { bc with newMod := bc.newMod.set src f.modTime })

/-- The loop of the method `dinfo` over the entries of a directory; `dfs2` is the walker
it calls on each entry. -/
def dinfoLoop (dfs2 : BuildCache → GoString → FileInfo → Outcome × BuildCache) (fs : FS)
    (src : GoString) : List GoString → BuildCache → Outcome × BuildCache
  | [], bc => (.nil, bc)
  | content :: rest, bc =>
    let cs := Join src content
    match DirEntryInfo fs src content with
    | .error err => (.error err, bc)
    | .ok finfo =>
      match dfs2 bc cs finfo with
      | (.nil, bc1) => dinfoLoop dfs2 fs src rest bc1
      | (err, bc1) => (err, bc1)

/-- The method `dinfo`. -/
def BuildCache.dinfo (dfs2 : BuildCache → GoString → FileInfo → Outcome × BuildCache)
    (bc : BuildCache) (fs : FS) (src : GoString) : Outcome × BuildCache :=
  match ReadDir fs src with
  | .error err => (.error err, bc)
  | .ok contents => dinfoLoop dfs2 fs src contents bc

/-- The method `sinfo`: the walker goes on at the target of the link. -/
def BuildCache.sinfo (dfs2 : BuildCache → GoString → FileInfo → Outcome × BuildCache)
    (bc : BuildCache) (fs : FS) (src : GoString) : Outcome × BuildCache :=
  match Readlink fs src with
  | .error err => (.error err, bc)
  | .ok orig =>
    match Lstat fs orig with
    | .error err => (.error err, bc)
    | .ok info => dfs2 bc orig info

/-- The method `dfs2`, the walker that fills `newMod`; `fuel` bounds the depth of the
recursion. -/
def dfs2 : Nat → FS → BuildCache → GoString → FileInfo → Outcome × BuildCache
  | 0, _, bc, _, _ => (.diverge, bc)
  | fuel + 1, fs, bc, src, info =>
    if src ∈ bc.skipPattern then (.nil, bc)
    else
      match info.mode with
      | .symlink => bc.sinfo (dfs2 fuel fs) fs src
      | .dir => bc.dinfo (dfs2 fuel fs) fs src
      | .namedPipe => (.nil, bc)
      | _ => bc.finfo fs src

/-- The method `fcopy`. -/
def fcopy (fs : FS) (dst src : GoString) : Outcome × FS :=
  match MkdirAll fs (Dir dst) with
  | .error err => (.error err, fs)
  | .ok fs1 =>
    match Create fs1 dst with
    | .error err => (.error err, fs1)
    | .ok (fs2, f) =>
      match Open fs2 src with
      | .error err => (.error err, fs2)
      | .ok s =>
        match readAll fs2 s with
        | .error err => (.error err, fs2)
        | .ok data => (.nil, fs2.write f data)

/-- The loop of the method `dcopy` over the entries of a directory; `dfs` is the copier
it calls on each entry. -/
def dcopyLoop (dfs : FS → GoString → GoString → FileInfo → Outcome × FS)
    (dst src : GoString) : List GoString → FS → Outcome × FS
  | [], fs => (.nil, fs)
  | content :: rest, fs =>
    let cs := Join src content
    let cd := Join dst content
    match DirEntryInfo fs src content with
    | .error err => (.error err, fs)
    | .ok finfo =>
      match dfs fs cd cs finfo with
      | (.nil, fs1) => dcopyLoop dfs dst src rest fs1
      | (err, fs1) => (err, fs1)

/-- The method `dcopy`. -/
def dcopy (dfs : FS → GoString → GoString → FileInfo → Outcome × FS) (fs : FS)
    (dst src : GoString) : Outcome × FS :=
  match ReadDir fs src with
  | .error err => (.error err, fs)
  | .ok contents => dcopyLoop dfs dst src contents fs

/-- The method `scopy`: the target of the link is copied in the place of the link. -/
def scopy (dfs : FS → GoString → GoString → FileInfo → Outcome × FS) (fs : FS)
    (dst src : GoString) : Outcome × FS :=
  match Readlink fs src with
  | .error err => (.error err, fs)
  | .ok orig =>
    match Lstat fs orig with
    | .error err => (.error err, fs)
    | .ok info => dfs fs dst orig info

/-- The method `dfs`, the copier; `fuel` bounds the depth of the recursion. -/
def dfs (bc : BuildCache) : Nat → FS → GoString → GoString → FileInfo → Outcome × FS
  | 0, fs, _, _, _ => (.diverge, fs)
  | fuel + 1, fs, dst, src, info =>
    if src ∈ bc.skipPattern then (.nil, fs)
    else
      match info.mode with
      | .symlink => scopy (dfs bc fuel) fs dst src
      | .dir => dcopy (dfs bc fuel) fs dst src
      | .namedPipe => (.nil, fs)
      | _ => fcopy fs dst src

/-- The method `saveCache`: the digest file is created anew and one line per entry of
`newMod` is written to it. -/
def BuildCache.saveCache (bc : BuildCache) (fs : FS) : Outcome × FS :=
  match Create fs bc.cacheDigestFile with
  | .error err => (.error err, fs)
  | .ok (fs1, f) => (.nil, fs1.write f (digestText bc.newMod))

/-- Lines 130 to 146 of `Cache`: the storage directory is removed (the result of
`os.RemoveAll` is dropped) and made again, the project is copied and the digest is
saved. -/
def BuildCache.refresh (bc : BuildCache) (fuel : Nat) (fs : FS) (info : FileInfo) :
    Outcome × BuildCache × FS :=
  let cache := Join bc.cacheDir "cache".toList
  let fs1 := match RemoveAll fs cache with | .ok fs1 => fs1 | .error _ => fs
  match MkdirAll fs1 cache with
  | .error err => (.error err, bc, fs1)
  | .ok fs2 =>
    match dfs bc fuel fs2 cache bc.baseDir info with
    | (.nil, fs3) =>
      match bc.saveCache fs3 with
      | (err, fs4) => (err, bc, fs4)
    | (err, fs3) => (err, bc, fs3)

/-- The method `Cache` of package `cache`. -/
def BuildCache.Cache (bc : BuildCache) (fuel : Nat) (fs : FS) : Outcome × BuildCache × FS :=
  match Lstat fs bc.baseDir with
  | .error err => (.error err, bc, fs)
  | .ok info =>
    match dfs2 fuel fs bc bc.baseDir info with
    | (.nil, bc) =>
      if !bc.isCacheNeedsRefresh then
        if DeepEqual bc.newMod bc.oldMod then
          (.nil, { bc with isCacheNeedsRefresh := false }, fs)
        else
          BuildCache.refresh { bc with isCacheNeedsRefresh := true } fuel fs info
      else BuildCache.refresh bc fuel fs info
    | (err, bc) => (err, bc, fs)

/-- The fields of the controller that the walker does not write. -/
def BuildCache.sameBut (bc bc' : BuildCache) : Prop :=
  bc'.oldMod = bc.oldMod ∧ bc'.isCacheNeedsRefresh = bc.isCacheNeedsRefresh ∧
  bc'.baseDir = bc.baseDir ∧ bc'.cacheDir = bc.cacheDir ∧
  bc'.cacheDigestFile = bc.cacheDigestFile ∧ bc'.skipPattern = bc.skipPattern

end cache

/-! ## `golang.org/x/mod/modfile`: the replace directives of a parsed `go.mod` -/

namespace modfile

/-- The struct `module.Version`. -/
structure Version where
  Path : GoString
  Version : GoString
  deriving DecidableEq, Repr

/-- The struct `Replace`: a replace directive. `Syntax` is the pointer to the line of the
directive, given here by the tokens of the line; it is nil in the zero value that
`DropReplace` and `AddReplace` leave in the place of a directive they remove. -/
structure Replace where
  Old : Version
  New : Version
  Syntax : Option (List GoString)
  deriving DecidableEq, Repr

/-- The zero value `Replace{}`. -/
def Replace.zero : Replace := ⟨⟨[], []⟩, ⟨[], []⟩, none⟩

/-- The field `Replace` of the struct `File`, the directives in the order of the file. -/
structure File where
  Replace : List Replace
  deriving DecidableEq, Repr

/-- The loop of `File.DropReplace`: every directive with this old path and old version is
marked as removed in the syntax and set to the zero value; `none` is the panic of
`markRemoved` on a nil line. -/
def dropLoop (oldPath oldVers : GoString) : List Replace → Option (List Replace)
  | [] => some []
  | r :: rest =>
    if r.Old.Path = oldPath ∧ r.Old.Version = oldVers then
      match r.Syntax with
      | none => none
      | some _ =>
        match dropLoop oldPath oldVers rest with
        | none => none
        | some rest1 => some (Replace.zero :: rest1)
    else
      match dropLoop oldPath oldVers rest with
      | none => none
      | some rest1 => some (r :: rest1)

/-- The method `File.DropReplace`. -/
def File.DropReplace (f : File) (oldPath oldVers : GoString) : Option File :=
  match dropLoop oldPath oldVers f.Replace with
  | none => none
  | some rs => some ⟨rs⟩

/-- The tokens that `AddReplace` builds for the line of the directive (quoting left
out). -/
def replaceTokens (oldPath oldVers newPath newVers : GoString) : List GoString :=
  ["replace".toList, oldPath] ++ (if oldVers ≠ [] then [oldVers] else []) ++
    ["=>".toList, newPath] ++ (if newVers ≠ [] then [newVers] else [])

/-- The loop of `addReplace`: the first directive with the old path, and with the old
version unless that is empty, takes the new target and the new tokens; later ones are
removed; the result is the directives and whether one is still needed. `none` is the
panic on a nil line. -/
def addLoop (oldPath oldVers : GoString) (new : Version) (tokens : List GoString) :
    Bool → List Replace → Option (List Replace × Bool)
  | need, [] => some ([], need)
  | need, r :: rest =>
    if r.Old.Path = oldPath ∧ (oldVers = [] ∨ r.Old.Version = oldVers) then
      match r.Syntax with
      | none => none
      | some _ =>
        if need then
          match addLoop oldPath oldVers new tokens false rest with
          | none => none
          | some (rest1, need1) =>
            some ({ r with New := new, Syntax := some tokens } :: rest1, need1)
        else
          match addLoop oldPath oldVers new tokens need rest with
          | none => none
          | some (rest1, need1) => some (Replace.zero :: rest1, need1)
    else
      match addLoop oldPath oldVers new tokens need rest with
      | none => none
      | some (rest1, need1) => some (r :: rest1, need1)

/-- The method `File.AddReplace`: when no directive took the new target, one is appended. -/
def File.AddReplace (f : File) (oldPath oldVers newPath newVers : GoString) : Option File :=
  let tokens := replaceTokens oldPath oldVers newPath newVers
  match addLoop oldPath oldVers ⟨newPath, newVers⟩ tokens true f.Replace with
  | none => none
  | some (rs, need) =>
    if need then
      some ⟨rs ++ [⟨⟨oldPath, oldVers⟩, ⟨newPath, newVers⟩, some tokens⟩]⟩
    else some ⟨rs⟩

/-- The method `File.Cleanup`, on the directives: the zero values are dropped. -/
def File.Cleanup (f : File) : File := ⟨f.Replace.filter (fun r => r.Old.Path ≠ [])⟩

end modfile

/-! ## Package `build`: `updateGoModFile` of `pkg/build/tmpfolder.go` -/

namespace build

/-- The fields of `Build` that `updateGoModFile` reads and writes. -/
structure Build where
  CacheProjectDir : GoString
  IsModEdit : Bool
  deriving DecidableEq, Repr

/-- Go `filepath.Abs` in the working directory `wd`. -/
def Abs (wd path : GoString) : GoString :=
  if IsAbs path then Clean path else Join wd path

/-- The loop of `updateGoModFile` over the indexes of the directives: `count` indexes
are left, from `index` on. A directive without new version whose new path is not
absolute is dropped and added again with the absolute path. The result is the file and
`updateFlag`; `none` is a panic inside `DropReplace` or `AddReplace`. -/
def updateLoop (b : Build) (wd : GoString) :
    Nat → Nat → modfile.File → Bool → Option (modfile.File × Bool)
  | 0, _, f, updateFlag => some (f, updateFlag)
  | count + 1, index, f, updateFlag =>
    let replace := f.Replace.getD index modfile.Replace.zero
    let oldPath := replace.Old.Path
    let oldVersion := replace.Old.Version
    let newPath := replace.New.Path
    let newVersion := replace.New.Version
    if newVersion = [] ∧ IsAbs newPath = false then
      let fullPath := Join b.CacheProjectDir newPath
      let absPath := Abs wd fullPath
      match f.DropReplace oldPath oldVersion with
      | none => none
      | some f1 =>
        match f1.AddReplace oldPath oldVersion absPath newVersion with
        | none => none
        | some f2 => updateLoop b wd count (index + 1) f2 true
    else updateLoop b wd count (index + 1) f updateFlag

/-- What `updateGoModFile` leaves: the `Build`, the file after `Cleanup`, and whether the
staged `go.mod` was written. -/
structure Rewritten where
  b : Build
  file : modfile.File
  written : Bool
  deriving DecidableEq, Repr

/-- The method `updateGoModFile`, from the parsed file on; the range of the loop is the
number of directives at its start. `none` is a panic. -/
def Build.updateGoModFile (b : Build) (wd : GoString) (oriGoModFile : modfile.File) :
    Option Rewritten :=
  match updateLoop b wd oriGoModFile.Replace.length 0 oriGoModFile false with
  | none => none
  | some (f, updateFlag) =>
    if updateFlag then some ⟨{ b with IsModEdit := true }, f.Cleanup, true⟩
    else some ⟨b, f.Cleanup, false⟩

end build

/-! ## The staging pipeline: `buildAction`, `NewBuild`, `copyProjectToTmp` and `Build` -/

namespace build

/-- The steps of a run of `buildAction` that touch the build lock or the staged copy, in
the order in which they happen. -/
inductive Event
  /-- The call `buildLock.Lock()` has returned nil. -/
  | lock
  /-- The call `buildCache.Cache()`. -/
  | cache
  /-- The deferred call `buildLock.Unlock()`. -/
  | unlock
  /-- The call `os.ReadFile(tempModfile)` of `updateGoModFile`. -/
  | readMod
  /-- The call `os.WriteFile(tempModfile, ...)` of `updateGoModFile`. -/
  | writeMod
  /-- The call `doBuildInTemp()`. -/
  | goBuild
  deriving DecidableEq, Repr

/-- Whether the build lock is held when the steps `events` have happened, the first step
first: `Lock` takes it, `Unlock` gives it back. -/
def heldAfter (events : List Event) : Bool :=
  events.foldl (fun h e => match e with | .lock => true | .unlock => false | _ => h) false

/-- Whether some reading or overwriting of the staged `go.mod` among the steps `events`
happens while the build lock is held. -/
def rewritesUnderLock (events : List Event) : Bool :=
  (List.range events.length).any (fun i =>
    (decide (events.get? i = some .readMod) || decide (events.get? i = some .writeMod)) &&
      heldAfter (events.take i))

/-- What a part of the pipeline leaves: how it ended, the steps it took, the `Build` and
the filesystem. -/
structure Staged where
  outcome : Outcome
  events : List Event
  b : Build
  fs : FS
  deriving DecidableEq, Repr

/-- The method `copyProjectToTmp`. `curProjectDir` and `pkgs` are the fields
`CurProjectDir` and `Pkgs` that `readProjectMetaInfo` has set, `lockOk` tells whether
`buildLock.Lock()` returns nil. Each `log.Fatalf` ends the process at once, without
running the deferred `Unlock`; a panic inside `Cache` runs it; on the normal return it
runs when the method returns. -/
def Build.copyProjectToTmp (b : Build) (env : Env) (fs : FS) (curProjectDir : GoString)
    (pkgs : List Package) (lockOk : Bool) : Staged :=
  match NewBuildCache env fs curProjectDir [.WithPackage pkgs] with
  | .error _ => ⟨.fatal, [], b, fs⟩
  | .ok buildCache =>
    if lockOk = false then ⟨.fatal, [], b, fs⟩
    else
      match buildCache.Cache fs with
      | (.nil, buildCache1, fs1) =>
        ⟨.nil, [.lock, .cache, .unlock], { b with CacheProjectDir := buildCache1.GetCacheDir },
          fs1⟩
      | (.panic, _, fs1) => ⟨.panic, [.lock, .cache, .unlock], b, fs1⟩
      | (_, _, fs1) => ⟨.fatal, [.lock, .cache], b, fs1⟩

/-- The function `NewBuild`, from `copyProjectToTmp` on: `parseArgs` and
`readProjectMetaInfo` run external commands and do not touch the lock or the staged copy;
`info` is what they leave in `CurProjectDir` and `Pkgs`, `none` when one of them ends the
process. `displayProjectMetaInfo` only logs. -/
def NewBuild (env : Env) (fs : FS) (info : Option (GoString × List Package)) (lockOk : Bool) :
    Staged :=
  match info with
  | none => ⟨.fatal, [], ⟨[], false⟩, fs⟩
  | some (curProjectDir, pkgs) =>
    Build.copyProjectToTmp ⟨[], false⟩ env fs curProjectDir pkgs lockOk

/-- The method `Build`: `updateGoModFile`, with its reading and writing of the staged
`go.mod`, then `doBuildInTemp`. `parse` and `format` stand for `modfile.Parse` and
`File.Format`. -/
def Build.Build (b : Build) (wd : GoString) (fs : FS)
    (parse : GoString → Option modfile.File) (format : modfile.File → GoString) : Staged :=
  let tempModfile := Join b.CacheProjectDir "go.mod".toList
  match ReadFile fs tempModfile with
  | .error _ => ⟨.fatal, [.readMod], b, fs⟩
  | .ok buf =>
    match parse buf with
    | none => ⟨.fatal, [.readMod], b, fs⟩
    | some oriGoModFile =>
      match b.updateGoModFile wd oriGoModFile with
      | none => ⟨.panic, [.readMod], b, fs⟩
      | some r =>
        if r.written then
          match WriteFile fs tempModfile (format r.file) with
          | .error _ => ⟨.fatal, [.readMod, .writeMod], b, fs⟩
          | .ok fs1 => ⟨.nil, [.readMod, .writeMod, .goBuild], r.b, fs1⟩
        else ⟨.nil, [.readMod, .goBuild], r.b, fs⟩

/-- The function `buildAction` of `cmd/build.go`: `NewBuild`, then `Build` on what it
returns. -/
def buildAction (env : Env) (fs : FS) (info : Option (GoString × List Package))
    (lockOk : Bool) (wd : GoString) (parse : GoString → Option modfile.File)
    (format : modfile.File → GoString) : Staged :=
  let s := NewBuild env fs info lockOk
  match s.outcome with
  | .nil =>
    let t := s.b.Build wd s.fs parse format
    ⟨t.outcome, s.events ++ t.events, t.b, t.fs⟩
  | _ => s

end build

/-! ## Well-formed trees -/

/-- A name that a directory entry can have: not empty, without `/`, and neither `.` nor
`..`. -/
def simpleName (n : GoString) : Bool :=
  decide (n ≠ []) && decide ('/' ∉ n) && decide (n ≠ ['.']) && decide (n ≠ ['.', '.'])

/-- The absolute path with the given elements. -/
def rootedPath (elems : List GoString) : GoString := '/' :: joinWith '/' elems

/-- The elements that `filepath.Clean` has kept so far, the last one first: names, and
under them `..` elements, none of these when the path is rooted. -/
def cleanForm (rooted : Bool) (acc : List GoString) : Prop :=
  ∃ (k : Nat) (names : List GoString), (∀ s ∈ names, simpleName s = true) ∧
    acc = names ++ List.replicate k ['.', '.'] ∧ (rooted = true → k = 0)

/-- The elements of a path in cleaned form: `..` elements, none of them when the path is
rooted, and then names. -/
def pathForm (rooted : Bool) (elems : List GoString) : Prop :=
  ∃ (k : Nat) (names : List GoString), (∀ s ∈ names, simpleName s = true) ∧
    elems = List.replicate k ['.', '.'] ++ names ∧ (rooted = true → k = 0)

/-- The path with the given elements, as `filepath.Clean` writes it: `/` in front when
rooted, and `.` when there is nothing to write. -/
def renderPath (rooted : Bool) (elems : List GoString) : GoString :=
  if rooted then '/' :: joinWith '/' elems
  else if joinWith '/' elems = [] then ['.'] else joinWith '/' elems

/-- A relative directory none of whose elements is `..` and one of whose elements is a
name. -/
def innerDir (d : GoString) : Bool :=
  (splitOn '/' d).all (fun c => decide (c ≠ ['.', '.'])) && (splitOn '/' d).any simpleName

/-- No entry of the filesystem is a symbolic link. -/
def FS.noSymlink (fs : FS) : Bool :=
  fs.nodes.all (fun e => match e.2 with | .symlink _ _ => false | _ => true)

/-- Every name listed in a directory of the filesystem is a name that a directory entry
can have. -/
def FS.simpleNames (fs : FS) : Bool :=
  fs.nodes.all (fun e => match e.2 with | .dir _ names _ => names.all simpleName | _ => true)

/-- An entry of a tree without links: it is not a symbolic link, and when it is a directory
it lists names that a directory entry can have. -/
def Node.plain : Node → Bool
  | .symlink _ _ => false
  | .dir _ names _ => names.all simpleName
  | _ => true

/-- A tree without symbolic links whose directories list proper names. -/
def FS.plain (fs : FS) : Prop := fs.noSymlink = true ∧ fs.simpleNames = true

namespace cache

/-- The path `k` has been reached by descent from the directory with the elements
`elems`: it is the absolute path of elements `ek` that extend `elems`, and no path on
the way from that directory down to `k` is in the skip set. -/
def reachedBelow (skip : List GoString) (elems : List GoString) (k : GoString) : Prop :=
  ∃ ek, (∀ c ∈ ek, simpleName c = true) ∧ k = rootedPath ek ∧ elems <+: ek ∧
    ∀ pre, elems <+: pre → pre <+: ek → rootedPath pre ∉ skip

/-- The entry `q` is a place where the copier, started with the destination of elements
`el` for the source of elements `es`, may write: the destination of a source reached by
descent through names `rel` none of which leads through the skip set, or a directory on
the way to that destination. -/
def copiedPlace (skip : List GoString) (el es : List GoString) (q : GoString) : Prop :=
  ∃ rel pre, (∀ c ∈ rel, simpleName c = true) ∧ pre <+: el ++ rel ∧
    Clean q = rootedPath pre ∧ ∀ mid, mid <+: rel → rootedPath (es ++ mid) ∉ skip

end cache

/-! ## A small project, for the concrete cases -/

/-- No variable is set. -/
def exEnv : Env := ⟨[], []⟩

/-- A package in `/p` with the files `a.go` and `l`, in a module with `/p/go.mod`. -/
def exPkg : build.Package :=
  { Dir := "/p".toList, Module := some ⟨"/p/go.mod".toList⟩,
    GoFiles := ["a.go".toList, "l".toList], CgoFiles := [], CompiledGoFiles := [],
    IgnoredGoFiles := [], IgnoredOtherFiles := [], CFiles := [], CXXFiles := [], MFiles := [],
    HFiles := [], FFiles := [], SFiles := [], SwigFiles := [], SwigCXXFiles := [],
    SysoFiles := [], EmbedFiles := [] }

/-- The project `/p` with `go.mod`, `go.sum`, `a.go` and the link `l` to the file
`/t/f`. -/
def exFS : FS :=
  { now := 7,
    nodes := [
      ("/".toList, .dir 1 ["p".toList, "t".toList] true),
      ("/p".toList, .dir 2 ["go.mod".toList, "go.sum".toList, "a.go".toList, "l".toList] true),
      ("/p/a.go".toList, .file 100 "package a".toList true),
      ("/p/go.mod".toList, .file 50 "module x".toList true),
      ("/p/go.sum".toList, .file 51 [] true),
      ("/p/l".toList, .symlink 3 "/t/f".toList),
      ("/t".toList, .dir 2 ["f".toList] true),
      ("/t/f".toList, .file 77 "data".toList true)] }

/-- A controller of package `build` on `/p` whose old mapping has another time for
`a.go`. -/
def exBuildStale : build.BuildCache :=
  { oldMod := [("/p/a.go".toList, 99), ("/p/l".toList, 77)], newMod := [],
    isCacheNeedsRefresh := false, baseDir := "/p".toList, cacheDir := "/p/.gococo".toList,
    cacheDigestFile := "/p/.gococo/digest.modtime".toList,
    skipPattern := ["/p/.gococo".toList], pkgs := [exPkg] }

/-- A controller of package `build` on `/p` whose old mapping is up to date. -/
def exBuildFresh : build.BuildCache :=
  { exBuildStale with oldMod := [("/p/a.go".toList, 100), ("/p/l".toList, 77)] }

/-- A controller of package `cache` on `/p` whose old mapping has another time for
`a.go`. -/
def exCacheStale : cache.BuildCache :=
  { oldMod := [("/p/a.go".toList, 99), ("/p/go.mod".toList, 50), ("/p/go.sum".toList, 51),
      ("/t/f".toList, 77)],
    newMod := [], isCacheNeedsRefresh := false, baseDir := "/p".toList,
    cacheDir := "/p/.gococo".toList, cacheDigestFile := "/p/.gococo/digest.modtime".toList,
    skipPattern := ["/p/.gococo".toList] }

/-- A controller of package `cache` on `/p` whose old mapping is up to date. -/
def exCacheFresh : cache.BuildCache :=
  { exCacheStale with
    oldMod := [("/p/a.go".toList, 100), ("/p/go.mod".toList, 50), ("/p/go.sum".toList, 51),
      ("/t/f".toList, 77)] }

/-- A package in `/my p`, a directory with a space in its name, with the file `a.go`. -/
def spacePkg : build.Package :=
  { Dir := "/my p".toList, Module := some ⟨"/my p/go.mod".toList⟩,
    GoFiles := ["a.go".toList], CgoFiles := [], CompiledGoFiles := [],
    IgnoredGoFiles := [], IgnoredOtherFiles := [], CFiles := [], CXXFiles := [], MFiles := [],
    HFiles := [], FFiles := [], SFiles := [], SwigFiles := [], SwigCXXFiles := [],
    SysoFiles := [], EmbedFiles := [] }

/-- The project `/my p` with `go.mod`, `go.sum` and `a.go`, and no digest file. -/
def spaceFS : FS :=
  { now := 7,
    nodes := [
      ("/".toList, .dir 1 ["my p".toList] true),
      ("/my p".toList, .dir 2 ["go.mod".toList, "go.sum".toList, "a.go".toList] true),
      ("/my p/a.go".toList, .file 100 "package a".toList true),
      ("/my p/go.mod".toList, .file 50 "module x".toList true),
      ("/my p/go.sum".toList, .file 51 [] true)] }

/-- The first field of a line of the digest, after trimming. -/
def firstField (text : GoString) : GoString := (splitOn ' ' (TrimSpace text)).getD 0 []

/-- The second field of a line of the digest, after trimming. -/
def secondField (text : GoString) : GoString := (splitOn ' ' (TrimSpace text)).getD 1 []

/-- A line of the digest that the loader accepts: after trimming, two fields separated by
one space, the second one a decimal `int64`. -/
def wellFormedLine (text : GoString) : Prop :=
  (splitOn ' ' (TrimSpace text)).length = 2 ∧ (ParseInt (secondField text)).isSome = true

/-- A line of the digest that is not blank after trimming and that the loader does not
accept. -/
def malformedLine (text : GoString) : Prop :=
  TrimSpace text ≠ [] ∧ ¬ wellFormedLine text

instance (text : GoString) : Decidable (wellFormedLine text) := by
  unfold wellFormedLine
  infer_instance

instance (text : GoString) : Decidable (malformedLine text) := by
  unfold malformedLine
  infer_instance

/-- The value that a line gives to the path `k`: the number in its second field, when the
line is not blank and its first field is `k`. -/
def lineValue (text k : GoString) : Option Int :=
  if TrimSpace text ≠ [] ∧ firstField text = k then ParseInt (secondField text) else none

/-- The value that the last line with first field `k` gives to `k`. -/
def lastValue : List GoString → GoString → Option Int
  | [], _ => none
  | text :: rest, k => (lastValue rest k).or (lineValue text k)

/-- A digest file whose first line has 65536 bytes and whose second line, `bad`, has one
field. -/
def longDigest : GoString := List.replicate 65536 'a' ++ '\n' :: "bad\n".toList

/-- A digest file with a blank line, two lines for the same path and a carriage
return. -/
def exDigest : GoString := "/p/a.go 100\n\n  /p/l 77\n/p/a.go 101\r\n".toList

/-- A package in `/p` that lists `a.go` and then `gone.go`, a file that does not
exist. -/
def gonePkg : build.Package :=
  { Dir := "/p".toList, Module := some ⟨"/p/go.mod".toList⟩,
    GoFiles := ["a.go".toList, "gone.go".toList], CgoFiles := [], CompiledGoFiles := [],
    IgnoredGoFiles := [], IgnoredOtherFiles := [], CFiles := [], CXXFiles := [], MFiles := [],
    HFiles := [], FFiles := [], SFiles := [], SwigFiles := [], SwigCXXFiles := [],
    SysoFiles := [], EmbedFiles := [] }

/-- A controller of package `build` on `/p` for the package with the missing file, whose
old mapping is what the walk records before it fails. -/
def goneBuildSame : build.BuildCache :=
  { oldMod := [("/p/a.go".toList, 100)], newMod := [], isCacheNeedsRefresh := false,
    baseDir := "/p".toList, cacheDir := "/p/.gococo".toList,
    cacheDigestFile := "/p/.gococo/digest.modtime".toList,
    skipPattern := ["/p/.gococo".toList], pkgs := [gonePkg] }

/-- The same controller with an empty old mapping. -/
def goneBuildOther : build.BuildCache := { goneBuildSame with oldMod := [] }

/-- A package in `/p` with the file `a.go`. -/
def onePkg : build.Package :=
  { Dir := "/p".toList, Module := some ⟨"/p/go.mod".toList⟩,
    GoFiles := ["a.go".toList], CgoFiles := [], CompiledGoFiles := [],
    IgnoredGoFiles := [], IgnoredOtherFiles := [], CFiles := [], CXXFiles := [], MFiles := [],
    HFiles := [], FFiles := [], SFiles := [], SwigFiles := [], SwigCXXFiles := [],
    SysoFiles := [], EmbedFiles := [] }

/-- The project `/p` with `go.mod` and `a.go`, without `go.sum` and without a digest
file. -/
def noSumFS : FS :=
  { now := 7,
    nodes := [
      ("/".toList, .dir 1 ["p".toList] true),
      ("/p".toList, .dir 2 ["go.mod".toList, "a.go".toList] true),
      ("/p/a.go".toList, .file 100 "package a".toList true),
      ("/p/go.mod".toList, .file 50 "module x".toList true)] }

/-- The directive `replace example.com/a v1.0.0 => example.com/b v1.2.0`. -/
def pinnedDirective : modfile.Replace :=
  ⟨⟨"example.com/a".toList, "v1.0.0".toList⟩, ⟨"example.com/b".toList, "v1.2.0".toList⟩,
    some (modfile.replaceTokens "example.com/a".toList "v1.0.0".toList "example.com/b".toList
      "v1.2.0".toList)⟩

/-- The directive `replace example.com/a => ../a`. -/
def localDirective : modfile.Replace :=
  ⟨⟨"example.com/a".toList, []⟩, ⟨"../a".toList, []⟩,
    some (modfile.replaceTokens "example.com/a".toList [] "../a".toList [])⟩

/-- A `go.mod` that replaces one version of `example.com/a` by a published module and
the other versions by a local directory. -/
def pinnedFile : modfile.File := ⟨[pinnedDirective, localDirective]⟩

/-- The `Build` of the project `/p`, staged in `/p/.gococo/cache`. -/
def exBuild : build.Build := ⟨"/p/.gococo/cache".toList, false⟩

/-- The project `/p` with `a.go`, the directory `vendor` with `x.go`, and the link `l`
to `/p/vendor/x.go`. -/
def skipFS : FS :=
  { now := 7,
    nodes := [
      ("/".toList, .dir 1 ["p".toList] true),
      ("/p".toList, .dir 2 ["a.go".toList, "l".toList, "vendor".toList] true),
      ("/p/a.go".toList, .file 100 "package a".toList true),
      ("/p/l".toList, .symlink 3 "/p/vendor/x.go".toList),
      ("/p/vendor".toList, .dir 4 ["x.go".toList] true),
      ("/p/vendor/x.go".toList, .file 55 "package x".toList true)] }

/-- The project `/p` with `a.go` and the directory `vendor` with `x.go`, without
links. -/
def plainFS : FS :=
  { now := 7,
    nodes := [
      ("/".toList, .dir 1 ["p".toList] true),
      ("/p".toList, .dir 2 ["a.go".toList, "vendor".toList] true),
      ("/p/a.go".toList, .file 100 "package a".toList true),
      ("/p/vendor".toList, .dir 4 ["x.go".toList] true),
      ("/p/vendor/x.go".toList, .file 55 "package x".toList true)] }

/-- The controller that `NewBuildCache` of package `cache` builds on `/p` with
`WithSkip("vendor")`, when there is no digest file. -/
def skipController : cache.BuildCache :=
  { oldMod := [], newMod := [], isCacheNeedsRefresh := true, baseDir := "/p".toList,
    cacheDir := "/p/.gococo".toList, cacheDigestFile := "/p/.gococo/digest.modtime".toList,
    skipPattern := ["/p/.gococo".toList, "/p/vendor".toList] }

/-- The controller that `NewBuildCache` of package `build` builds on `/p` with
`WithSkip("a.go")` and the package of `a.go` and `l`, when there is no digest file. -/
def skipBuild : build.BuildCache :=
  { oldMod := [], newMod := [], isCacheNeedsRefresh := true, baseDir := "/p".toList,
    cacheDir := "/p/.gococo".toList, cacheDigestFile := "/p/.gococo/digest.modtime".toList,
    skipPattern := ["/p/.gococo".toList, "/p/a.go".toList], pkgs := [exPkg] }

/-- The project `/p` with a digest file that holds `exDigest`. -/
def digestFS : FS :=
  { now := 7,
    nodes := [
      ("/".toList, .dir 1 ["p".toList] true),
      ("/p".toList, .dir 2 ["go.mod".toList, "a.go".toList, ".gococo".toList] true),
      ("/p/a.go".toList, .file 100 "package a".toList true),
      ("/p/go.mod".toList, .file 50 "module x".toList true),
      ("/p/.gococo".toList, .dir 5 ["digest.modtime".toList] true),
      ("/p/.gococo/digest.modtime".toList, .file 6 exDigest true)] }

/-- The same project with a digest file that cannot be opened. -/
def lockedFS : FS :=
  { now := 7,
    nodes := [
      ("/".toList, .dir 1 ["p".toList] true),
      ("/p".toList, .dir 2 ["go.mod".toList, "a.go".toList, ".gococo".toList] true),
      ("/p/a.go".toList, .file 100 "package a".toList true),
      ("/p/go.mod".toList, .file 50 "module x".toList true),
      ("/p/.gococo".toList, .dir 5 ["digest.modtime".toList] true),
      ("/p/.gococo/digest.modtime".toList, .file 6 exDigest false)] }

/-- The project `/p` with `go.mod`, `go.sum` and `a.go` and no digest file, whose storage
directory holds a directory `pkg` that is not empty and cannot be changed. -/
def stuckFS : FS :=
  { now := 7,
    nodes := [
      ("/".toList, .dir 1 ["p".toList] true),
      ("/p".toList,
        .dir 2 ["go.mod".toList, "go.sum".toList, "a.go".toList, ".gococo".toList] true),
      ("/p/a.go".toList, .file 100 "package a".toList true),
      ("/p/go.mod".toList, .file 50 "module x".toList true),
      ("/p/go.sum".toList, .file 51 [] true),
      ("/p/.gococo".toList, .dir 5 ["cache".toList] true),
      ("/p/.gococo/cache".toList, .dir 5 ["pkg".toList] true),
      ("/p/.gococo/cache/pkg".toList, .dir 5 ["x.go".toList] false),
      ("/p/.gococo/cache/pkg/x.go".toList, .file 4 "package pkg".toList true)] }

/-- The `Build` whose staged copy is `/tmp/stage`. -/
def stageBuild : build.Build := ⟨"/tmp/stage".toList, false⟩

/-- A `go.mod` with the directive `replace example.com/foo => ../foo`. -/
def fooFile : modfile.File :=
  ⟨[⟨⟨"example.com/foo".toList, []⟩, ⟨"../foo".toList, []⟩,
    some (modfile.replaceTokens "example.com/foo".toList [] "../foo".toList [])⟩]⟩

/-- The directive `replace example.com/a v1.0.0 => ../y`. -/
def versionedLocal : modfile.Replace :=
  ⟨⟨"example.com/a".toList, "v1.0.0".toList⟩, ⟨"../y".toList, []⟩,
    some (modfile.replaceTokens "example.com/a".toList "v1.0.0".toList "../y".toList [])⟩

/-- The directive `replace example.com/a => ../x`. -/
def generalLocal : modfile.Replace :=
  ⟨⟨"example.com/a".toList, []⟩, ⟨"../x".toList, []⟩,
    some (modfile.replaceTokens "example.com/a".toList [] "../x".toList [])⟩

/-- A `go.mod` that replaces one version of `example.com/a` by the local directory `../y`
and the other versions by the local directory `../x`. -/
def twoLocalFile : modfile.File := ⟨[versionedLocal, generalLocal]⟩

/-- A package in `/path/to/aa/bb/cc` with the file `a.go`. -/
def docPkg : build.Package :=
  { Dir := "/path/to/aa/bb/cc".toList, Module := some ⟨"/path/to/aa/bb/cc/go.mod".toList⟩,
    GoFiles := ["a.go".toList], CgoFiles := [], CompiledGoFiles := [],
    IgnoredGoFiles := [], IgnoredOtherFiles := [], CFiles := [], CXXFiles := [], MFiles := [],
    HFiles := [], FFiles := [], SFiles := [], SwigFiles := [], SwigCXXFiles := [],
    SysoFiles := [], EmbedFiles := [] }

/-- The project `/path/to/aa/bb/cc` with `go.mod`, `go.sum` and `a.go`, and no digest
file. -/
def docFS : FS :=
  { now := 7,
    nodes := [
      ("/".toList, .dir 1 ["path".toList] true),
      ("/path".toList, .dir 1 ["to".toList] true),
      ("/path/to".toList, .dir 1 ["aa".toList] true),
      ("/path/to/aa".toList, .dir 1 ["bb".toList] true),
      ("/path/to/aa/bb".toList, .dir 1 ["cc".toList, "home".toList] true),
      ("/path/to/aa/bb/cc".toList,
        .dir 2 ["go.mod".toList, "go.sum".toList, "a.go".toList] true),
      ("/path/to/aa/bb/cc/a.go".toList, .file 100 "package a".toList true),
      ("/path/to/aa/bb/cc/go.mod".toList,
        .file 50 "replace github.com/qiniu/bar => ../home/foo/bar\n".toList true),
      ("/path/to/aa/bb/cc/go.sum".toList, .file 51 [] true)] }

/-- The parsed `go.mod` of the project `/path/to/aa/bb/cc`: the directive
`replace github.com/qiniu/bar => ../home/foo/bar`. -/
def docFile : modfile.File :=
  ⟨[⟨⟨"github.com/qiniu/bar".toList, []⟩, ⟨"../home/foo/bar".toList, []⟩,
    some (modfile.replaceTokens "github.com/qiniu/bar".toList [] "../home/foo/bar".toList
      [])⟩]⟩

/-- The lines of the directives of a file, each the tokens of its syntax with a space
between them: what `Format` prints for a `go.mod` that holds directives only. -/
def replaceLines (f : modfile.File) : GoString :=
  (f.Replace.map (fun r => joinWith ' ' (r.Syntax.getD []) ++ ['\n'])).flatten

/-- The run of `buildAction` on the project `/path/to/aa/bb/cc`: the lock is free and the
staged `go.mod` parses to `docFile`. -/
def docRun : build.Staged :=
  build.buildAction exEnv docFS (some ("/path/to/aa/bb/cc".toList, [docPkg])) true
    "/wd".toList (fun _ => some docFile) replaceLines

/-- The environment with `GOCOCO_CACHE_DIR=../out`. -/
def escapeEnv : Env := ⟨"../out".toList, []⟩

/-- The project `/p` with the file `a.go`, the socket `s` and the device `d`. -/
def sockFS : FS :=
  { now := 7,
    nodes := [
      ("/".toList, .dir 1 ["p".toList] true),
      ("/p".toList, .dir 2 ["a.go".toList, "d".toList, "s".toList] true),
      ("/p/a.go".toList, .file 100 "package a".toList true),
      ("/p/d".toList, .special .device 8),
      ("/p/s".toList, .special .socket 9)] }

/-- The project `/p` with the file `a.go` and the named pipe `f`. -/
def pipeFS : FS :=
  { now := 7,
    nodes := [
      ("/".toList, .dir 1 ["p".toList] true),
      ("/p".toList, .dir 2 ["a.go".toList, "f".toList] true),
      ("/p/a.go".toList, .file 100 "package a".toList true),
      ("/p/f".toList, .special .namedPipe 9)] }

/-- A path of 65536 bytes. -/
def longPath : GoString := List.replicate 65536 'a'

/-- The controller that `NewBuildCache` of package `build` returns on the project `/p` with
its package when there is no digest file. -/
def exBuildCold : build.BuildCache :=
  { oldMod := [], newMod := [], isCacheNeedsRefresh := true, baseDir := "/p".toList,
    cacheDir := "/p/.gococo".toList, cacheDigestFile := "/p/.gococo/digest.modtime".toList,
    skipPattern := ["/p/.gococo".toList], pkgs := [exPkg] }

/-- The filesystem after the first run of package `build` on the project `/p`: the
controller is built with the packages and `Cache` is called. -/
def firstRunFS : FS :=
  match build.NewBuildCache exEnv exFS "/p".toList [.WithPackage [exPkg]] with
  | .ok bc => (bc.Cache exFS).2.2
  | .error _ => exFS

/-- The filesystem after that first run, with `go.mod` changed afterwards. -/
def editedFS : FS := firstRunFS.put "/p/go.mod".toList (.file 200 "module y".toList true)

/-- A package in `/p` with the file `l`. -/
def linkPkg : build.Package := { onePkg with GoFiles := ["l".toList] }

/-- A package in `/p` that lists `gone.go`, a file that does not exist. -/
def missingPkg : build.Package := { onePkg with GoFiles := ["gone.go".toList] }

/-- The project `/p` in which `.gococo` is a regular file. -/
def fileDirFS : FS :=
  { now := 7,
    nodes := [
      ("/".toList, .dir 1 ["p".toList] true),
      ("/p".toList, .dir 2 ["go.mod".toList, "a.go".toList, ".gococo".toList] true),
      ("/p/a.go".toList, .file 100 "package a".toList true),
      ("/p/go.mod".toList, .file 50 "module x".toList true),
      ("/p/.gococo".toList, .file 5 [] true)] }

/-- The project `/p` whose file `sub/l.go` is a symbolic link with the relative target
`../shared/gen.go`, the regular file `/p/shared/gen.go`. -/
def relFS : FS :=
  { now := 7,
    nodes := [
      ("/".toList, .dir 1 ["p".toList] true),
      ("/p".toList, .dir 2 ["go.mod".toList, "shared".toList, "sub".toList] true),
      ("/p/go.mod".toList, .file 50 "module x".toList true),
      ("/p/shared".toList, .dir 4 ["gen.go".toList] true),
      ("/p/shared/gen.go".toList, .file 77 "package sub".toList true),
      ("/p/sub".toList, .dir 4 ["l.go".toList] true),
      ("/p/sub/l.go".toList, .symlink 3 "../shared/gen.go".toList)] }

/-- The package in `/p/sub` with the file `l.go`. -/
def relPkg : build.Package := { onePkg with Dir := "/p/sub".toList, GoFiles := ["l.go".toList] }

/-- A controller of package `build` on `/p` for the package in `/p/sub`. -/
def relBuild : build.BuildCache := { exBuildStale with oldMod := [], pkgs := [relPkg] }

/-! # Properties -/

/-! ## Lemmas on maps -/

theorem ModMap.get?_ne_none {m : ModMap} {k : GoString} (h : m.get? k ≠ none) :
    ∃ e ∈ m, e.1 = k := by
  induction m with
  | nil => simp [ModMap.get?] at h
  | cons e rest ih =>
    obtain ⟨k', v⟩ := e
    by_cases hk : k' = k
    · exact ⟨(k', v), by simp, hk⟩
    · simp only [ModMap.get?, hk, if_false] at h
      obtain ⟨e, he, hek⟩ := ih h
      exact ⟨e, by simp [he], hek⟩

/-- `DeepEqual` holds exactly when the two maps bind the same keys to the same values. -/
theorem DeepEqual_iff (a b : ModMap) :
    DeepEqual a b = true ↔ ∀ k, a.get? k = b.get? k := by
  constructor
  · intro h k
    simp only [DeepEqual, Bool.and_eq_true, List.all_eq_true, decide_eq_true_eq] at h
    by_cases ha : a.get? k = none
    · by_cases hb : b.get? k = none
      · rw [ha, hb]
      · obtain ⟨e, he, hek⟩ := ModMap.get?_ne_none hb
        have := h.2 e he
        rw [hek] at this
        exact this
    · obtain ⟨e, he, hek⟩ := ModMap.get?_ne_none ha
      have := h.1 e he
      rw [hek] at this
      exact this.symm
  · intro h
    simp only [DeepEqual, Bool.and_eq_true, List.all_eq_true, decide_eq_true_eq]
    exact ⟨fun e _ => (h e.1).symm, fun e _ => h e.1⟩

theorem DeepEqual_eq_false_of_ne {a b : ModMap} {k : GoString} (h : a.get? k ≠ b.get? k) :
    DeepEqual a b = false := by
  cases hd : DeepEqual a b
  · rfl
  · exact absurd ((DeepEqual_iff a b).1 hd k) h

theorem ModMap.get?_set_self (m : ModMap) (k : GoString) (v : Int) :
    (m.set k v).get? k = some v := by
  simp [ModMap.set, ModMap.get?]

theorem ModMap.get?_filter_ne (m : ModMap) (k k' : GoString) (h : k ≠ k') :
    ModMap.get? (m.filter (fun e => e.1 ≠ k)) k' = m.get? k' := by
  induction m with
  | nil => rfl
  | cons e rest ih =>
    obtain ⟨k0, v⟩ := e
    by_cases h0 : k0 = k
    · have h1 : ¬ k0 = k' := fun h1 => h (h0.symm.trans h1)
      simp only [List.filter_cons, h0, ne_eq, not_true_eq_false, decide_False,
        Bool.false_eq_true, if_false, ModMap.get?]
      rw [← h0, if_neg h1, h0]
      simpa using ih
    · simp only [List.filter_cons, h0, ne_eq, not_false_eq_true, decide_True, if_true,
        ModMap.get?]
      by_cases h1 : k0 = k'
      · simp [h1]
      · simp only [h1, if_false]
        simpa using ih

theorem ModMap.get?_set_ne (m : ModMap) (k k' : GoString) (v : Int) (h : k ≠ k') :
    (m.set k v).get? k' = m.get? k' := by
  simp only [ModMap.set, ModMap.get?, h, if_false]
  exact ModMap.get?_filter_ne m k k' h

/-! ## Lemmas on the controller of package `build` -/

namespace build

theorem dfsModLoop_sameBut (fs : FS) (srcs : List GoString) (bc : BuildCache) :
    bc.sameBut (dfsModLoop fs srcs bc).2 := by
  induction srcs generalizing bc with
  | nil => simp [dfsModLoop, BuildCache.sameBut]
  | cons src rest ih =>
    unfold dfsModLoop
    split
    · simp [BuildCache.sameBut]
    · split
      · split
        · simp [BuildCache.sameBut]
        · split
          · simp [BuildCache.sameBut]
          · exact ih _
      · split
        · simp [BuildCache.sameBut]
        · exact ih _

theorem refresh_state (bc : BuildCache) (fs : FS) : (bc.refresh fs).2.1 = bc := by
  unfold BuildCache.refresh
  simp only
  split
  · rfl
  · split <;> rfl

end build

/-! ## Lemmas on the controller of package `cache` -/

namespace cache

theorem BuildCache.sameBut_refl (bc : BuildCache) : bc.sameBut bc := by
  simp [BuildCache.sameBut]

theorem BuildCache.sameBut_trans {a b c : BuildCache} (h1 : a.sameBut b) (h2 : b.sameBut c) :
    a.sameBut c := by
  obtain ⟨h11, h12, h13, h14, h15, h16⟩ := h1
  obtain ⟨h21, h22, h23, h24, h25, h26⟩ := h2
  exact ⟨h21.trans h11, h22.trans h12, h23.trans h13, h24.trans h14, h25.trans h15,
    h26.trans h16⟩

theorem dinfoLoop_sameBut (walk : BuildCache → GoString → FileInfo → Outcome × BuildCache)
    (hw : ∀ (bc : BuildCache) (src : GoString) (info : FileInfo),
      bc.sameBut (walk bc src info).2) (fs : FS) (src : GoString)
    (names : List GoString) (bc : BuildCache) :
    bc.sameBut (dinfoLoop walk fs src names bc).2 := by
  induction names generalizing bc with
  | nil => exact BuildCache.sameBut_refl bc
  | cons name rest ih =>
    unfold dinfoLoop
    simp only
    split
    · exact BuildCache.sameBut_refl bc
    · rename_i finfo _
      have h := hw bc (Join src name) finfo
      split
      · rename_i bc1 heq
        rw [heq] at h
        exact BuildCache.sameBut_trans h (ih bc1)
      · rename_i err bc1 _ heq
        rw [heq] at h
        exact h

theorem dfs2_sameBut (fuel : Nat) (fs : FS) (bc : BuildCache) (src : GoString)
    (info : FileInfo) : bc.sameBut (dfs2 fuel fs bc src info).2 := by
  induction fuel generalizing bc src info with
  | zero => exact BuildCache.sameBut_refl bc
  | succ fuel ih =>
    unfold dfs2
    split
    · exact BuildCache.sameBut_refl bc
    · split
      · unfold BuildCache.sinfo
        split
        · exact BuildCache.sameBut_refl bc
        · split
          · exact BuildCache.sameBut_refl bc
          · exact ih _ _ _
      · unfold BuildCache.dinfo
        split
        · exact BuildCache.sameBut_refl bc
        · exact dinfoLoop_sameBut _ (fun bc src info => ih bc src info) _ _ _ _
      · exact BuildCache.sameBut_refl bc
      · unfold BuildCache.finfo
        split
        · exact BuildCache.sameBut_refl bc
        · simp [BuildCache.sameBut]

theorem walk_refresh_state (bc : BuildCache) (fuel : Nat) (fs : FS) (info : FileInfo) :
    (bc.refresh fuel fs info).2.1 = bc := by
  unfold BuildCache.refresh
  simp only
  split
  · rfl
  · split <;> rfl

end cache

/-! ## The refresh decision -/

namespace build

theorem Cache_flag_of_flag (bc : BuildCache) (fs : FS)
    (h : (bc.dfsMod fs).2.isCacheNeedsRefresh = true) :
    (bc.Cache fs).2.1.isCacheNeedsRefresh = true := by
  unfold BuildCache.Cache
  simp only [h, Bool.not_true, Bool.false_eq_true, if_false]
  rw [refresh_state]
  exact h

theorem Cache_flag_of_ne (bc : BuildCache) (fs : FS)
    (h : DeepEqual (bc.dfsMod fs).2.newMod (bc.dfsMod fs).2.oldMod = false) :
    (bc.Cache fs).2.1.isCacheNeedsRefresh = true := by
  unfold BuildCache.Cache
  simp only [h, Bool.false_eq_true, if_false]
  split
  · rw [refresh_state]
  · rename_i hf
    rw [refresh_state]
    simpa using hf

theorem dfsMod_sameBut (bc : BuildCache) (fs : FS) : bc.sameBut (bc.dfsMod fs).2 :=
  dfsModLoop_sameBut fs bc.modFiles bc

theorem foldl_apply_flag (os : List cacheOption) (b : BuildCache)
    (hb : b.isCacheNeedsRefresh = true) :
    (os.foldl (fun bc o => o.apply bc) b).isCacheNeedsRefresh = true := by
  induction os generalizing b with
  | nil => exact hb
  | cons o rest ih =>
    apply ih
    cases o <;> exact hb

/-- When `os.Lstat` of the digest file reports that it does not exist, `NewBuildCache`
returns a controller with the flag set. -/
theorem NewBuildCache_absent (env : Env) (fs : FS) (base : GoString) (opts : List cacheOption)
    (err : GoError) (hbase : base ≠ [])
    (habs : Lstat fs (cacheDigestFileFor env base) = .error err)
    (hne : IsNotExist err = true) :
    ∃ bc, NewBuildCache env fs base opts = .ok bc ∧ bc.isCacheNeedsRefresh = true := by
  simp only [NewBuildCache, hbase, if_false, habs, hne, if_true]
  exact ⟨_, rfl, foldl_apply_flag _ _ rfl⟩

/-- When `os.Lstat` of the digest file fails, in whatever way, a controller that
`NewBuildCache` returns has the flag set. -/
theorem NewBuildCache_flag_of_error (env : Env) (fs : FS) (base : GoString)
    (opts : List cacheOption) (err : GoError) (bc : BuildCache)
    (habs : Lstat fs (cacheDigestFileFor env base) = .error err)
    (h : NewBuildCache env fs base opts = .ok bc) : bc.isCacheNeedsRefresh = true := by
  unfold NewBuildCache at h
  by_cases hbase : base = []
  · rw [if_pos hbase] at h
    cases h
  · rw [if_neg hbase] at h
    simp only [habs] at h
    by_cases hne : IsNotExist err = true
    · rw [if_pos hne] at h
      rw [← Except.ok.inj h]
      exact foldl_apply_flag _ _ rfl
    · rw [if_neg hne] at h
      cases h

end build

namespace cache

theorem walk_Cache_flag_of_flag (bc : BuildCache) (fuel : Nat) (fs : FS)
    (h : bc.isCacheNeedsRefresh = true) :
    (bc.Cache fuel fs).2.1.isCacheNeedsRefresh = true := by
  unfold BuildCache.Cache
  split
  · exact h
  · rename_i info _
    have hs := dfs2_sameBut fuel fs bc bc.baseDir info
    split
    · rename_i bc1 heq
      rw [heq] at hs
      have h1 : bc1.isCacheNeedsRefresh = true := hs.2.1.trans h
      simp only [h1, Bool.not_true, Bool.false_eq_true, if_false]
      rw [walk_refresh_state]
      exact h1
    · rename_i err bc1 _ heq
      rw [heq] at hs
      exact hs.2.1.trans h

theorem walk_foldl_apply_flag (os : List CacheOption) (b : BuildCache)
    (hb : b.isCacheNeedsRefresh = true) :
    (os.foldl (fun bc o => o.apply bc) b).isCacheNeedsRefresh = true := by
  induction os generalizing b with
  | nil => exact hb
  | cons o rest ih =>
    apply ih
    cases o
    exact hb

theorem walk_NewBuildCache_absent (env : Env) (fs : FS) (base : GoString) (opts : List CacheOption)
    (err : GoError) (hbase : base ≠ [])
    (habs : Lstat fs (cacheDigestFileFor env base) = .error err)
    (hne : IsNotExist err = true) :
    ∃ bc, NewBuildCache env fs base opts = .ok bc ∧ bc.isCacheNeedsRefresh = true := by
  simp only [NewBuildCache, hbase, if_false, habs, hne, if_true]
  exact ⟨_, rfl, walk_foldl_apply_flag _ _ rfl⟩

theorem walk_NewBuildCache_flag_of_error (env : Env) (fs : FS) (base : GoString)
    (opts : List CacheOption) (err : GoError) (bc : BuildCache)
    (habs : Lstat fs (cacheDigestFileFor env base) = .error err)
    (h : NewBuildCache env fs base opts = .ok bc) : bc.isCacheNeedsRefresh = true := by
  unfold NewBuildCache at h
  by_cases hbase : base = []
  · rw [if_pos hbase] at h
    cases h
  · rw [if_neg hbase] at h
    simp only [habs] at h
    by_cases hne : IsNotExist err = true
    · rw [if_pos hne] at h
      rw [← Except.ok.inj h]
      exact walk_foldl_apply_flag _ _ rfl
    · rw [if_neg hne] at h
      cases h

end cache

/-- C1: when the old mapping was loaded and the mapping the walker computes differs from
it at some path (a path added, removed, or with another modification time), `NeedRefresh`
is true after `Cache`, in package `build` (where `Cache` uses whatever `dfsMod` has
recorded) and in package `cache` (when the walk comes back without error). -/
theorem C1_difference_forces_refresh :
    (∀ (bc : build.BuildCache) (fs : FS),
      bc.isCacheNeedsRefresh = false →
      (∃ k, (bc.dfsMod fs).2.newMod.get? k ≠ bc.oldMod.get? k) →
      (bc.Cache fs).2.1.NeedRefresh = true) ∧
    (∀ (bc bc1 : cache.BuildCache) (fuel : Nat) (fs : FS) (info : FileInfo),
      bc.isCacheNeedsRefresh = false →
      Lstat fs bc.baseDir = .ok info →
      cache.dfs2 fuel fs bc bc.baseDir info = (.nil, bc1) →
      (∃ k, bc1.newMod.get? k ≠ bc.oldMod.get? k) →
      (bc.Cache fuel fs).2.1.NeedRefresh = true) := by
  constructor
  · intro bc fs _ ⟨k, hk⟩
    apply build.Cache_flag_of_ne
    rw [(build.dfsMod_sameBut bc fs).1]
    exact DeepEqual_eq_false_of_ne hk
  · intro bc bc1 fuel fs info hflag hstat hwalk ⟨k, hk⟩
    have hs := cache.dfs2_sameBut fuel fs bc bc.baseDir info
    rw [hwalk] at hs
    have hne : DeepEqual bc1.newMod bc1.oldMod = false := by
      rw [hs.1]
      exact DeepEqual_eq_false_of_ne hk
    have hf1 : bc1.isCacheNeedsRefresh = false := hs.2.1.trans hflag
    unfold cache.BuildCache.Cache
    simp only [hstat, hwalk, hf1, hne, Bool.not_false, if_true, Bool.false_eq_true, if_false]
    rw [cache.walk_refresh_state]
    rfl

/-- C2: when `os.Lstat` of the digest file fails at construction, whatever the packages,
the options, the rest of the filesystem and the way `Cache` ends, in both packages: if the
error says that the file does not exist, `NewBuildCache` returns a controller; and for
every controller that `NewBuildCache` returns (there is none when the error is of another
kind, such as `ENOTDIR` or `EACCES`), `NeedRefresh` is true after its first `Cache`. -/
theorem C2_cold_start_refreshes :
    (∀ (env : Env) (fs : FS) (base : GoString) (opts : List build.cacheOption) (err : GoError),
      Lstat fs (cacheDigestFileFor env base) = .error err →
      (base ≠ [] → IsNotExist err = true →
        ∃ bc, build.NewBuildCache env fs base opts = .ok bc) ∧
      (∀ bc, build.NewBuildCache env fs base opts = .ok bc →
        (bc.Cache fs).2.1.NeedRefresh = true)) ∧
    (∀ (env : Env) (fs : FS) (base : GoString) (opts : List cache.CacheOption) (fuel : Nat)
        (err : GoError),
      Lstat fs (cacheDigestFileFor env base) = .error err →
      (base ≠ [] → IsNotExist err = true →
        ∃ bc, cache.NewBuildCache env fs base opts = .ok bc) ∧
      (∀ bc, cache.NewBuildCache env fs base opts = .ok bc →
        (bc.Cache fuel fs).2.1.NeedRefresh = true)) := by
  constructor
  · intro env fs base opts err habs
    constructor
    · intro hbase hne
      obtain ⟨bc, hbc, _⟩ := build.NewBuildCache_absent env fs base opts err hbase habs hne
      exact ⟨bc, hbc⟩
    · intro bc hbc
      have hflag := build.NewBuildCache_flag_of_error env fs base opts err bc habs hbc
      exact build.Cache_flag_of_flag bc fs ((build.dfsMod_sameBut bc fs).2.1.trans hflag)
  · intro env fs base opts fuel err habs
    constructor
    · intro hbase hne
      obtain ⟨bc, hbc, _⟩ :=
        cache.walk_NewBuildCache_absent env fs base opts err hbase habs hne
      exact ⟨bc, hbc⟩
    · intro bc hbc
      have hflag := cache.walk_NewBuildCache_flag_of_error env fs base opts err bc habs hbc
      exact cache.walk_Cache_flag_of_flag bc fuel fs hflag

/-- C3: when the old mapping was loaded and the mapping the walker computes binds the
same paths to the same times, `Cache` returns nil, `NeedRefresh` is false and the
filesystem is the one `Cache` was called on, in both packages. -/
theorem C3_no_change_no_write :
    (∀ (bc : build.BuildCache) (fs : FS),
      bc.isCacheNeedsRefresh = false →
      (∀ k, (bc.dfsMod fs).2.newMod.get? k = bc.oldMod.get? k) →
      (bc.Cache fs).1 = .nil ∧ (bc.Cache fs).2.1.NeedRefresh = false ∧
        (bc.Cache fs).2.2 = fs) ∧
    (∀ (bc bc1 : cache.BuildCache) (fuel : Nat) (fs : FS) (info : FileInfo),
      bc.isCacheNeedsRefresh = false →
      Lstat fs bc.baseDir = .ok info →
      cache.dfs2 fuel fs bc bc.baseDir info = (.nil, bc1) →
      (∀ k, bc1.newMod.get? k = bc.oldMod.get? k) →
      (bc.Cache fuel fs).1 = .nil ∧ (bc.Cache fuel fs).2.1.NeedRefresh = false ∧
        (bc.Cache fuel fs).2.2 = fs) := by
  constructor
  · intro bc fs hflag heq
    have hs := build.dfsMod_sameBut bc fs
    have hd : DeepEqual (bc.dfsMod fs).2.newMod (bc.dfsMod fs).2.oldMod = true := by
      rw [hs.1]
      exact (DeepEqual_iff _ _).2 heq
    have hf1 : (bc.dfsMod fs).2.isCacheNeedsRefresh = false := hs.2.1.trans hflag
    unfold build.BuildCache.Cache
    simp only [hf1, hd, Bool.not_false, if_true]
    exact ⟨trivial, rfl, trivial⟩
  · intro bc bc1 fuel fs info hflag hstat hwalk heq
    have hs := cache.dfs2_sameBut fuel fs bc bc.baseDir info
    rw [hwalk] at hs
    have hd : DeepEqual bc1.newMod bc1.oldMod = true := by
      rw [hs.1]
      exact (DeepEqual_iff _ _).2 heq
    have hf1 : bc1.isCacheNeedsRefresh = false := hs.2.1.trans hflag
    unfold cache.BuildCache.Cache
    simp only [hstat, hwalk, hf1, hd, Bool.not_false, if_true]
    exact ⟨trivial, rfl, trivial⟩

/-- C1 at the project `/p`, where the old mapping has 99 for `a.go` and the file has
100. -/
theorem C1_difference_forces_refresh_witness :
    (exBuildStale.Cache exFS).2.1.NeedRefresh = true ∧
    (exCacheStale.Cache 5 exFS).2.1.NeedRefresh = true :=
  ⟨C1_difference_forces_refresh.1 exBuildStale exFS rfl ⟨"/p/a.go".toList, by decide⟩,
   C1_difference_forces_refresh.2 exCacheStale (cache.dfs2 5 exFS exCacheStale "/p".toList
      ⟨.dir, 2⟩).2 5 exFS ⟨.dir, 2⟩ rfl rfl rfl
      ⟨"/p/a.go".toList, by decide⟩⟩

/-- C2 at the project `/p`, which has no digest file: `os.Lstat` reports `ENOENT`, both
constructors return a controller, and `NeedRefresh` is true after `Cache`. -/
theorem C2_cold_start_refreshes_witness :
    Lstat exFS (cacheDigestFileFor exEnv "/p".toList) =
      .error (.sys .ENOENT "/p/.gococo/digest.modtime".toList) ∧
    (∃ bc, build.NewBuildCache exEnv exFS "/p".toList [.WithPackage [exPkg]] = .ok bc) ∧
    (∀ bc, build.NewBuildCache exEnv exFS "/p".toList [.WithPackage [exPkg]] = .ok bc →
      (bc.Cache exFS).2.1.NeedRefresh = true) ∧
    (∃ bc, cache.NewBuildCache exEnv exFS "/p".toList [] = .ok bc) ∧
    (∀ bc, cache.NewBuildCache exEnv exFS "/p".toList [] = .ok bc →
      (bc.Cache 5 exFS).2.1.NeedRefresh = true) :=
  ⟨rfl,
   (C2_cold_start_refreshes.1 exEnv exFS "/p".toList [.WithPackage [exPkg]]
      (.sys .ENOENT "/p/.gococo/digest.modtime".toList) rfl).1 (by decide) rfl,
   (C2_cold_start_refreshes.1 exEnv exFS "/p".toList [.WithPackage [exPkg]]
      (.sys .ENOENT "/p/.gococo/digest.modtime".toList) rfl).2,
   (C2_cold_start_refreshes.2 exEnv exFS "/p".toList [] 5
      (.sys .ENOENT "/p/.gococo/digest.modtime".toList) rfl).1 (by decide) rfl,
   (C2_cold_start_refreshes.2 exEnv exFS "/p".toList [] 5
      (.sys .ENOENT "/p/.gococo/digest.modtime".toList) rfl).2⟩

/-- When `.gococo` is a regular file, `os.Lstat` of the digest file fails with `ENOTDIR`,
which does not say that the file does not exist: `NewBuildCache` of either package returns
that error and no controller. -/
theorem NewBuildCache_not_a_directory :
    Lstat fileDirFS "/p/.gococo/digest.modtime".toList =
      .error (.sys .ENOTDIR "/p/.gococo/digest.modtime".toList) ∧
    build.NewBuildCache exEnv fileDirFS "/p".toList [.WithPackage [onePkg]] =
      .error (.sys .ENOTDIR "/p/.gococo/digest.modtime".toList) ∧
    cache.NewBuildCache exEnv fileDirFS "/p".toList [] =
      .error (.sys .ENOTDIR "/p/.gococo/digest.modtime".toList) :=
  ⟨rfl, rfl, rfl⟩

/-- C3 at the project `/p`, where the old mapping is up to date. -/
theorem C3_no_change_no_write_witness :
    ((exBuildFresh.Cache exFS).1 = .nil ∧ (exBuildFresh.Cache exFS).2.1.NeedRefresh = false ∧
      (exBuildFresh.Cache exFS).2.2 = exFS) ∧
    ((exCacheFresh.Cache 5 exFS).1 = .nil ∧
      (exCacheFresh.Cache 5 exFS).2.1.NeedRefresh = false ∧
      (exCacheFresh.Cache 5 exFS).2.2 = exFS) :=
  ⟨C3_no_change_no_write.1 exBuildFresh exFS rfl (by
      have h : DeepEqual (exBuildFresh.dfsMod exFS).2.newMod exBuildFresh.oldMod = true := by
        decide
      exact (DeepEqual_iff _ _).1 h),
   C3_no_change_no_write.2 exCacheFresh (cache.dfs2 5 exFS exCacheFresh "/p".toList
      ⟨.dir, 2⟩).2 5 exFS ⟨.dir, 2⟩ rfl rfl rfl (by
      have h : DeepEqual (cache.dfs2 5 exFS exCacheFresh "/p".toList ⟨.dir, 2⟩).2.newMod
          exCacheFresh.oldMod = true := by decide
      exact (DeepEqual_iff _ _).1 h)⟩

/-! ## Symbolic links -/

namespace build

theorem dfsModLoop_get?_of_not_mem (fs : FS) (srcs : List GoString) (bc : BuildCache)
    (k : GoString) (hk : k ∉ srcs) :
    (dfsModLoop fs srcs bc).2.newMod.get? k = bc.newMod.get? k := by
  induction srcs generalizing bc with
  | nil => rfl
  | cons src rest ih =>
    have hne : src ≠ k := fun h => hk (by simp [h])
    have hrest : k ∉ rest := fun h => hk (by simp [h])
    unfold dfsModLoop
    split
    · rfl
    · split
      · split
        · rfl
        · split
          · rfl
          · rw [ih _ hrest]
            exact ModMap.get?_set_ne _ _ _ _ hne
      · split
        · rfl
        · rw [ih _ hrest]
          exact ModMap.get?_set_ne _ _ _ _ hne

theorem dfsModLoop_append (fs : FS) (pre rest : List GoString) (bc bc1 : BuildCache)
    (h : dfsModLoop fs pre bc = (none, bc1)) :
    dfsModLoop fs (pre ++ rest) bc = dfsModLoop fs rest bc1 := by
  induction pre generalizing bc with
  | nil =>
    simp only [dfsModLoop, Prod.mk.injEq, true_and] at h
    rw [← h]
    rfl
  | cons s more ih =>
    simp only [dfsModLoop, List.cons_append] at h ⊢
    cases hL : Lstat fs s with
    | error err => simp [hL] at h
    | ok info =>
      simp only [hL] at h ⊢
      by_cases hm : info.mode = .symlink
      · simp only [hm, if_true] at h ⊢
        cases hR : Readlink fs s with
        | error err => simp [hR] at h
        | ok orig =>
          simp only [hR] at h ⊢
          cases hS : Stat fs orig with
          | error err => simp [hS] at h
          | ok f =>
            simp only [hS] at h ⊢
            exact ih _ h
      · simp only [hm, if_false] at h ⊢
        cases hS : Stat fs s with
        | error err => simp [hS] at h
        | ok f =>
          simp only [hS] at h ⊢
          exact ih _ h

/-- Once a symbolic link is bound to the time that `os.Stat` reports for the path read
from it, the rest of the loop of `dfsMod` leaves that binding. -/
theorem dfsModLoop_keeps_symlink (fs : FS) (srcs : List GoString) (bc : BuildCache)
    (src orig : GoString) (t : Int) (f : FileInfo)
    (hl : Lstat fs src = .ok ⟨.symlink, t⟩) (hr : Readlink fs src = .ok orig)
    (hs : Stat fs orig = .ok f) (hb : bc.newMod.get? src = some f.modTime) :
    (dfsModLoop fs srcs bc).2.newMod.get? src = some f.modTime := by
  induction srcs generalizing bc with
  | nil => exact hb
  | cons s rest ih =>
    by_cases hsame : s = src
    · subst hsame
      unfold dfsModLoop
      simp only [hl, hr, hs, if_true]
      exact ih _ (ModMap.get?_set_self _ _ _)
    · unfold dfsModLoop
      split
      · exact hb
      · split
        · split
          · exact hb
          · split
            · exact hb
            · exact ih _ (by rw [ModMap.get?_set_ne _ _ _ _ hsame]; exact hb)
        · split
          · exact hb
          · exact ih _ (by rw [ModMap.get?_set_ne _ _ _ _ hsame]; exact hb)

/-- A symbolic link that the loop of `dfsMod` reaches is bound, when the loop ends, to the
time that `os.Stat` reports for the path read from the link. -/
theorem dfsModLoop_symlink (fs : FS) (pre post : List GoString) (bc : BuildCache)
    (src orig : GoString) (t : Int) (f : FileInfo)
    (hpre : (dfsModLoop fs pre bc).1 = none)
    (hl : Lstat fs src = .ok ⟨.symlink, t⟩) (hr : Readlink fs src = .ok orig)
    (hs : Stat fs orig = .ok f) :
    (dfsModLoop fs (pre ++ src :: post) bc).2.newMod.get? src = some f.modTime := by
  have h1 : dfsModLoop fs pre bc = (none, (dfsModLoop fs pre bc).2) := by
    rw [← hpre]
  rw [dfsModLoop_append fs pre (src :: post) bc _ h1]
  unfold dfsModLoop
  simp only [hl, hr, hs, if_true]
  exact dfsModLoop_keeps_symlink fs post _ src orig t f hl hr hs
    (ModMap.get?_set_self _ _ _)

end build

namespace cache

/-- The walker on a symbolic link, when the path read from the link names a regular file:
the path read from the link is bound to the time of that file. -/
theorem dfs2_symlink (fuel : Nat) (fs : FS) (bc : BuildCache) (src orig : GoString)
    (info : FileInfo) (t : Int) (hmode : info.mode = .symlink)
    (hskip : src ∉ bc.skipPattern) (hskip1 : orig ∉ bc.skipPattern)
    (hr : Readlink fs src = .ok orig) (hl : Lstat fs orig = .ok ⟨.regular, t⟩) :
    dfs2 (fuel + 2) fs bc src info = (.nil, { bc with newMod := bc.newMod.set orig t }) := by
  simp [dfs2, hskip, hskip1, hmode, BuildCache.sinfo, hr, hl, BuildCache.finfo]

end cache

/-- C6 fails in two ways. In package `cache`, on the project `/p` whose entry `/p/l` is a
symbolic link to the regular file `/t/f` with time 77, the walk returns nil and the new
mapping has no entry for `/p/l`: the time 77 is bound to `/t/f`, the path read from the
link, whereas `dfsMod` of package `build` binds it to `/p/l` on the same project. And for
a link with a relative target, in both packages: on the project `/p` whose entry
`/p/sub/l.go` is a link with the target `../shared/gen.go`, which `os.Stat` of the link
follows to the regular file `/p/shared/gen.go` with time 77, the walkers hand the text read
from the link to `os.Stat` and `os.Lstat` as it is, where it is looked up from the working
directory and not from the directory of the link: `dfsMod` of package `build` returns
`ENOENT` and records nothing, and `dfs2` of package `cache` returns `ENOENT` and has no
entry for the link. -/
theorem C6_link_not_keyed_by_its_path :
    (cache.dfs2 5 exFS exCacheStale "/p".toList ⟨.dir, 2⟩).1 = .nil ∧
    (cache.dfs2 5 exFS exCacheStale "/p".toList ⟨.dir, 2⟩).2.newMod.get? "/p/l".toList =
      none ∧
    (cache.dfs2 5 exFS exCacheStale "/p".toList ⟨.dir, 2⟩).2.newMod.get? "/t/f".toList =
      some 77 ∧
    (exBuildStale.dfsMod exFS).2.newMod.get? "/p/l".toList = some 77 ∧
    Readlink relFS "/p/sub/l.go".toList = .ok "../shared/gen.go".toList ∧
    Stat relFS "/p/sub/l.go".toList = .ok ⟨.regular, 77⟩ ∧
    (relBuild.dfsMod relFS).1 = some (.sys .ENOENT "../shared/gen.go".toList) ∧
    (relBuild.dfsMod relFS).2.newMod = [] ∧
    (cache.dfs2 6 relFS exCacheStale "/p".toList ⟨.dir, 2⟩).1 =
      .error (.sys .ENOENT "../shared/gen.go".toList) ∧
    (cache.dfs2 6 relFS exCacheStale "/p".toList ⟨.dir, 2⟩).2.newMod.get?
      "/p/sub/l.go".toList = none := by
  refine ⟨?_, ?_, ?_, ?_, rfl, rfl, ?_, ?_, ?_, ?_⟩ <;> decide

/-- What the two walkers do record for a symbolic link such that the path read from it
names a regular file: `dfsMod` of package `build`, when its loop reaches the link (the
files before it meet no error), binds the path of the link to the modification time of
that file; `dfs2` of package `cache`, on a link that is not skipped and whose target path
is not skipped, binds the path read from the link to the modification time of that
file. -/
theorem symlink_records_target_time :
    (∀ (fs : FS) (bc : build.BuildCache) (pre post : List GoString) (src orig : GoString)
      (t : Int) (f : FileInfo),
      bc.modFiles = pre ++ src :: post → (build.dfsModLoop fs pre bc).1 = none →
      Lstat fs src = .ok ⟨.symlink, t⟩ → Readlink fs src = .ok orig →
      Stat fs orig = .ok f → f.mode = .regular →
      (bc.dfsMod fs).2.newMod.get? src = some f.modTime) ∧
    (∀ (fuel : Nat) (fs : FS) (bc : cache.BuildCache) (src orig : GoString) (info : FileInfo)
      (t : Int),
      info.mode = .symlink → src ∉ bc.skipPattern → orig ∉ bc.skipPattern →
      Readlink fs src = .ok orig → Lstat fs orig = .ok ⟨.regular, t⟩ →
      (cache.dfs2 (fuel + 2) fs bc src info).1 = .nil ∧
      (cache.dfs2 (fuel + 2) fs bc src info).2.newMod.get? orig = some t) := by
  constructor
  · intro fs bc pre post src orig t f hfiles hpre hl hr hs _
    unfold build.BuildCache.dfsMod
    rw [hfiles]
    exact build.dfsModLoop_symlink fs pre post bc src orig t f hpre hl hr hs
  · intro fuel fs bc src orig info t hmode hskip hskip1 hr hl
    rw [cache.dfs2_symlink fuel fs bc src orig info t hmode hskip hskip1 hr hl]
    exact ⟨rfl, ModMap.get?_set_self _ _ _⟩

/-! ## Loading the digest -/

theorem loadLines_cons_blank (text : GoString) (rest : List GoString) (oldMod : ModMap)
    (h : TrimSpace text = []) : loadLines (text :: rest) oldMod = loadLines rest oldMod := by
  rw [loadLines]
  simp only [h, List.length_nil, if_true]

theorem loadLines_cons_fields (text : GoString) (rest : List GoString) (oldMod : ModMap)
    (h : TrimSpace text ≠ []) (hl : (splitOn ' ' (TrimSpace text)).length ≠ 2) :
    loadLines (text :: rest) oldMod = .error (.text "digest file bad format") := by
  have h0 : ¬ (TrimSpace text).length = 0 := fun h0 => h (List.length_eq_zero.1 h0)
  rw [loadLines]
  simp only [h0, if_false, hl, ne_eq, not_false_eq_true, if_true]

theorem loadLines_cons_number (text : GoString) (rest : List GoString) (oldMod : ModMap)
    (h : TrimSpace text ≠ []) (hl : (splitOn ' ' (TrimSpace text)).length = 2)
    (hp : ParseInt (secondField text) = none) :
    loadLines (text :: rest) oldMod = .error (.num (secondField text)) := by
  have h0 : ¬ (TrimSpace text).length = 0 := fun h0 => h (List.length_eq_zero.1 h0)
  unfold secondField at hp
  rw [loadLines]
  simp only [h0, if_false, hl, ne_eq, not_true_eq_false, hp]
  rfl

theorem loadLines_cons_entry (text : GoString) (rest : List GoString) (oldMod : ModMap)
    (v : Int) (h : TrimSpace text ≠ []) (hl : (splitOn ' ' (TrimSpace text)).length = 2)
    (hp : ParseInt (secondField text) = some v) :
    loadLines (text :: rest) oldMod = loadLines rest (oldMod.set (firstField text) v) := by
  have h0 : ¬ (TrimSpace text).length = 0 := fun h0 => h (List.length_eq_zero.1 h0)
  unfold secondField at hp
  rw [loadLines]
  simp only [h0, if_false, hl, ne_eq, not_true_eq_false, hp]
  rfl

/-- The loop over the lines fails exactly when some line is malformed. -/
theorem loadLines_error_iff (lines : List GoString) (oldMod : ModMap) :
    (∃ err, loadLines lines oldMod = .error err) ↔ ∃ text ∈ lines, malformedLine text := by
  induction lines generalizing oldMod with
  | nil => simp [loadLines]
  | cons text rest ih =>
    by_cases hb : TrimSpace text = []
    · rw [loadLines_cons_blank text rest oldMod hb, ih]
      constructor
      · rintro ⟨t, ht, hm⟩
        exact ⟨t, List.mem_cons_of_mem _ ht, hm⟩
      · rintro ⟨t, ht, hm⟩
        rcases List.mem_cons.1 ht with h | h
        · subst h
          exact absurd hb hm.1
        · exact ⟨t, h, hm⟩
    · by_cases hl : (splitOn ' ' (TrimSpace text)).length = 2
      · cases hp : ParseInt (secondField text) with
        | none =>
          rw [loadLines_cons_number text rest oldMod hb hl hp]
          constructor
          · intro _
            exact ⟨text, List.mem_cons_self _ _, hb, fun h => by
              have h2 := h.2
              rw [hp] at h2
              cases h2⟩
          · intro _
            exact ⟨_, rfl⟩
        | some v =>
          rw [loadLines_cons_entry text rest oldMod v hb hl hp, ih]
          constructor
          · rintro ⟨t, ht, hm⟩
            exact ⟨t, List.mem_cons_of_mem _ ht, hm⟩
          · rintro ⟨t, ht, hm⟩
            rcases List.mem_cons.1 ht with h | h
            · subst h
              exact absurd ⟨hl, by simp [hp]⟩ hm.2
            · exact ⟨t, h, hm⟩
      · rw [loadLines_cons_fields text rest oldMod hb hl]
        constructor
        · intro _
          exact ⟨text, List.mem_cons_self _ _, hb, fun h => hl h.1⟩
        · intro _
          exact ⟨_, rfl⟩

/-- After a loop that met no malformed line, a path is bound to the value of the last
line that names it, and to its former value when no line names it. -/
theorem loadLines_get? (lines : List GoString) (oldMod m : ModMap)
    (h : loadLines lines oldMod = .ok m) (k : GoString) :
    m.get? k = (lastValue lines k).or (oldMod.get? k) := by
  induction lines generalizing oldMod with
  | nil =>
    simp only [loadLines, Except.ok.injEq] at h
    simp [lastValue, h]
  | cons text rest ih =>
    by_cases hb : TrimSpace text = []
    · rw [loadLines_cons_blank text rest oldMod hb] at h
      rw [ih _ h]
      simp [lastValue, lineValue, hb]
    · by_cases hl : (splitOn ' ' (TrimSpace text)).length = 2
      · cases hp : ParseInt (secondField text) with
        | none =>
          rw [loadLines_cons_number text rest oldMod hb hl hp] at h
          cases h
        | some v =>
          rw [loadLines_cons_entry text rest oldMod v hb hl hp] at h
          rw [ih _ h]
          cases hr : lastValue rest k with
          | some w => simp [lastValue, hr]
          | none =>
            by_cases hk : firstField text = k
            · rw [← hk, ModMap.get?_set_self]
              simp [lastValue, lineValue, hb, hp, hk ▸ hr]
            · rw [ModMap.get?_set_ne _ _ _ _ hk]
              simp [lastValue, lineValue, hk, hr]
      · rw [loadLines_cons_fields text rest oldMod hb hl] at h
        cases h

theorem splitOn_replicate_append (sep c : Char) (hc : c ≠ sep) (n : Nat) (rest : GoString) :
    splitOn sep (List.replicate n c ++ sep :: rest) =
      List.replicate n c :: splitOn sep rest := by
  induction n with
  | zero => simp [splitOn]
  | succ n ih =>
    show splitOn sep (c :: (List.replicate n c ++ sep :: rest)) = _
    rw [splitOn]
    simp only [hc, if_false]
    rw [ih]
    rfl

theorem byteLen_replicate_a (n : Nat) : byteLen (List.replicate n 'a') = n := by
  induction n with
  | zero => rfl
  | succ n ih =>
    have h1 : Char.utf8Size 'a' = 1 := by decide
    simp only [byteLen, List.replicate_succ, List.map_cons, List.sum_cons, h1] at ih ⊢
    omega

theorem rawLines_long_bad (n : Nat) :
    rawLines (List.replicate n 'a' ++ '\n' :: "bad\n".toList) =
      [List.replicate n 'a', "bad".toList] := by
  have hs : splitOn '\n' (List.replicate n 'a' ++ '\n' :: "bad\n".toList) =
      [List.replicate n 'a', "bad".toList, []] := by
    rw [splitOn_replicate_append '\n' 'a' (by decide)]
    have : splitOn '\n' "bad\n".toList = ["bad".toList, []] := by decide
    rw [this]
  unfold rawLines
  rw [hs]
  rfl

theorem scanLines_long_bad (n : Nat) (hn : MaxScanTokenSize ≤ n) :
    scanLines (List.replicate n 'a' ++ '\n' :: "bad\n".toList) = [] := by
  unfold scanLines
  rw [rawLines_long_bad]
  have h : ¬ byteLen (List.replicate n 'a') < MaxScanTokenSize := by
    rw [byteLen_replicate_a]
    omega
  simp only [List.takeWhile, h, decide_False, List.map_nil]

namespace build

theorem foldl_apply_oldMod (opts : List cacheOption) (b : BuildCache) :
    (opts.foldl (fun bc o => o.apply bc) b).oldMod = b.oldMod := by
  induction opts generalizing b with
  | nil => rfl
  | cons o rest ih =>
    rw [List.foldl_cons, ih]
    cases o <;> rfl

/-- When the digest file exists and can be opened, `NewBuildCache` of package `build`
returns the error of the loading, or a controller with the loaded mapping. -/
theorem NewBuildCache_of_digest (env : Env) (fs : FS) (base f : GoString)
    (opts : List cacheOption) (info : FileInfo) (hbase : base ≠ [])
    (hstat : Lstat fs (cacheDigestFileFor env base) = .ok info)
    (hopen : Open fs (cacheDigestFileFor env base) = .ok f) :
    (∀ err, loadDigest (scannerInput fs f) = .error err →
      NewBuildCache env fs base opts = .error err) ∧
    (∀ m, loadDigest (scannerInput fs f) = .ok m →
      ∃ bc, NewBuildCache env fs base opts = .ok bc ∧ bc.oldMod = m) := by
  constructor
  · intro err herr
    simp only [NewBuildCache, hbase, if_false, hstat, hopen, herr]
  · intro m hm
    simp only [NewBuildCache, hbase, if_false, hstat, hopen, hm]
    exact ⟨_, rfl, foldl_apply_oldMod opts _⟩

end build

namespace cache

theorem walk_foldl_apply_oldMod (opts : List CacheOption) (b : BuildCache) :
    (opts.foldl (fun bc o => o.apply bc) b).oldMod = b.oldMod := by
  induction opts generalizing b with
  | nil => rfl
  | cons o rest ih =>
    rw [List.foldl_cons, ih]
    cases o
    rfl

/-- When the digest file exists and can be opened, `NewBuildCache` of package `cache`
returns the error of the loading, or a controller with the loaded mapping. -/
theorem walk_NewBuildCache_of_digest (env : Env) (fs : FS) (base f : GoString)
    (opts : List CacheOption) (info : FileInfo) (hbase : base ≠ [])
    (hstat : Lstat fs (cacheDigestFileFor env base) = .ok info)
    (hopen : Open fs (cacheDigestFileFor env base) = .ok f) :
    (∀ err, loadDigest (scannerInput fs f) = .error err →
      NewBuildCache env fs base opts = .error err) ∧
    (∀ m, loadDigest (scannerInput fs f) = .ok m →
      ∃ bc, NewBuildCache env fs base opts = .ok bc ∧ bc.oldMod = m) := by
  constructor
  · intro err herr
    simp only [NewBuildCache, hbase, if_false, hstat, hopen, herr]
  · intro m hm
    simp only [NewBuildCache, hbase, if_false, hstat, hopen, hm]
    exact ⟨_, rfl, walk_foldl_apply_oldMod opts _⟩

end cache

theorem scanLines_of_short (data : GoString)
    (h : ∀ l ∈ rawLines data, byteLen l < MaxScanTokenSize) :
    scanLines data = fileLines data := by
  unfold scanLines fileLines
  congr 1
  rw [List.takeWhile_eq_self_iff]
  intro l hl
  simpa using h l hl

/-- The loading of a digest all of whose lines fit the buffer of the scanner: it fails
exactly when a line is malformed, and on success binds every path to the number of the
last line that names it. -/
theorem loadDigest_of_short (data : GoString)
    (hshort : ∀ l ∈ rawLines data, byteLen l < MaxScanTokenSize) :
    ((∃ err, loadDigest data = .error err) ↔
      ∃ text ∈ fileLines data, malformedLine text) ∧
    (∀ m, loadDigest data = .ok m → ∀ k, m.get? k = lastValue (fileLines data) k) := by
  unfold loadDigest
  rw [scanLines_of_short data hshort]
  refine ⟨loadLines_error_iff _ _, ?_⟩
  intro m hm k
  rw [loadLines_get? _ _ _ hm k]
  simp [ModMap.get?]

/-- C7 fails in two ways. The digest file `/p/.gococo/digest.modtime` of `lockedFS` has no
malformed line, but it cannot be opened, and `NewBuildCache` returns the error of
`os.Open` in both packages. And the text `longDigest` has the lines `aaa...a` (65536
bytes) and `bad`; `bad` is not blank and has one field, and yet the loading returns an
empty mapping and no error, because `Scan` stops at the first line, which does not fit
its buffer, and `NewBuildCache` does not look at `Scanner.Err`. -/
theorem C7_load_error_without_malformed_line :
    (¬ ∃ text ∈ fileLines exDigest, malformedLine text) ∧
    build.NewBuildCache exEnv lockedFS "/p".toList [] =
      .error (.sys .EACCES "/p/.gococo/digest.modtime".toList) ∧
    cache.NewBuildCache exEnv lockedFS "/p".toList [] =
      .error (.sys .EACCES "/p/.gococo/digest.modtime".toList) ∧
    "bad".toList ∈ rawLines longDigest ∧ malformedLine "bad".toList ∧
    loadDigest longDigest = .ok [] := by
  refine ⟨by decide, rfl, rfl, ?_, by decide, ?_⟩
  · unfold longDigest
    rw [rawLines_long_bad]
    exact List.mem_cons_of_mem _ (List.mem_cons_self _ _)
  · unfold loadDigest longDigest
    rw [scanLines_long_bad 65536 (by decide)]
    rfl

/-- C7 as amended: when the digest file exists, can be opened and read, and all its
lines are shorter than 65536 bytes, `NewBuildCache` (of either package, with any
options) returns an error and no controller exactly when some line of the file (its
carriage return dropped) is not blank after trimming and does not split at the spaces
into two fields of which the second is a decimal `int64`; blank lines are passed
over; and the old mapping of the controller it returns binds every path to the number
of the last line that has it as first field, and no other path. -/
theorem C7_digest_loading (env : Env) (fs : FS) (base f data : GoString) (info : FileInfo)
    (hbase : base ≠ [])
    (hstat : Lstat fs (cacheDigestFileFor env base) = .ok info)
    (hopen : Open fs (cacheDigestFileFor env base) = .ok f)
    (hread : readAll fs f = .ok data)
    (hshort : ∀ l ∈ rawLines data, byteLen l < MaxScanTokenSize) :
    (∀ opts : List build.cacheOption,
      ((∃ err, build.NewBuildCache env fs base opts = .error err) ↔
        ∃ text ∈ fileLines data, malformedLine text) ∧
      (∀ bc, build.NewBuildCache env fs base opts = .ok bc →
        ∀ k, bc.oldMod.get? k = lastValue (fileLines data) k)) ∧
    (∀ opts : List cache.CacheOption,
      ((∃ err, cache.NewBuildCache env fs base opts = .error err) ↔
        ∃ text ∈ fileLines data, malformedLine text) ∧
      (∀ bc, cache.NewBuildCache env fs base opts = .ok bc →
        ∀ k, bc.oldMod.get? k = lastValue (fileLines data) k)) := by
  have hin : scannerInput fs f = data := by
    simp only [scannerInput, hread]
  obtain ⟨hiff, hget⟩ := loadDigest_of_short data hshort
  constructor
  · intro opts
    obtain ⟨herr, hok⟩ :=
      build.NewBuildCache_of_digest env fs base f opts info hbase hstat hopen
    rw [hin] at herr hok
    constructor
    · rw [← hiff]
      constructor
      · rintro ⟨err, he⟩
        cases hl : loadDigest data with
        | error e => exact ⟨e, rfl⟩
        | ok m =>
          obtain ⟨bc, hbc, _⟩ := hok m hl
          rw [hbc] at he
          cases he
      · rintro ⟨err, he⟩
        exact ⟨err, herr err he⟩
    · intro bc hbc k
      cases hl : loadDigest data with
      | error e =>
        rw [herr e hl] at hbc
        cases hbc
      | ok m =>
        obtain ⟨bc1, hbc1, hm⟩ := hok m hl
        rw [hbc1] at hbc
        cases hbc
        rw [hm]
        exact hget m hl k
  · intro opts
    obtain ⟨herr, hok⟩ :=
      cache.walk_NewBuildCache_of_digest env fs base f opts info hbase hstat hopen
    rw [hin] at herr hok
    constructor
    · rw [← hiff]
      constructor
      · rintro ⟨err, he⟩
        cases hl : loadDigest data with
        | error e => exact ⟨e, rfl⟩
        | ok m =>
          obtain ⟨bc, hbc, _⟩ := hok m hl
          rw [hbc] at he
          cases he
      · rintro ⟨err, he⟩
        exact ⟨err, herr err he⟩
    · intro bc hbc k
      cases hl : loadDigest data with
      | error e =>
        rw [herr e hl] at hbc
        cases hbc
      | ok m =>
        obtain ⟨bc1, hbc1, hm⟩ := hok m hl
        rw [hbc1] at hbc
        cases hbc
        rw [hm]
        exact hget m hl k

/-- C7 as amended, at a digest file with a blank line, a line for `/p/l` and two lines
for `/p/a.go`: no line is malformed, and `/p/a.go` goes with 101, the number of its last
line. -/
theorem C7_digest_loading_witness :
    (∀ opts : List build.cacheOption,
      ((∃ err, build.NewBuildCache exEnv digestFS "/p".toList opts = .error err) ↔
        ∃ text ∈ fileLines exDigest, malformedLine text) ∧
      (∀ bc, build.NewBuildCache exEnv digestFS "/p".toList opts = .ok bc →
        ∀ k, bc.oldMod.get? k = lastValue (fileLines exDigest) k)) ∧
    (∀ opts : List cache.CacheOption,
      ((∃ err, cache.NewBuildCache exEnv digestFS "/p".toList opts = .error err) ↔
        ∃ text ∈ fileLines exDigest, malformedLine text) ∧
      (∀ bc, cache.NewBuildCache exEnv digestFS "/p".toList opts = .ok bc →
        ∀ k, bc.oldMod.get? k = lastValue (fileLines exDigest) k)) ∧
    lastValue (fileLines exDigest) "/p/a.go".toList = some 101 ∧
    lastValue (fileLines exDigest) "/p/l".toList = some 77 :=
  have h := C7_digest_loading exEnv digestFS "/p".toList "/p/.gococo/digest.modtime".toList
    exDigest ⟨.regular, 6⟩ (by decide) rfl rfl rfl (by decide)
  ⟨h.1, h.2, by decide, by decide⟩

/-! ## Errors during the walk and during the copy -/

namespace cache

/-- In package `cache` an outcome of the walk other than nil is the outcome of `Cache`,
and the filesystem is left as it was. -/
theorem Cache_of_walk_error (bc bc1 : BuildCache) (fuel : Nat) (fs : FS) (info : FileInfo)
    (err : Outcome) (hstat : Lstat fs bc.baseDir = .ok info)
    (hwalk : dfs2 fuel fs bc bc.baseDir info = (err, bc1)) (herr : err ≠ .nil) :
    bc.Cache fuel fs = (err, bc1, fs) := by
  unfold BuildCache.Cache
  simp only [hstat, hwalk]

/-- In package `cache` an outcome of the copy other than nil is the outcome of the
refresh, which ends before `saveCache`: the filesystem is the one the copier left. -/
theorem refresh_of_copy_error (bc : BuildCache) (fuel : Nat) (fs fs2 fs3 : FS)
    (info : FileInfo) (err : Outcome)
    (hmk : MkdirAll (match RemoveAll fs (Join bc.cacheDir "cache".toList) with
      | .ok fs1 => fs1
      | .error _ => fs) (Join bc.cacheDir "cache".toList) = .ok fs2)
    (hcopy : dfs bc fuel fs2 (Join bc.cacheDir "cache".toList) bc.baseDir info = (err, fs3))
    (herr : err ≠ .nil) :
    bc.refresh fuel fs info = (err, bc, fs3) := by
  unfold BuildCache.refresh
  simp only [hmk, hcopy]

end cache

/-- C8 fails in package `build`, where `Cache` drops the result of `dfsMod`. The package
lists `/p/a.go` and then `/p/gone.go`, which does not exist, so the walk records
`a.go` and returns the error of `Lstat`. With an old mapping equal to that partial
mapping, `Cache` compares the two, returns nil and reports that no refresh is needed;
with another old mapping, `Cache` returns nil too, after copying `a.go` and writing the
partial mapping to the digest file. -/
theorem C8_walk_error_is_dropped :
    (goneBuildSame.dfsMod exFS).1 = some (.sys .ENOENT "/p/gone.go".toList) ∧
    (goneBuildSame.dfsMod exFS).2.newMod = [("/p/a.go".toList, 100)] ∧
    (goneBuildSame.Cache exFS).1 = .nil ∧
    (goneBuildSame.Cache exFS).2.1.NeedRefresh = false ∧
    (goneBuildOther.dfsMod exFS).1 = some (.sys .ENOENT "/p/gone.go".toList) ∧
    (goneBuildOther.Cache exFS).1 = .nil ∧
    (goneBuildOther.Cache exFS).2.2.node? "/p/.gococo/cache/a.go".toList =
      some (.file 7 "package a".toList true) ∧
    (goneBuildOther.Cache exFS).2.2.node? "/p/.gococo/digest.modtime".toList =
      some (.file 7 "/p/a.go 100\n".toList true) := by
  refine ⟨?_, ?_, ?_, ?_, ?_, ?_, ?_, ?_⟩ <;> decide

/-- C9 fails in package `build`, where `Cache` drops the results of `os.MkdirAll` and of
`dfsCopy`. The project `/p` has no `go.sum`: the copy creates `go.sum` in the storage
directory, fails to open the source and returns the error before `a.go` is copied;
`Cache` writes the digest all the same and returns nil. The next controller loads that
digest, and its `Cache` returns nil and reports that no refresh is needed, with `a.go`
still missing from the storage directory. -/
theorem C9_copy_error_is_dropped :
    ∃ bc fs2 bc2,
      build.NewBuildCache exEnv noSumFS "/p".toList [.WithPackage [onePkg]] = .ok bc ∧
      MkdirAll noSumFS bc.GetCacheDir = .ok fs2 ∧
      (bc.dfsCopy fs2).1 = .error (.sys .ENOENT "/p/go.sum".toList) ∧
      (bc.Cache noSumFS).1 = .nil ∧
      (bc.Cache noSumFS).2.2.node? "/p/.gococo/cache/a.go".toList = none ∧
      (bc.Cache noSumFS).2.2.node? "/p/.gococo/digest.modtime".toList =
        some (.file 7 "/p/a.go 100\n".toList true) ∧
      build.NewBuildCache exEnv (bc.Cache noSumFS).2.2 "/p".toList [.WithPackage [onePkg]] =
        .ok bc2 ∧
      (bc2.Cache (bc.Cache noSumFS).2.2).1 = .nil ∧
      (bc2.Cache (bc.Cache noSumFS).2.2).2.1.NeedRefresh = false ∧
      (bc2.Cache (bc.Cache noSumFS).2.2).2.2.node? "/p/.gococo/cache/a.go".toList = none := by
  refine ⟨_, _, _, rfl, rfl, ?_, ?_, ?_, ?_, rfl, ?_, ?_, ?_⟩ <;> decide

/-! ## The rewriting of `go.mod` -/

/-- C10 fails on a `go.mod` with the directives
`replace example.com/a v1.0.0 => example.com/b v1.2.0` and
`replace example.com/a => ../a`. The second one is rewritten: `DropReplace` removes it
and `AddReplace`, called with an empty old version, gives the new absolute target to the
first directive with that old path, which is the one with a version on both
sides. The result has one directive, with old version `v1.0.0`, the new path
`/p/.gococo/a` and no new version, written as `replace example.com/a => /p/.gococo/a`;
the directive whose new side carries a version is not in the result. -/
theorem C10_versioned_directive_overwritten :
    exBuild.updateGoModFile "/wd".toList pinnedFile =
      some ⟨⟨"/p/.gococo/cache".toList, true⟩,
        ⟨[⟨⟨"example.com/a".toList, "v1.0.0".toList⟩, ⟨"/p/.gococo/a".toList, []⟩,
          some ["replace".toList, "example.com/a".toList, "=>".toList,
            "/p/.gococo/a".toList]⟩]⟩, true⟩ ∧
    pinnedDirective.New.Version ≠ [] ∧
    ∀ r, exBuild.updateGoModFile "/wd".toList pinnedFile = some r →
      ¬ ∃ d ∈ r.file.Replace, d.Old = pinnedDirective.Old ∧ d.New = pinnedDirective.New := by
  have h : exBuild.updateGoModFile "/wd".toList pinnedFile =
      some ⟨⟨"/p/.gococo/cache".toList, true⟩,
        ⟨[⟨⟨"example.com/a".toList, "v1.0.0".toList⟩, ⟨"/p/.gococo/a".toList, []⟩,
          some ["replace".toList, "example.com/a".toList, "=>".toList,
            "/p/.gococo/a".toList]⟩]⟩, true⟩ := by decide
  refine ⟨h, by decide, ?_⟩
  intro r hr
  rw [h] at hr
  cases hr
  decide

/-! ## Paths in cleaned form -/

theorem splitOn_ne_nil (sep : Char) (s : GoString) : splitOn sep s ≠ [] := by
  cases s with
  | nil => simp [splitOn]
  | cons c cs =>
    rw [splitOn]
    split
    · simp
    · split <;> simp

theorem splitOn_append_sep (sep : Char) (a b : GoString) :
    splitOn sep (a ++ sep :: b) = splitOn sep a ++ splitOn sep b := by
  induction a with
  | nil => simp [splitOn]
  | cons x a ih =>
    show splitOn sep (x :: (a ++ sep :: b)) = _
    by_cases hx : x = sep
    · rw [splitOn, splitOn, if_pos hx, if_pos hx, ih]
      rfl
    · rw [splitOn, splitOn, if_neg hx, if_neg hx, ih]
      cases h : splitOn sep a with
      | nil => exact absurd h (splitOn_ne_nil sep a)
      | cons w ws => rfl

theorem splitOn_of_not_mem (sep : Char) (n : GoString) (h : sep ∉ n) :
    splitOn sep n = [n] := by
  induction n with
  | nil => rfl
  | cons x n ih =>
    have hx : x ≠ sep := fun hx => h (by simp [hx])
    have hn : sep ∉ n := fun hn => h (by simp [hn])
    rw [splitOn, if_neg hx, ih hn]

theorem splitOn_not_mem (sep : Char) (s : GoString) : ∀ w ∈ splitOn sep s, sep ∉ w := by
  induction s with
  | nil => simp [splitOn]
  | cons x s ih =>
    rw [splitOn]
    by_cases hx : x = sep
    · rw [if_pos hx]
      intro w hw
      rcases List.mem_cons.1 hw with h | h
      · rw [h]; simp
      · exact ih w h
    · rw [if_neg hx]
      cases h : splitOn sep s with
      | nil => exact absurd h (splitOn_ne_nil sep s)
      | cons w0 ws =>
        rw [h] at ih
        intro w hw
        rcases List.mem_cons.1 hw with h1 | h1
        · rw [h1]
          intro hmem
          rcases List.mem_cons.1 hmem with h2 | h2
          · exact hx h2.symm
          · exact ih w0 (List.mem_cons_self _ _) h2
        · exact ih w (List.mem_cons_of_mem _ h1)

theorem splitOn_joinWith (sep : Char) (elems : List GoString) (hne : elems ≠ [])
    (h : ∀ w ∈ elems, sep ∉ w) : splitOn sep (joinWith sep elems) = elems := by
  induction elems with
  | nil => exact absurd rfl hne
  | cons w rest ih =>
    cases rest with
    | nil => exact splitOn_of_not_mem sep w (h w (List.mem_cons_self _ _))
    | cons w2 rest2 =>
      show splitOn sep (w ++ sep :: joinWith sep (w2 :: rest2)) = _
      rw [splitOn_append_sep, splitOn_of_not_mem sep w (h w (List.mem_cons_self _ _)),
        ih (List.cons_ne_nil _ _) (fun x hx => h x (List.mem_cons_of_mem _ hx))]
      rfl

theorem joinWith_append (sep : Char) (a b : List GoString) (ha : a ≠ []) (hb : b ≠ []) :
    joinWith sep (a ++ b) = joinWith sep a ++ sep :: joinWith sep b := by
  induction a with
  | nil => exact absurd rfl ha
  | cons w rest ih =>
    cases rest with
    | nil =>
      cases b with
      | nil => exact absurd rfl hb
      | cons x xs => rfl
    | cons w2 rest2 =>
      show w ++ sep :: joinWith sep (w2 :: rest2 ++ b) =
        (w ++ sep :: joinWith sep (w2 :: rest2)) ++ sep :: joinWith sep b
      rw [ih (List.cons_ne_nil _ _)]
      simp

theorem simpleName_iff (n : GoString) :
    simpleName n = true ↔ n ≠ [] ∧ '/' ∉ n ∧ n ≠ ['.'] ∧ n ≠ ['.', '.'] := by
  simp [simpleName, and_assoc]

theorem cleanStep_simple (rooted : Bool) (acc : List GoString) (c : GoString)
    (h : simpleName c = true) : cleanStep rooted acc c = c :: acc := by
  obtain ⟨h1, _, h3, h4⟩ := (simpleName_iff c).1 h
  simp [cleanStep, h1, h3, h4]

theorem foldl_cleanStep_simple (rooted : Bool) (elems acc : List GoString)
    (h : ∀ c ∈ elems, simpleName c = true) :
    elems.foldl (cleanStep rooted) acc = elems.reverse ++ acc := by
  induction elems generalizing acc with
  | nil => rfl
  | cons c rest ih =>
    rw [List.foldl_cons, cleanStep_simple rooted acc c (h c (List.mem_cons_self _ _)),
      ih _ (fun x hx => h x (List.mem_cons_of_mem _ hx))]
    simp

theorem cleanStep_keeps_simple (acc : List GoString) (c : GoString)
    (hacc : ∀ a ∈ acc, simpleName a = true) (hc : '/' ∉ c) :
    ∀ a ∈ cleanStep true acc c, simpleName a = true := by
  unfold cleanStep
  by_cases h1 : c = [] ∨ c = ['.']
  · rw [if_pos h1]
    exact hacc
  · rw [if_neg h1]
    by_cases h2 : c = ['.', '.']
    · rw [if_pos h2]
      cases acc with
      | nil => simp
      | cons a rest =>
        have ha := (simpleName_iff a).1 (hacc a (List.mem_cons_self _ _))
        simp only [ha.2.2.2, if_false]
        exact fun x hx => hacc x (List.mem_cons_of_mem _ hx)
    · rw [if_neg h2]
      intro a ha
      rcases List.mem_cons.1 ha with h | h
      · rw [h]
        rw [simpleName_iff]
        exact ⟨fun h0 => h1 (Or.inl h0), hc, fun h0 => h1 (Or.inr h0), h2⟩
      · exact hacc a h

theorem foldl_cleanStep_keeps_simple (pieces acc : List GoString)
    (hacc : ∀ a ∈ acc, simpleName a = true) (hp : ∀ c ∈ pieces, '/' ∉ c) :
    ∀ a ∈ pieces.foldl (cleanStep true) acc, simpleName a = true := by
  induction pieces generalizing acc with
  | nil => exact hacc
  | cons c rest ih =>
    rw [List.foldl_cons]
    exact ih _ (cleanStep_keeps_simple acc c hacc (hp c (List.mem_cons_self _ _)))
      (fun x hx => hp x (List.mem_cons_of_mem _ hx))

/-- The cleaned form of an absolute path is `/` followed by names joined with `/`. -/
theorem Clean_rooted (path : GoString) (h : IsAbs path = true) :
    ∃ elems, (∀ c ∈ elems, simpleName c = true) ∧ Clean path = rootedPath elems := by
  cases path with
  | nil => simp [IsAbs] at h
  | cons c rest =>
    have hc : c = '/' := by
      by_cases hc : c = '/'
      · exact hc
      · simp [IsAbs, hc] at h
    subst hc
    refine ⟨((splitOn '/' ('/' :: rest)).foldl (cleanStep true) []).reverse, ?_, ?_⟩
    · intro a ha
      exact foldl_cleanStep_keeps_simple _ [] (by simp) (splitOn_not_mem '/' _) a
        (List.mem_reverse.1 ha)
    · simp [Clean, rootedPath]

/-- A name joined to a path in cleaned form is one more element. -/
theorem Join_rooted (elems : List GoString) (n : GoString)
    (h : ∀ c ∈ elems, simpleName c = true) (hn : simpleName n = true) :
    Join (rootedPath elems) n = rootedPath (elems ++ [n]) := by
  have hn1 := (simpleName_iff n).1 hn
  have hsplit : splitOn '/' ('/' :: (joinWith '/' elems ++ '/' :: n)) =
      [] :: (splitOn '/' (joinWith '/' elems) ++ [n]) := by
    rw [splitOn, if_pos rfl, splitOn_append_sep, splitOn_of_not_mem '/' n hn1.2.1]
  have hfold : (splitOn '/' (joinWith '/' elems)).foldl (cleanStep true) [] =
      elems.reverse := by
    cases elems with
    | nil => simp [joinWith, splitOn, cleanStep]
    | cons e es =>
      rw [splitOn_joinWith '/' (e :: es) (by simp)
        (fun w hw => ((simpleName_iff w).1 (h w hw)).2.1),
        foldl_cleanStep_simple true (e :: es) [] h]
      simp
  have hj : Join (rootedPath elems) n = Clean ('/' :: (joinWith '/' elems ++ '/' :: n)) := by
    simp [Join, rootedPath]
  rw [hj]
  simp only [Clean, decide_True, if_true]
  rw [hsplit, List.foldl_cons]
  have h0 : cleanStep true [] [] = [] := by simp [cleanStep]
  rw [h0, List.foldl_append, hfold]
  simp only [List.foldl_cons, List.foldl_nil]
  rw [cleanStep_simple true _ n hn]
  simp [rootedPath]

theorem elements_rootedPath (elems : List GoString) (h : ∀ c ∈ elems, simpleName c = true) :
    elements (rootedPath elems) = elems := by
  unfold elements rootedPath
  rw [splitOn, if_pos rfl]
  cases elems with
  | nil => simp [joinWith, splitOn]
  | cons e es =>
    rw [splitOn_joinWith '/' (e :: es) (List.cons_ne_nil _ _)
      (fun w hw => ((simpleName_iff w).1 (h w hw)).2.1)]
    rw [List.filter_cons]
    simp only [ne_eq, not_true_eq_false, decide_False, Bool.false_eq_true, if_false]
    rw [List.filter_eq_self]
    intro a ha
    simpa using ((simpleName_iff a).1 (h a ha)).1

theorem elements_append_sep (a b : GoString) :
    elements (a ++ '/' :: b) = elements a ++ elements b := by
  unfold elements
  rw [splitOn_append_sep, List.filter_append]

theorem rootedPath_injective (a b : List GoString) (ha : ∀ c ∈ a, simpleName c = true)
    (hb : ∀ c ∈ b, simpleName c = true) (h : rootedPath a = rootedPath b) : a = b := by
  rw [← elements_rootedPath a ha, ← elements_rootedPath b hb, h]

theorem isUnder_rootedPath (a b : List GoString) (ha : ∀ c ∈ a, simpleName c = true)
    (hb : ∀ c ∈ b, simpleName c = true) (h : isUnder (rootedPath a) (rootedPath b) = true) :
    a <+: b := by
  simp only [isUnder, Bool.or_eq_true, decide_eq_true_eq] at h
  rcases h with (h | h) | h
  · rw [rootedPath_injective b a hb ha h]
  · obtain ⟨r, hr⟩ := List.isPrefixOf_iff_prefix.1 h
    have h1 : elements (rootedPath b) = elements (rootedPath a) ++ elements r := by
      rw [← hr, List.append_assoc]
      exact elements_append_sep _ _
    rw [elements_rootedPath a ha, elements_rootedPath b hb] at h1
    exact ⟨_, h1.symm⟩
  · have h1 : a = [] := by
      have := congrArg elements h
      rw [elements_rootedPath a ha] at this
      rw [this]
      decide
    rw [h1]
    exact List.nil_prefix

theorem isUnder_of_prefix (a b : List GoString) (h : a <+: b) :
    isUnder (rootedPath a) (rootedPath b) = true := by
  obtain ⟨r, hr⟩ := h
  simp only [isUnder, Bool.or_eq_true, decide_eq_true_eq]
  cases r with
  | nil =>
    left; left
    rw [← hr]
    simp
  | cons x xs =>
    cases a with
    | nil =>
      right
      rfl
    | cons y ys =>
      left; right
      rw [List.isPrefixOf_iff_prefix, ← hr]
      refine ⟨joinWith '/' (x :: xs), ?_⟩
      rw [rootedPath, rootedPath, joinWith_append '/' (y :: ys) (x :: xs)
        (List.cons_ne_nil _ _) (List.cons_ne_nil _ _)]
      simp

/-! ## Trees without symbolic links -/

theorem lookupNode_mem (nodes : List (GoString × Node)) (p : GoString) (n : Node)
    (h : lookupNode nodes p = some n) : ∃ e ∈ nodes, e.2 = n := by
  induction nodes with
  | nil => simp [lookupNode] at h
  | cons e rest ih =>
    obtain ⟨k, v⟩ := e
    rw [lookupNode] at h
    by_cases hk : k = p
    · rw [if_pos hk] at h
      exact ⟨(k, v), List.mem_cons_self _ _, Option.some.inj h⟩
    · rw [if_neg hk] at h
      obtain ⟨e, he, hen⟩ := ih h
      exact ⟨e, List.mem_cons_of_mem _ he, hen⟩

/-- What `os.Lstat` reports is the entry of the table under the path. -/
theorem Lstat_ok (fs : FS) (p : GoString) (info : FileInfo) (h : Lstat fs p = .ok info) :
    ∃ n, fs.node? p = some n ∧ n.info = info := by
  unfold Lstat at h
  split at h
  · cases h
  · cases hn : fs.node? p with
    | none => simp [hn] at h
    | some n =>
      simp only [hn, Except.ok.injEq] at h
      exact ⟨n, rfl, h⟩

/-- What `os.ReadDir` lists are the names of the directory of the table under the path. -/
theorem ReadDir_ok (fs : FS) (p : GoString) (names : List GoString)
    (h : ReadDir fs p = .ok names) :
    ∃ t ns, fs.node? p = some (.dir t ns true) ∧
      names = ns.insertionSort (fun a b => a ≤ b) := by
  unfold ReadDir at h
  split at h
  · cases h
  · cases hn : fs.node? p with
    | none => simp [hn] at h
    | some node =>
      cases node with
      | file t d a => simp [hn] at h
      | symlink t target => simp [hn] at h
      | special k t => simp [hn] at h
      | dir t ns a =>
        cases a with
        | false => simp [hn] at h
        | true =>
          simp only [hn, Except.ok.injEq] at h
          exact ⟨t, ns, rfl, h.symm⟩

theorem Lstat_mode_of_noSymlink (fs : FS) (hfs : fs.noSymlink = true) (p : GoString)
    (info : FileInfo) (h : Lstat fs p = .ok info) : info.mode ≠ .symlink := by
  obtain ⟨n, hn, h⟩ := Lstat_ok fs p info h
  · obtain ⟨e, he, hen⟩ := lookupNode_mem fs.nodes _ n hn
    have hall := List.all_eq_true.1 hfs e he
    rw [hen] at hall
    rw [← h]
    cases n with
    | file t d a => simp [Node.info]
    | dir t names a => simp [Node.info]
    | symlink t target => simp at hall
    | special k t => cases k <;> simp [Node.info, SpecialKind.mode]

theorem DirEntryInfo_mode_of_noSymlink (fs : FS) (hfs : fs.noSymlink = true)
    (dir name : GoString) (info : FileInfo) (h : DirEntryInfo fs dir name = .ok info) :
    info.mode ≠ .symlink :=
  Lstat_mode_of_noSymlink fs hfs _ info h

theorem ReadDir_simple (fs : FS) (hfs : fs.simpleNames = true) (p : GoString)
    (names : List GoString) (h : ReadDir fs p = .ok names) :
    ∀ n ∈ names, simpleName n = true := by
  obtain ⟨t, ns, hn, h⟩ := ReadDir_ok fs p names h
  obtain ⟨e, he, hen⟩ := lookupNode_mem fs.nodes _ _ hn
  have hall := List.all_eq_true.1 hfs e he
  rw [hen] at hall
  intro n hmem
  rw [h] at hmem
  have hmem1 : n ∈ ns := (List.perm_insertionSort _ ns).mem_iff.1 hmem
  exact List.all_eq_true.1 hall n hmem1

/-! ## The skip set -/

namespace cache

theorem reachedBelow_lift (skip : List GoString) (elems : List GoString) (n k : GoString)
    (h : reachedBelow skip (elems ++ [n]) k) (hsrc : rootedPath elems ∉ skip) :
    reachedBelow skip elems k := by
  obtain ⟨ek, hek, hk, hpre, hchain⟩ := h
  refine ⟨ek, hek, hk, (List.prefix_append elems [n]).trans hpre, ?_⟩
  intro pre h1 h2
  by_cases hlen : pre.length ≤ elems.length
  · have : elems = pre := h1.eq_of_length_le hlen
    rw [← this]
    exact hsrc
  · have h3 : (elems ++ [n]) <+: pre := by
      apply List.prefix_of_prefix_length_le hpre h2
      simp only [List.length_append, List.length_singleton]
      omega
    exact hchain pre h3 h2

theorem finfo_descent (fs : FS) (bc : BuildCache) (elems : List GoString)
    (helems : ∀ c ∈ elems, simpleName c = true)
    (hskip : rootedPath elems ∉ bc.skipPattern) (k : GoString)
    (hk : (bc.finfo fs (rootedPath elems)).2.newMod.get? k ≠ bc.newMod.get? k) :
    reachedBelow bc.skipPattern elems k := by
  unfold BuildCache.finfo at hk
  split at hk
  · exact absurd rfl hk
  · by_cases hsame : rootedPath elems = k
    · refine ⟨elems, helems, hsame.symm, List.prefix_refl _, ?_⟩
      intro pre h1 h2
      have : elems = pre := h1.eq_of_length_le h2.length_le
      rw [← this]
      exact hskip
    · exact absurd (ModMap.get?_set_ne _ _ _ _ hsame) hk

theorem dinfoLoop_descent (walk : BuildCache → GoString → FileInfo → Outcome × BuildCache)
    (fs : FS) (hfs : fs.noSymlink = true) (elems : List GoString)
    (helems : ∀ c ∈ elems, simpleName c = true)
    (hsame : ∀ (bc : BuildCache) (src : GoString) (info : FileInfo),
      bc.sameBut (walk bc src info).2)
    (hwalk : ∀ (bc : BuildCache) (n : GoString) (info : FileInfo) (k : GoString),
      simpleName n = true → info.mode ≠ .symlink →
      (walk bc (rootedPath (elems ++ [n])) info).2.newMod.get? k ≠ bc.newMod.get? k →
      reachedBelow bc.skipPattern (elems ++ [n]) k)
    (names : List GoString) (hnames : ∀ n ∈ names, simpleName n = true) (bc : BuildCache)
    (hskip : rootedPath elems ∉ bc.skipPattern) (k : GoString)
    (hk : (dinfoLoop walk fs (rootedPath elems) names bc).2.newMod.get? k ≠
      bc.newMod.get? k) :
    reachedBelow bc.skipPattern elems k := by
  induction names generalizing bc with
  | nil => exact absurd rfl hk
  | cons n rest ih =>
    have hn : simpleName n = true := hnames n (List.mem_cons_self _ _)
    have hrest : ∀ m ∈ rest, simpleName m = true :=
      fun m hm => hnames m (List.mem_cons_of_mem _ hm)
    unfold dinfoLoop at hk
    simp only [Join_rooted elems n helems hn] at hk
    split at hk
    · exact absurd rfl hk
    · rename_i finfo hinfo
      have hmode := DirEntryInfo_mode_of_noSymlink fs hfs _ _ finfo hinfo
      have hstep := hwalk bc n finfo k hn hmode
      have hsb := hsame bc (rootedPath (elems ++ [n])) finfo
      split at hk
      · rename_i bc1 heq
        rw [heq] at hstep hsb
        by_cases hchg : bc1.newMod.get? k = bc.newMod.get? k
        · rw [← hchg] at hk
          have hskip1 : rootedPath elems ∉ bc1.skipPattern := by
            rw [hsb.2.2.2.2.2]
            exact hskip
          have := ih hrest bc1 hskip1 hk
          rw [hsb.2.2.2.2.2] at this
          exact this
        · exact reachedBelow_lift _ _ n k (hstep hchg) hskip
      · rename_i err bc1 _ heq
        rw [heq] at hstep
        exact reachedBelow_lift _ _ n k (hstep hk) hskip

theorem dfs2_descent (fs : FS) (hfs : fs.noSymlink = true) (hnames : fs.simpleNames = true)
    (fuel : Nat) (bc : BuildCache) (elems : List GoString)
    (helems : ∀ c ∈ elems, simpleName c = true) (info : FileInfo)
    (hmode : info.mode ≠ .symlink) (k : GoString)
    (hk : (dfs2 fuel fs bc (rootedPath elems) info).2.newMod.get? k ≠ bc.newMod.get? k) :
    reachedBelow bc.skipPattern elems k := by
  induction fuel generalizing bc elems info k with
  | zero => exact absurd rfl hk
  | succ fuel ih =>
    unfold dfs2 at hk
    split at hk
    · exact absurd rfl hk
    · rename_i hskip
      split at hk
      · rename_i hm
        exact absurd hm hmode
      · unfold BuildCache.dinfo at hk
        split at hk
        · exact absurd rfl hk
        · rename_i contents hread
          exact dinfoLoop_descent (dfs2 fuel fs) fs hfs elems helems
            (fun bc src info => dfs2_sameBut fuel fs bc src info)
            (fun bc n info k hn hmode hk =>
              ih bc (elems ++ [n]) (by
                intro c hc
                rcases List.mem_append.1 hc with h | h
                · exact helems c h
                · rw [List.mem_singleton.1 h]; exact hn) info hmode k hk)
            contents (ReadDir_simple fs hnames _ contents hread) bc hskip k hk
      · exact absurd rfl hk
      · exact finfo_descent fs bc elems helems hskip k hk

/-- Every key that the walker writes is a path that is not in the skip set. -/
theorem dinfoLoop_not_skipped
    (walk : BuildCache → GoString → FileInfo → Outcome × BuildCache) (fs : FS)
    (hsame : ∀ (bc : BuildCache) (src : GoString) (info : FileInfo),
      bc.sameBut (walk bc src info).2)
    (hwalk : ∀ (bc : BuildCache) (src : GoString) (info : FileInfo) (k : GoString),
      (walk bc src info).2.newMod.get? k ≠ bc.newMod.get? k → k ∉ bc.skipPattern)
    (src : GoString) (names : List GoString) (bc : BuildCache) (k : GoString)
    (hk : (dinfoLoop walk fs src names bc).2.newMod.get? k ≠ bc.newMod.get? k) :
    k ∉ bc.skipPattern := by
  induction names generalizing bc with
  | nil => exact absurd rfl hk
  | cons n rest ih =>
    unfold dinfoLoop at hk
    simp only at hk
    split at hk
    · exact absurd rfl hk
    · rename_i finfo _
      have hstep := hwalk bc (Join src n) finfo k
      have hsb := hsame bc (Join src n) finfo
      split at hk
      · rename_i bc1 heq
        rw [heq] at hstep hsb
        by_cases hchg : bc1.newMod.get? k = bc.newMod.get? k
        · rw [← hchg] at hk
          have := ih bc1 hk
          rw [hsb.2.2.2.2.2] at this
          exact this
        · exact hstep hchg
      · rename_i err bc1 _ heq
        rw [heq] at hstep
        exact hstep hk

theorem dfs2_not_skipped (fuel : Nat) (fs : FS) (bc : BuildCache) (src : GoString)
    (info : FileInfo) (k : GoString)
    (hk : (dfs2 fuel fs bc src info).2.newMod.get? k ≠ bc.newMod.get? k) :
    k ∉ bc.skipPattern := by
  induction fuel generalizing bc src info k with
  | zero => exact absurd rfl hk
  | succ fuel ih =>
    unfold dfs2 at hk
    split at hk
    · exact absurd rfl hk
    · rename_i hskip
      split at hk
      · unfold BuildCache.sinfo at hk
        split at hk
        · exact absurd rfl hk
        · split at hk
          · exact absurd rfl hk
          · exact ih _ _ _ _ hk
      · unfold BuildCache.dinfo at hk
        split at hk
        · exact absurd rfl hk
        · exact dinfoLoop_not_skipped (dfs2 fuel fs) fs
            (fun bc src info => dfs2_sameBut fuel fs bc src info)
            (fun bc src info k hk => ih bc src info k hk) _ _ bc k hk
      · exact absurd rfl hk
      · unfold BuildCache.finfo at hk
        split at hk
        · exact absurd rfl hk
        · by_cases hsame : src = k
          · rw [← hsame]
            exact hskip
          · exact absurd (ModMap.get?_set_ne _ _ _ _ hsame) hk

/-- The mapping that `Cache` leaves in the controller is the mapping it had or the one
the walker left. -/
theorem Cache_newMod (bc : BuildCache) (fuel : Nat) (fs : FS) :
    (bc.Cache fuel fs).2.1.newMod = bc.newMod ∨
    ∃ info, Lstat fs bc.baseDir = .ok info ∧
      (bc.Cache fuel fs).2.1.newMod = (dfs2 fuel fs bc bc.baseDir info).2.newMod := by
  cases hstat : Lstat fs bc.baseDir with
  | error err =>
    left
    unfold BuildCache.Cache
    simp only [hstat]
  | ok info =>
    right
    refine ⟨info, rfl, ?_⟩
    unfold BuildCache.Cache
    simp only [hstat]
    split
    · rename_i bc1 heq
      rw [heq]
      split
      · split
        · rfl
        · rw [walk_refresh_state]
      · rw [walk_refresh_state]
    · rename_i err bc1 _ heq
      rw [heq]

end cache

namespace cache

theorem foldl_apply_fields (opts : List CacheOption) (b : BuildCache) :
    (opts.foldl (fun bc o => o.apply bc) b).baseDir = b.baseDir ∧
    (opts.foldl (fun bc o => o.apply bc) b).newMod = b.newMod ∧
    (opts.foldl (fun bc o => o.apply bc) b).cacheDir = b.cacheDir ∧
    ∀ s, s ∈ (opts.foldl (fun bc o => o.apply bc) b).skipPattern ↔
      s ∈ b.skipPattern ∨ ∃ p, CacheOption.WithSkip p ∈ opts ∧ s = Join b.baseDir p := by
  induction opts generalizing b with
  | nil => simp
  | cons o rest ih =>
    obtain ⟨h1, h2, h3, h4⟩ := ih (o.apply b)
    cases o with
    | WithSkip p =>
      rw [List.foldl_cons]
      refine ⟨h1, h2, h3, ?_⟩
      intro s
      rw [h4 s]
      simp only [CacheOption.apply, List.mem_cons, CacheOption.WithSkip.injEq]
      constructor
      · rintro ((h | h) | ⟨q, hq, hs⟩)
        · exact Or.inr ⟨p, Or.inl rfl, h⟩
        · exact Or.inl h
        · exact Or.inr ⟨q, Or.inr hq, hs⟩
      · rintro (h | ⟨q, hq | hq, hs⟩)
        · exact Or.inl (Or.inr h)
        · rw [hq] at hs
          exact Or.inl (Or.inl hs)
        · exact Or.inr ⟨q, hq, hs⟩

/-- What `NewBuildCache` puts in the controller: the base directory, an empty new
mapping, and a skip set made of the cache directory and of `Join(baseDir, p)` for each
`WithSkip(p)`. -/
theorem NewBuildCache_fields (env : Env) (fs : FS) (base : GoString)
    (opts : List CacheOption) (bc : BuildCache)
    (h : NewBuildCache env fs base opts = .ok bc) :
    base ≠ [] ∧ bc.baseDir = base ∧ bc.newMod = [] ∧
    ∀ s, s ∈ bc.skipPattern ↔
      s = cacheDirFor env base ∨ ∃ p, CacheOption.WithSkip p ∈ opts ∧ s = Join base p := by
  unfold NewBuildCache at h
  by_cases hb : base = []
  · simp [hb] at h
  · simp only [hb, if_false] at h
    have key : ∀ b : BuildCache, b.baseDir = base → b.newMod = [] →
        b.cacheDir = cacheDirFor env base → b.skipPattern = [] →
        (Except.ok { (opts.foldl (fun bc o => o.apply bc) b) with
          skipPattern := (opts.foldl (fun bc o => o.apply bc) b).cacheDir ::
            (opts.foldl (fun bc o => o.apply bc) b).skipPattern } : Except GoError BuildCache)
          = .ok bc →
        bc.baseDir = base ∧ bc.newMod = [] ∧
        ∀ s, s ∈ bc.skipPattern ↔
          s = cacheDirFor env base ∨
            ∃ p, CacheOption.WithSkip p ∈ opts ∧ s = Join base p := by
      intro b hb1 hb2 hb3 hb4 hok
      obtain ⟨h1, h2, h3, h4⟩ := foldl_apply_fields opts b
      simp only [Except.ok.injEq] at hok
      rw [← hok]
      refine ⟨h1.trans hb1, h2.trans hb2, ?_⟩
      intro s
      simp only [List.mem_cons, h4 s, h3, hb3, hb4, hb1, List.not_mem_nil, false_or]
    refine ⟨hb, ?_⟩
    split at h
    · split at h
      · exact key _ rfl rfl rfl rfl h
      · cases h
    · split at h
      · cases h
      · split at h
        · cases h
        · exact key _ rfl rfl rfl rfl h

end cache

/-- A path joined to an absolute base directory is an absolute path in cleaned form. -/
theorem Join_abs_rooted (base x : GoString) (hb : IsAbs base = true) :
    ∃ elems, (∀ c ∈ elems, simpleName c = true) ∧ Join base x = rootedPath elems := by
  have hne : base ≠ [] := by
    intro h
    rw [h] at hb
    simp [IsAbs] at hb
  have habs : IsAbs (base ++ '/' :: x) = true := by
    cases base with
    | nil => exact absurd rfl hne
    | cons c rest =>
      by_cases hc : c = '/'
      · subst hc; rfl
      · simp [IsAbs, hc] at hb
  unfold Join
  rw [if_neg hne]
  exact Clean_rooted _ habs

/-- C5 fails in both packages. In package `cache`, on the project `/p` with
`WithSkip("vendor")`, the entry `/p/l` is a symbolic link to `/p/vendor/x.go`: the
walker follows the link and checks the target path itself against the skip set, so
after `Cache` the new mapping has the key `/p/vendor/x.go`, which lies under the skip
path `/p/vendor`, and that file has been copied to the storage directory. In package
`build`, with `WithSkip("a.go")`, the skip set is never read: `/p/a.go` is in the new
mapping and in the storage directory. -/
theorem C5_skipped_path_recorded :
    cache.NewBuildCache exEnv skipFS "/p".toList [.WithSkip "vendor".toList] =
      .ok skipController ∧
    Join "/p".toList "vendor".toList ∈ skipController.skipPattern ∧
    (skipController.Cache 5 skipFS).1 = .nil ∧
    (skipController.Cache 5 skipFS).2.1.newMod.get? "/p/vendor/x.go".toList = some 55 ∧
    isUnder (Join "/p".toList "vendor".toList) "/p/vendor/x.go".toList = true ∧
    (skipController.Cache 5 skipFS).2.2.node? "/p/.gococo/cache/l".toList =
      some (.file 7 "package x".toList true) ∧
    build.NewBuildCache exEnv exFS "/p".toList
      [.WithSkip "a.go".toList, .WithPackage [exPkg]] = .ok skipBuild ∧
    Join "/p".toList "a.go".toList ∈ skipBuild.skipPattern ∧
    (skipBuild.Cache exFS).1 = .nil ∧
    (skipBuild.Cache exFS).2.1.newMod.get? "/p/a.go".toList = some 100 ∧
    (skipBuild.Cache exFS).2.2.node? "/p/.gococo/cache/a.go".toList =
      some (.file 7 "package a".toList true) := by
  refine ⟨rfl, ?_, ?_, ?_, ?_, ?_, rfl, ?_, ?_, ?_, ?_⟩ <;> decide

/-! ## Numbers in the digest -/

theorem digitVal_ofNat (d : Nat) (h : d < 10) : digitVal (Char.ofNat (d + 48)) = some d := by
  interval_cases d <;> decide

theorem isSpace_ofNat_digit (d : Nat) (h : d < 10) : isSpace (Char.ofNat (d + 48)) = false := by
  interval_cases d <;> decide

theorem ofNat_digit_ne (d : Nat) (h : d < 10) :
    Char.ofNat (d + 48) ≠ '+' ∧ Char.ofNat (d + 48) ≠ '-' ∧ Char.ofNat (d + 48) ≠ '\r' ∧
    Char.ofNat (d + 48) ≠ '\n' ∧ Char.ofNat (d + 48) ≠ ' ' := by
  interval_cases d <;> decide

theorem parseDigits_append (acc : Nat) (xs ys : GoString) :
    parseDigits acc (xs ++ ys) = (parseDigits acc xs).bind (fun a => parseDigits a ys) := by
  induction xs generalizing acc with
  | nil => rfl
  | cons c cs ih =>
    simp only [List.cons_append, parseDigits]
    cases digitVal c with
    | none => rfl
    | some d => exact ih _

/-- The digits written for a number read back as that number. -/
theorem parseDigits_natDigits (fuel n : Nat) (h : n < fuel) :
    parseDigits 0 (natDigits fuel n) = some n := by
  induction fuel generalizing n with
  | zero => omega
  | succ fuel ih =>
    rw [natDigits]
    by_cases hn : n < 10
    · rw [if_pos hn]
      simp only [parseDigits, digitVal_ofNat n hn]
      simp
    · rw [if_neg hn, parseDigits_append, ih (n / 10) (by omega)]
      simp only [Option.some_bind, parseDigits, digitVal_ofNat (n % 10) (Nat.mod_lt _ (by omega))]
      congr 1
      omega

/-- The digits written for a number are decimal digits. -/
theorem natDigits_digit (fuel n : Nat) :
    ∀ c ∈ natDigits fuel n, ∃ d, d < 10 ∧ c = Char.ofNat (d + 48) := by
  induction fuel generalizing n with
  | zero => simp [natDigits]
  | succ fuel ih =>
    rw [natDigits]
    by_cases hn : n < 10
    · rw [if_pos hn]
      intro c hc
      exact ⟨n, hn, List.mem_singleton.1 hc⟩
    · rw [if_neg hn]
      intro c hc
      rcases List.mem_append.1 hc with h | h
      · exact ih _ c h
      · exact ⟨n % 10, Nat.mod_lt _ (by omega), List.mem_singleton.1 h⟩

theorem natDigits_ne_nil (fuel n : Nat) : natDigits (fuel + 1) n ≠ [] := by
  rw [natDigits]
  split <;> simp

theorem natDigits_getLast (fuel n : Nat) :
    ∃ d, d < 10 ∧ (natDigits (fuel + 1) n).getLast? = some (Char.ofNat (d + 48)) := by
  rw [natDigits]
  by_cases hn : n < 10
  · rw [if_pos hn]
    exact ⟨n, hn, rfl⟩
  · rw [if_neg hn]
    exact ⟨n % 10, Nat.mod_lt _ (by omega), by simp⟩

/-- The range of `int64`. -/
theorem ParseInt_formatInt (t : Int) (hlo : -(2 : Int) ^ 63 ≤ t) (hhi : t < (2 : Int) ^ 63) :
    ParseInt (formatInt t) = some t := by
  unfold formatInt
  have hp := parseDigits_natDigits (t.natAbs + 1) t.natAbs (by omega)
  have hne := natDigits_ne_nil t.natAbs t.natAbs
  by_cases hneg : t < 0
  · rw [if_pos hneg]
    cases hd : natDigits (t.natAbs + 1) t.natAbs with
    | nil => exact absurd hd hne
    | cons c cs =>
      rw [hd] at hp
      have hle : t.natAbs ≤ 2 ^ 63 := by omega
      simp only [ParseInt, or_true, if_true, hp, decide_True, hle]
      congr 1
      omega
  · rw [if_neg hneg]
    cases hd : natDigits (t.natAbs + 1) t.natAbs with
    | nil => exact absurd hd hne
    | cons c cs =>
      rw [hd] at hp
      obtain ⟨d, hd10, hc⟩ := natDigits_digit (t.natAbs + 1) t.natAbs c (by rw [hd]; simp)
      obtain ⟨h1, h2, _⟩ := ofNat_digit_ne d hd10
      rw [← hc] at h1 h2
      have hlt : t.natAbs < 2 ^ 63 := by omega
      simp only [ParseInt, h1, h2, or_self, if_false, hp, decide_False, hlt,
        Bool.false_eq_true, if_true]
      congr 1
      omega

/-- The numeral written for a number has no white space and ends in a digit. -/
theorem formatInt_chars (t : Int) :
    (∀ c ∈ formatInt t, isSpace c = false ∧ c ≠ '\n' ∧ c ≠ ' ') ∧
    ∃ c, (formatInt t).getLast? = some c ∧ isSpace c = false ∧ c ≠ '\r' := by
  have hall : ∀ c ∈ natDigits (t.natAbs + 1) t.natAbs,
      isSpace c = false ∧ c ≠ '\n' ∧ c ≠ ' ' := by
    intro c hc
    obtain ⟨d, hd10, hcd⟩ := natDigits_digit _ _ c hc
    rw [hcd]
    exact ⟨isSpace_ofNat_digit d hd10, (ofNat_digit_ne d hd10).2.2.2.1,
      (ofNat_digit_ne d hd10).2.2.2.2⟩
  obtain ⟨d, hd10, hlast⟩ := natDigits_getLast t.natAbs t.natAbs
  have hne := natDigits_ne_nil t.natAbs t.natAbs
  unfold formatInt
  split
  · constructor
    · intro c hc
      rcases List.mem_cons.1 hc with h | h
      · rw [h]
        decide
      · exact hall c h
    · refine ⟨Char.ofNat (d + 48), ?_, isSpace_ofNat_digit d hd10, (ofNat_digit_ne d hd10).2.2.1⟩
      cases hd : natDigits (t.natAbs + 1) t.natAbs with
      | nil => exact absurd hd hne
      | cons x xs =>
        rw [hd] at hlast
        rw [List.getLast?_cons_cons]
        exact hlast
  · exact ⟨hall, Char.ofNat (d + 48), hlast, isSpace_ofNat_digit d hd10,
      (ofNat_digit_ne d hd10).2.2.1⟩

/-! ## Writing the digest and reading it back -/

theorem digestText_cons (e : GoString × Int) (rest : ModMap) :
    digestText (e :: rest) = digestLine e ++ '\n' :: digestText rest := by
  obtain ⟨k, t⟩ := e
  simp [digestText, digestLine]

theorem plainPath_iff (k : GoString) :
    plainPath k = true ↔ k ≠ [] ∧ ∀ c ∈ k, isSpace c = false := by
  simp [plainPath]

theorem digestLine_not_mem (e : GoString × Int) (h : plainPath e.1 = true) (c : Char)
    (hc : isSpace c = true) : c ∉ e.1 ∧ c ∉ formatInt e.2 := by
  obtain ⟨_, hk⟩ := (plainPath_iff e.1).1 h
  constructor
  · intro hmem
    have := hk c hmem
    rw [hc] at this
    cases this
  · intro hmem
    have := ((formatInt_chars e.2).1 c hmem).1
    rw [hc] at this
    cases this

theorem digestLine_no_newline (e : GoString × Int) (h : plainPath e.1 = true) :
    '\n' ∉ digestLine e := by
  obtain ⟨h1, h2⟩ := digestLine_not_mem e h '\n' (by decide)
  unfold digestLine
  intro hmem
  rcases List.mem_append.1 hmem with h3 | h3
  · exact h1 h3
  · rcases List.mem_cons.1 h3 with h4 | h4
    · exact absurd h4 (by decide)
    · exact h2 h4

theorem splitOn_digestText (m : ModMap) (h : ∀ e ∈ m, plainPath e.1 = true) :
    splitOn '\n' (digestText m) = m.map digestLine ++ [[]] := by
  induction m with
  | nil => rfl
  | cons e rest ih =>
    rw [digestText_cons, splitOn_append_sep,
      splitOn_of_not_mem '\n' _ (digestLine_no_newline e (h e (List.mem_cons_self _ _))),
      ih (fun x hx => h x (List.mem_cons_of_mem _ hx))]
    rfl

theorem rawLines_digestText (m : ModMap) (h : ∀ e ∈ m, plainPath e.1 = true) :
    rawLines (digestText m) = m.map digestLine := by
  unfold rawLines
  simp only [splitOn_digestText m h]
  simp

theorem getLast?_digestLine (e : GoString × Int) :
    ∃ c, (digestLine e).getLast? = some c ∧ isSpace c = false ∧ c ≠ '\r' := by
  obtain ⟨c, hc, h1, h2⟩ := (formatInt_chars e.2).2
  refine ⟨c, ?_, h1, h2⟩
  unfold digestLine
  cases hf : formatInt e.2 with
  | nil => rw [hf] at hc; cases hc
  | cons x xs =>
    rw [hf] at hc
    rw [List.getLast?_append, List.getLast?_cons_cons, hc]
    rfl

theorem TrimSpace_of_ends (s : GoString) (a c : Char) (rest : GoString) (hs : s = a :: rest)
    (ha : isSpace a = false) (hlast : s.getLast? = some c) (hc : isSpace c = false) :
    TrimSpace s = s := by
  have h1 : s.dropWhile isSpace = s := by
    rw [hs, List.dropWhile_cons, ha]
    rfl
  have h2 : ∃ r, s.reverse = c :: r := by
    have : s.reverse.head? = some c := by
      rw [List.head?_reverse]
      exact hlast
    cases hr : s.reverse with
    | nil => rw [hr] at this; cases this
    | cons x xs =>
      rw [hr] at this
      simp only [List.head?_cons, Option.some.injEq] at this
      exact ⟨xs, by rw [this]⟩
  obtain ⟨r, hr⟩ := h2
  unfold TrimSpace
  rw [h1, hr, List.dropWhile_cons, hc]
  simp only [Bool.false_eq_true, if_false]
  rw [← hr, List.reverse_reverse]

theorem TrimSpace_digestLine (e : GoString × Int) (h : plainPath e.1 = true) :
    TrimSpace (digestLine e) = digestLine e := by
  obtain ⟨hne, hk⟩ := (plainPath_iff e.1).1 h
  obtain ⟨c, hc, hsp, _⟩ := getLast?_digestLine e
  cases hkey : e.1 with
  | nil => exact absurd hkey hne
  | cons a rest =>
    have ha : isSpace a = false := hk a (by rw [hkey]; simp)
    exact TrimSpace_of_ends (digestLine e) a c (rest ++ ' ' :: formatInt e.2)
      (by unfold digestLine; rw [hkey]; rfl) ha hc hsp

theorem dropCR_digestLine (e : GoString × Int) : dropCR (digestLine e) = digestLine e := by
  obtain ⟨c, hc, _, hcr⟩ := getLast?_digestLine e
  unfold dropCR
  rw [hc, if_neg]
  intro h
  exact hcr (Option.some.inj h)

theorem splitOn_space_digestLine (e : GoString × Int) (h : plainPath e.1 = true) :
    splitOn ' ' (digestLine e) = [e.1, formatInt e.2] := by
  obtain ⟨h1, h2⟩ := digestLine_not_mem e h ' ' (by decide)
  unfold digestLine
  rw [splitOn_append_sep, splitOn_of_not_mem ' ' _ h1, splitOn_of_not_mem ' ' _ h2]
  rfl

theorem digestLine_ne_nil (e : GoString × Int) : digestLine e ≠ [] := by
  unfold digestLine
  simp

theorem firstField_digestLine (e : GoString × Int) (h : plainPath e.1 = true) :
    firstField (digestLine e) = e.1 := by
  unfold firstField
  rw [TrimSpace_digestLine e h, splitOn_space_digestLine e h]
  rfl

theorem secondField_digestLine (e : GoString × Int) (h : plainPath e.1 = true) :
    secondField (digestLine e) = formatInt e.2 := by
  unfold secondField
  rw [TrimSpace_digestLine e h, splitOn_space_digestLine e h]
  rfl

theorem wellFormed_digestLine (e : GoString × Int) (h : plainPath e.1 = true)
    (hlo : -(2 : Int) ^ 63 ≤ e.2) (hhi : e.2 < (2 : Int) ^ 63) :
    wellFormedLine (digestLine e) := by
  unfold wellFormedLine
  rw [TrimSpace_digestLine e h, splitOn_space_digestLine e h, secondField_digestLine e h,
    ParseInt_formatInt e.2 hlo hhi]
  exact ⟨rfl, rfl⟩

theorem lineValue_digestLine (e : GoString × Int) (k : GoString) (h : plainPath e.1 = true)
    (hlo : -(2 : Int) ^ 63 ≤ e.2) (hhi : e.2 < (2 : Int) ^ 63) :
    lineValue (digestLine e) k = if e.1 = k then some e.2 else none := by
  unfold lineValue
  rw [firstField_digestLine e h, secondField_digestLine e h, ParseInt_formatInt e.2 hlo hhi,
    TrimSpace_digestLine e h]
  simp [digestLine_ne_nil e]

theorem lastValue_none_of_not_mem (m : ModMap) (k : GoString)
    (h : ∀ e ∈ m, plainPath e.1 = true ∧ -(2 : Int) ^ 63 ≤ e.2 ∧ e.2 < (2 : Int) ^ 63)
    (hk : k ∉ m.map Prod.fst) : lastValue (m.map digestLine) k = none := by
  induction m with
  | nil => rfl
  | cons e rest ih =>
    obtain ⟨h1, h2, h3⟩ := h e (List.mem_cons_self _ _)
    have hne : ¬ e.1 = k := fun heq => hk (by simp [heq])
    have hrest : k ∉ rest.map Prod.fst := fun hmem => hk (by simp at hmem ⊢; exact Or.inr hmem)
    simp only [List.map_cons, lastValue,
      ih (fun x hx => h x (List.mem_cons_of_mem _ hx)) hrest,
      lineValue_digestLine e k h1 h2 h3, if_neg hne]
    rfl

/-- The lines written for a mapping without repeated keys give every path the time it
has in the mapping. -/
theorem lastValue_digest (m : ModMap) (k : GoString) (hm : m.tidy) :
    lastValue (m.map digestLine) k = m.get? k := by
  obtain ⟨hnd, hall⟩ := hm
  induction m with
  | nil => rfl
  | cons e rest ih =>
    obtain ⟨key, t⟩ := e
    obtain ⟨h1, h2, h3, _⟩ := hall (key, t) (List.mem_cons_self _ _)
    have hrest : ∀ x ∈ rest, plainPath x.1 = true ∧ -(2 : Int) ^ 63 ≤ x.2 ∧
        x.2 < (2 : Int) ^ 63 ∧ byteLen (digestLine x) < MaxScanTokenSize :=
      fun x hx => hall x (List.mem_cons_of_mem _ hx)
    simp only [List.map_cons, List.nodup_cons] at hnd
    simp only [List.map_cons, lastValue, lineValue_digestLine (key, t) k h1 h2 h3, ModMap.get?]
    by_cases hk : key = k
    · subst hk
      rw [lastValue_none_of_not_mem rest key
        (fun x hx => ⟨(hrest x hx).1, (hrest x hx).2.1, (hrest x hx).2.2.1⟩) hnd.1]
      simp
    · rw [if_neg hk, if_neg hk, ih hnd.2 hrest]
      simp

/-- The text that `saveCache` writes for a tidy mapping is loaded without error into a
mapping with the same paths and times. -/
theorem loadDigest_digestText (m : ModMap) (hm : m.tidy) :
    ∃ m1, loadDigest (digestText m) = .ok m1 ∧ ∀ k, m1.get? k = m.get? k := by
  have hplain : ∀ e ∈ m, plainPath e.1 = true := fun e he => (hm.2 e he).1
  have hshort : ∀ l ∈ rawLines (digestText m), byteLen l < MaxScanTokenSize := by
    rw [rawLines_digestText m hplain]
    intro l hl
    obtain ⟨e, he, hle⟩ := List.mem_map.1 hl
    rw [← hle]
    exact (hm.2 e he).2.2.2
  obtain ⟨hiff, hget⟩ := loadDigest_of_short (digestText m) hshort
  have hlines : fileLines (digestText m) = m.map digestLine := by
    unfold fileLines
    rw [rawLines_digestText m hplain, List.map_map]
    apply List.map_congr_left
    intro e _
    exact dropCR_digestLine e
  rw [hlines] at hiff hget
  cases hl : loadDigest (digestText m) with
  | error err =>
    obtain ⟨text, htext, hbad⟩ := hiff.1 ⟨err, hl⟩
    obtain ⟨e, he, hte⟩ := List.mem_map.1 htext
    rw [← hte] at hbad
    exact absurd (wellFormed_digestLine e (hm.2 e he).1 (hm.2 e he).2.1 (hm.2 e he).2.2.1) hbad.2
  | ok m1 =>
    refine ⟨m1, rfl, ?_⟩
    intro k
    rw [hget m1 hl k, lastValue_digest m k hm]

/-! ## Creating and writing a file -/

theorem lookupNode_filter_ne (nodes : List (GoString × Node)) (k q : GoString) (h : k ≠ q) :
    lookupNode (nodes.filter (fun e => e.1 ≠ k)) q = lookupNode nodes q := by
  induction nodes with
  | nil => rfl
  | cons e rest ih =>
    obtain ⟨k0, n⟩ := e
    by_cases h0 : k0 = k
    · have h1 : ¬ k0 = q := fun h1 => h (h0.symm.trans h1)
      simp only [List.filter_cons, h0, ne_eq, not_true_eq_false, decide_False,
        Bool.false_eq_true, if_false, lookupNode]
      rw [← h0, if_neg h1, h0]
      simpa using ih
    · simp only [List.filter_cons, h0, ne_eq, not_false_eq_true, decide_True, if_true,
        lookupNode]
      by_cases h1 : k0 = q
      · simp [h1]
      · simp only [h1, if_false]
        simpa using ih

/-- The entries of a filesystem after one of them is replaced. -/
theorem node?_put (fs : FS) (k q : GoString) (n : Node) :
    (fs.put k n).node? q = if Clean k = Clean q then some n else fs.node? q := by
  unfold FS.put FS.node?
  simp only [lookupNode]
  by_cases h : Clean k = Clean q
  · rw [if_pos h, if_pos h]
  · rw [if_neg h, if_neg h]
    exact lookupNode_filter_ne fs.nodes _ _ h

theorem node?_congr (fs : FS) (k q : GoString) (h : Clean k = Clean q) :
    fs.node? k = fs.node? q := by
  unfold FS.node?
  rw [h]

theorem sameLinks_refl (fs : FS) : sameLinks fs fs := fun _ _ _ => Iff.rfl

theorem sameLinks_trans {a b c : FS} (h1 : sameLinks a b) (h2 : sameLinks b c) :
    sameLinks a c := fun q t target => (h1 q t target).trans (h2 q t target)

theorem sameLinks_put (fs : FS) (k : GoString) (n : Node) (hn : n.isLink = false)
    (hk : ∀ m, fs.node? k = some m → m.isLink = false) : sameLinks fs (fs.put k n) := by
  intro q t target
  rw [node?_put]
  by_cases h : Clean k = Clean q
  · rw [if_pos h]
    constructor
    · intro hq
      rw [← node?_congr fs k q h] at hq
      have := hk _ hq
      simp [Node.isLink] at this
    · intro hq
      rw [Option.some.inj hq] at hn
      simp [Node.isLink] at hn
  · rw [if_neg h]

/-- Following links gives the same path in two filesystems with the same links. -/
theorem resolve_congr (fuel : Nat) (fs fs1 : FS) (h : sameLinks fs fs1) (path : GoString) :
    resolve fuel fs1 path = resolve fuel fs path := by
  induction fuel generalizing path with
  | zero =>
    unfold resolve
    cases hn : fs.node? path with
    | none =>
      cases hn1 : fs1.node? path with
      | none => rfl
      | some m =>
        cases m with
        | symlink t target => rw [(h path t target).2 hn1] at hn; cases hn
        | file t d a => rfl
        | dir t ns a => rfl
        | special k t => rfl
    | some m =>
      cases m with
      | symlink t target => rw [(h path t target).1 hn]
      | file t d a =>
        cases hn1 : fs1.node? path with
        | none => rfl
        | some m1 =>
          cases m1 with
          | symlink t1 target => rw [(h path t1 target).2 hn1] at hn; cases hn
          | file t d a => rfl
          | dir t ns a => rfl
          | special k t => rfl
      | dir t ns a =>
        cases hn1 : fs1.node? path with
        | none => rfl
        | some m1 =>
          cases m1 with
          | symlink t1 target => rw [(h path t1 target).2 hn1] at hn; cases hn
          | file t d a => rfl
          | dir t ns a => rfl
          | special k t => rfl
      | special k t =>
        cases hn1 : fs1.node? path with
        | none => rfl
        | some m1 =>
          cases m1 with
          | symlink t1 target => rw [(h path t1 target).2 hn1] at hn; cases hn
          | file t d a => rfl
          | dir t ns a => rfl
          | special k t => rfl
  | succ fuel ih =>
    unfold resolve
    cases hn : fs.node? path with
    | none =>
      cases hn1 : fs1.node? path with
      | none => rfl
      | some m =>
        cases m with
        | symlink t target => rw [(h path t target).2 hn1] at hn; cases hn
        | file t d a => rfl
        | dir t ns a => rfl
        | special k t => rfl
    | some m =>
      cases m with
      | symlink t target =>
        rw [(h path t target).1 hn]
        exact ih _
      | file t d a =>
        cases hn1 : fs1.node? path with
        | none => rfl
        | some m1 =>
          cases m1 with
          | symlink t1 target => rw [(h path t1 target).2 hn1] at hn; cases hn
          | file t d a => rfl
          | dir t ns a => rfl
          | special k t => rfl
      | dir t ns a =>
        cases hn1 : fs1.node? path with
        | none => rfl
        | some m1 =>
          cases m1 with
          | symlink t1 target => rw [(h path t1 target).2 hn1] at hn; cases hn
          | file t d a => rfl
          | dir t ns a => rfl
          | special k t => rfl
      | special k t =>
        cases hn1 : fs1.node? path with
        | none => rfl
        | some m1 =>
          cases m1 with
          | symlink t1 target => rw [(h path t1 target).2 hn1] at hn; cases hn
          | file t d a => rfl
          | dir t ns a => rfl
          | special k t => rfl

theorem resolve_ok_cases (fuel : Nat) (fs : FS) (path f : GoString)
    (h : resolve (fuel + 1) fs path = .ok f) :
    (∃ t target, fs.node? path = some (.symlink t target)) ∨ f = path := by
  unfold resolve at h
  cases hn : fs.node? path with
  | none =>
    rw [hn] at h
    right
    cases h
    rfl
  | some m =>
    cases m with
    | symlink t target => exact Or.inl ⟨t, target, rfl⟩
    | file t d a => rw [hn] at h; right; cases h; rfl
    | dir t ns a => rw [hn] at h; right; cases h; rfl
    | special k t => rw [hn] at h; right; cases h; rfl

/-- A call of `os.Create` that succeeds has found the directories on the way, and is then
the work on the entry at the end of the links. -/
theorem Create_found (fs fs1 : FS) (path f : GoString) (h : Create fs path = .ok (fs1, f)) :
    searchError fs (dirsOnWay [] (Clean path)) = none ∧
    (match resolve MAXSYMLINKS fs path with
      | .error e => .error e
      | .ok p =>
        match fs.node? p with
        | some (.file _ _ true) => .ok (fs.put p (.file fs.now [] true), p)
        | some (.file _ _ false) => .error (.sys .EACCES path)
        | some (.dir _ _ _) => .error (.sys .EISDIR path)
        | some _ => .error (.sys .EACCES path)
        | none =>
          match fs.link p (.file fs.now [] true) with
          | .error e => .error e
          | .ok fs1 => .ok (fs1, p)) = (.ok (fs1, f) : Except GoError (FS × GoString)) := by
  unfold Create at h
  cases hs : searchError fs (dirsOnWay [] (Clean path)) with
  | some e => rw [hs] at h; cases h
  | none =>
    rw [hs] at h
    exact ⟨rfl, h⟩

/-- A call of `os.Mkdir` that succeeds has found the directories on the way, and no entry
under the path. -/
theorem Mkdir_found (fs fs1 : FS) (path : GoString) (h : Mkdir fs path = .ok fs1) :
    searchError fs (dirsOnWay [] (Clean path)) = none ∧
    (match fs.node? path with
      | some _ => .error (.sys .EEXIST path)
      | none => fs.link path (.dir fs.now [] true)) = (.ok fs1 : Except GoError FS) := by
  unfold Mkdir at h
  cases hs : searchError fs (dirsOnWay [] (Clean path)) with
  | some e => rw [hs] at h; cases h
  | none =>
    rw [hs] at h
    exact ⟨rfl, h⟩

/-- What `os.Create` leaves: an empty file at the end of the links, and the links as they
were. -/
theorem Create_ok (fs fs1 : FS) (path f : GoString) (h : Create fs path = .ok (fs1, f)) :
    resolve MAXSYMLINKS fs path = .ok f ∧ fs1.node? f = some (.file fs.now [] true) ∧
      sameLinks fs fs1 ∧ fs1.now = fs.now := by
  replace h := (Create_found fs fs1 path f h).2
  cases hr : resolve MAXSYMLINKS fs path with
  | error e => rw [hr] at h; cases h
  | ok p =>
    rw [hr] at h
    simp only at h
    cases hn : fs.node? p with
    | none =>
      rw [hn] at h
      simp only [FS.link] at h
      cases hp : parentDir fs p with
      | error e => rw [hp] at h; cases h
      | ok r =>
        obtain ⟨t, names⟩ := r
        rw [hp] at h
        simp only [Except.ok.injEq, Prod.mk.injEq] at h
        obtain ⟨h1, h2⟩ := h
        subst h1 h2
        have hd : ∀ m, fs.node? (Dir (Clean p)) = some m → m.isLink = false := by
          intro m hm
          unfold parentDir at hp
          rw [hm] at hp
          cases m with
          | symlink t1 target => cases hp
          | file t d a => rfl
          | dir t ns a => rfl
          | special k t => rfl
        refine ⟨rfl, ?_, ?_, rfl⟩
        · rw [node?_put, if_pos rfl]
        · refine sameLinks_trans (sameLinks_put fs _ (.dir _ _ _) rfl hd)
            (sameLinks_put _ _ (.file _ _ _) rfl ?_)
          intro m hm
          rw [node?_put] at hm
          by_cases hc : Clean (Dir (Clean p)) = Clean p
          · rw [if_pos hc] at hm
            rw [← Option.some.inj hm]
            rfl
          · rw [if_neg hc, hn] at hm
            cases hm
    | some m =>
      rw [hn] at h
      cases m with
      | symlink t1 target => cases h
      | dir t ns a => cases h
      | special k t => cases h
      | file t d a =>
        cases a with
        | false => cases h
        | true =>
          simp only [Except.ok.injEq, Prod.mk.injEq] at h
          obtain ⟨h1, h2⟩ := h
          subst h1 h2
          refine ⟨rfl, ?_, ?_, rfl⟩
          · rw [node?_put, if_pos rfl]
          · refine sameLinks_put fs _ (.file _ _ _) rfl ?_
            intro m hm
            rw [hn] at hm
            rw [← Option.some.inj hm]
            rfl

/-- What a write to an opened file leaves. -/
theorem write_file (fs : FS) (f text d : GoString) (t : Int) (a : Bool)
    (h : fs.node? f = some (.file t d a)) :
    (fs.write f text).node? f = some (.file fs.now (d ++ text) a) ∧
      sameLinks fs (fs.write f text) := by
  unfold FS.write
  rw [h]
  simp only
  refine ⟨?_, sameLinks_put fs _ (.file _ _ _) rfl ?_⟩
  · rw [node?_put, if_pos rfl]
  · intro m hm
    rw [h] at hm
    rw [← Option.some.inj hm]
    rfl

/-- A lookup finds its way exactly when every directory on the way lets it pass. -/
theorem searchError_eq_none (fs : FS) (ds : List GoString) :
    searchError fs ds = none ↔
      ∀ d ∈ ds, ∃ n, fs.node? d = some n ∧ n.passable = true := by
  induction ds with
  | nil => simp [searchError]
  | cons d rest ih =>
    unfold searchError
    cases hn : fs.node? d with
    | none => simp [hn]
    | some n =>
      cases n with
      | file t data a => simp [hn, Node.passable]
      | special k t => simp [hn, Node.passable]
      | symlink t target => simp [hn, Node.passable, ih]
      | dir t names a =>
        cases a with
        | false => simp [hn, Node.passable]
        | true => simp [hn, Node.passable, ih]

/-- Replacing an entry keeps the ways open when the new entry lets a lookup pass, or the
old one did not. -/
theorem passable_put (fs : FS) (k : GoString) (n : Node)
    (hk : n.passable = true ∨ ∀ m, fs.node? k = some m → m.passable = false)
    (d : GoString) (m : Node) (hd : fs.node? d = some m) (hm : m.passable = true) :
    ∃ m1, (fs.put k n).node? d = some m1 ∧ m1.passable = true := by
  rw [node?_put]
  by_cases hc : Clean k = Clean d
  · rw [if_pos hc]
    rcases hk with hk | hk
    · exact ⟨n, rfl, hk⟩
    · rw [← node?_congr fs k d hc] at hd
      rw [hk m hd] at hm
      cases hm
  · rw [if_neg hc]
    exact ⟨m, hd, hm⟩

/-- A call of `os.Create` that succeeds keeps the ways open. -/
theorem Create_passable (fs fs1 : FS) (path f : GoString) (h : Create fs path = .ok (fs1, f))
    (d : GoString) (m : Node) (hd : fs.node? d = some m) (hm : m.passable = true) :
    ∃ m1, fs1.node? d = some m1 ∧ m1.passable = true := by
  replace h := (Create_found fs fs1 path f h).2
  cases hr : resolve MAXSYMLINKS fs path with
  | error e => rw [hr] at h; cases h
  | ok p =>
    rw [hr] at h
    simp only at h
    cases hn : fs.node? p with
    | none =>
      rw [hn] at h
      simp only [FS.link] at h
      cases hp : parentDir fs p with
      | error e => rw [hp] at h; cases h
      | ok r =>
        obtain ⟨t, names⟩ := r
        rw [hp] at h
        simp only [Except.ok.injEq, Prod.mk.injEq] at h
        obtain ⟨h1, h2⟩ := h
        subst h1 h2
        have hne : Clean (Dir (Clean p)) ≠ Clean p := by
          intro hc
          unfold parentDir at hp
          rw [node?_congr fs _ _ hc, hn] at hp
          cases hp
        obtain ⟨m1, hd1, hm1⟩ := passable_put fs (Dir (Clean p))
          (.dir fs.now (if baseName p ∈ names then names else names ++ [baseName p]) true)
          (Or.inl rfl) d m hd hm
        refine passable_put _ p _ (Or.inr ?_) d m1 hd1 hm1
        intro m2 hm2
        rw [node?_put, if_neg hne, hn] at hm2
        cases hm2
    | some m0 =>
      rw [hn] at h
      cases m0 with
      | symlink t1 target => cases h
      | dir t ns a => cases h
      | special k t => cases h
      | file t data a =>
        cases a with
        | false => cases h
        | true =>
          simp only [Except.ok.injEq, Prod.mk.injEq] at h
          obtain ⟨h1, h2⟩ := h
          subst h1 h2
          refine passable_put fs p _ (Or.inr ?_) d m hd hm
          intro m2 hm2
          rw [hn] at hm2
          rw [← Option.some.inj hm2]
          rfl

/-- A file that was created and written can afterwards be found, opened and read, and holds
the text that was written. -/
theorem created_file_reads (fs fs1 : FS) (path f text : GoString)
    (h : Create fs path = .ok (fs1, f)) :
    (∃ i, Lstat (fs1.write f text) path = .ok i) ∧ Open (fs1.write f text) path = .ok f ∧
      readAll (fs1.write f text) f = .ok text := by
  obtain ⟨hr, hn, hl, _⟩ := Create_ok fs fs1 path f h
  obtain ⟨hw, hl2⟩ := write_file fs1 f text [] fs.now true hn
  have hl3 := sameLinks_trans hl hl2
  have hway : searchError (fs1.write f text) (dirsOnWay [] (Clean path)) = none := by
    have hs := (Create_found fs fs1 path f h).1
    rw [searchError_eq_none] at hs ⊢
    intro d hd
    obtain ⟨m, hm, hp⟩ := hs d hd
    obtain ⟨m1, hm1, hp1⟩ := Create_passable fs fs1 path f h d m hm hp
    unfold FS.write
    rw [hn]
    refine passable_put fs1 f _ (Or.inr ?_) d m1 hm1 hp1
    intro m2 hm2
    rw [hn] at hm2
    rw [← Option.some.inj hm2]
    rfl
  have hopen : Open (fs1.write f text) path = .ok f := by
    unfold Open
    rw [hway]
    simp only
    rw [resolve_congr MAXSYMLINKS fs _ hl3, hr]
    simp only [hw]
  have hread : readAll (fs1.write f text) f = .ok text := by
    unfold readAll
    rw [hw]
    rfl
  refine ⟨?_, hopen, hread⟩
  unfold Lstat
  rw [hway]
  simp only
  rcases resolve_ok_cases 39 fs path f hr with ⟨t, target, hs⟩ | hf
  · rw [(hl3 path t target).1 hs]
    exact ⟨_, rfl⟩
  · rw [← hf, hw]
    exact ⟨_, rfl⟩

/-! ## The second run -/

theorem ModMap.get?_eq_some_iff (m : ModMap) (hn : (m.map Prod.fst).Nodup) (k : GoString)
    (v : Int) : m.get? k = some v ↔ (k, v) ∈ m := by
  induction m with
  | nil => simp [ModMap.get?]
  | cons e rest ih =>
    obtain ⟨k0, v0⟩ := e
    rw [List.map_cons, List.nodup_cons] at hn
    rw [ModMap.get?]
    by_cases hk : k0 = k
    · subst hk
      rw [if_pos rfl]
      constructor
      · intro h
        rw [Option.some.inj h]
        exact List.mem_cons_self _ _
      · intro h
        rcases List.mem_cons.1 h with h | h
        · rw [(Prod.mk.inj h).2]
        · exact absurd (List.mem_map.2 ⟨(k0, v), h, rfl⟩) hn.1
    · rw [if_neg hk, ih hn.2]
      constructor
      · intro h
        exact List.mem_cons_of_mem _ h
      · intro h
        rcases List.mem_cons.1 h with h | h
        · exact absurd (Prod.mk.inj h).1.symm hk
        · exact h

/-- Two lists of the same entries, without a path twice, are the same mapping. -/
theorem ModMap.get?_perm (m w : ModMap) (hn : (m.map Prod.fst).Nodup) (hp : w.Perm m)
    (k : GoString) : w.get? k = m.get? k := by
  have hnw : (w.map Prod.fst).Nodup := (hp.map Prod.fst).nodup_iff.2 hn
  cases hm : m.get? k with
  | some v =>
    exact (ModMap.get?_eq_some_iff w hnw k v).2
      (hp.mem_iff.2 ((ModMap.get?_eq_some_iff m hn k v).1 hm))
  | none =>
    cases hw : w.get? k with
    | none => rfl
    | some v =>
      have := (ModMap.get?_eq_some_iff m hn k v).2
        (hp.mem_iff.1 ((ModMap.get?_eq_some_iff w hnw k v).1 hw))
      rw [hm] at this
      cases this

theorem ModMap.set_nodup (m : ModMap) (k : GoString) (v : Int)
    (h : (m.map Prod.fst).Nodup) : ((m.set k v).map Prod.fst).Nodup := by
  unfold ModMap.set
  rw [List.map_cons, List.nodup_cons]
  constructor
  · intro hk
    rw [List.mem_map] at hk
    obtain ⟨e, he, hek⟩ := hk
    rw [List.mem_filter] at he
    simpa [hek] using he.2
  · exact List.Nodup.sublist (List.Sublist.map _ (List.filter_sublist _)) h

namespace build

/-- The walker of package `build` never records a path twice. -/
theorem dfsModLoop_nodup (fs : FS) (srcs : List GoString) (bc : BuildCache)
    (h : (bc.newMod.map Prod.fst).Nodup) :
    ((dfsModLoop fs srcs bc).2.newMod.map Prod.fst).Nodup := by
  induction srcs generalizing bc with
  | nil => exact h
  | cons src rest ih =>
    unfold dfsModLoop
    split
    · exact h
    · split
      · split
        · exact h
        · split
          · exact h
          · exact ih _ (ModMap.set_nodup _ _ _ h)
      · split
        · exact h
        · exact ih _ (ModMap.set_nodup _ _ _ h)

/-- The walker records the same mapping on two filesystems on which its reads agree. -/
theorem dfsModLoop_congr (fs fs1 : FS) (srcs : List GoString) (bc bc1 : BuildCache)
    (hs : sameSources fs fs1 srcs) (hb : bc1.newMod = bc.newMod) :
    (dfsModLoop fs1 srcs bc1).2.newMod = (dfsModLoop fs srcs bc).2.newMod := by
  induction srcs generalizing bc bc1 with
  | nil => exact hb
  | cons src rest ih =>
    obtain ⟨h1, h2, h3, h4⟩ := hs src (List.mem_cons_self _ _)
    have hrest : sameSources fs fs1 rest := fun p hp => hs p (List.mem_cons_of_mem _ hp)
    simp only [dfsModLoop]
    rw [h1]
    cases hl : Lstat fs src with
    | error e => exact hb
    | ok info =>
      simp only
      by_cases hm : info.mode = .symlink
      · simp only [hm, if_true]
        rw [h2]
        cases hr : Readlink fs src with
        | error e => exact hb
        | ok orig =>
          simp only
          rw [h4 orig hr]
          cases hst : Stat fs orig with
          | error e => exact hb
          | ok f => exact ih _ _ hrest (by simp only [hb])
      · simp only [hm, if_false]
        rw [h3]
        cases hst : Stat fs src with
        | error e => exact hb
        | ok f => exact ih _ _ hrest (by simp only [hb])

theorem modFiles_congr (bc bc1 : BuildCache) (h : bc1.pkgs = bc.pkgs) :
    bc1.modFiles = bc.modFiles := by
  unfold BuildCache.modFiles
  rw [h]
  rfl

theorem foldl_apply_keeps (opts : List cacheOption) (b : BuildCache) :
    (opts.foldl (fun bc o => o.apply bc) b).newMod = b.newMod ∧
    (opts.foldl (fun bc o => o.apply bc) b).isCacheNeedsRefresh = b.isCacheNeedsRefresh ∧
    (opts.foldl (fun bc o => o.apply bc) b).cacheDigestFile = b.cacheDigestFile := by
  induction opts generalizing b with
  | nil => exact ⟨rfl, rfl, rfl⟩
  | cons o rest ih =>
    rw [List.foldl_cons]
    obtain ⟨h1, h2, h3⟩ := ih (o.apply b)
    rw [h1, h2, h3]
    cases o <;> exact ⟨rfl, rfl, rfl⟩

theorem foldl_apply_pkgs (opts : List cacheOption) (b b1 : BuildCache) (h : b1.pkgs = b.pkgs) :
    (opts.foldl (fun bc o => o.apply bc) b1).pkgs =
      (opts.foldl (fun bc o => o.apply bc) b).pkgs := by
  induction opts generalizing b b1 with
  | nil => exact h
  | cons o rest ih =>
    rw [List.foldl_cons, List.foldl_cons]
    apply ih
    cases o with
    | WithSkip p => exact h
    | WithPackage pkgs => simp only [cacheOption.apply, h]

/-- The fields of a controller that `NewBuildCache` returns: the new mapping is empty, and
the digest path and the packages are those of the arguments. -/
theorem NewBuildCache_ok (env : Env) (fs : FS) (base : GoString) (opts : List cacheOption)
    (bc : BuildCache) (h : NewBuildCache env fs base opts = .ok bc) :
    bc.newMod = [] ∧ bc.cacheDigestFile = cacheDigestFileFor env base ∧
      ∀ fs1 bc1, NewBuildCache env fs1 base opts = .ok bc1 → bc1.pkgs = bc.pkgs := by
  have shape : ∀ (fs0 : FS) (b0 : BuildCache), NewBuildCache env fs0 base opts = .ok b0 →
      ∃ start : BuildCache, start.newMod = [] ∧
        start.cacheDigestFile = cacheDigestFileFor env base ∧ start.pkgs = [] ∧
        b0 = { opts.foldl (fun bc o => o.apply bc) start with
          skipPattern := (opts.foldl (fun bc o => o.apply bc) start).cacheDir ::
            (opts.foldl (fun bc o => o.apply bc) start).skipPattern } := by
    intro fs0 b0 h0
    unfold NewBuildCache at h0
    by_cases hbase : base = []
    · rw [if_pos hbase] at h0
      cases h0
    · rw [if_neg hbase] at h0
      simp only at h0
      cases hl : Lstat fs0 (cacheDigestFileFor env base) with
      | error err =>
        rw [hl] at h0
        simp only at h0
        by_cases hne : IsNotExist err = true
        · rw [if_pos hne] at h0
          exact ⟨_, rfl, rfl, rfl, (Except.ok.inj h0).symm⟩
        · rw [if_neg hne] at h0
          cases h0
      | ok info =>
        rw [hl] at h0
        simp only at h0
        cases ho : Open fs0 (cacheDigestFileFor env base) with
        | error err => rw [ho] at h0; cases h0
        | ok f =>
          rw [ho] at h0
          simp only at h0
          cases hd : loadDigest (scannerInput fs0 f) with
          | error err => rw [hd] at h0; cases h0
          | ok m =>
            rw [hd] at h0
            exact ⟨_, rfl, rfl, rfl, (Except.ok.inj h0).symm⟩
  obtain ⟨start, hs1, hs2, hs3, hbc⟩ := shape fs bc h
  obtain ⟨k1, _, k3⟩ := foldl_apply_keeps opts start
  refine ⟨?_, ?_, ?_⟩
  · rw [hbc]
    exact k1.trans hs1
  · rw [hbc]
    exact k3.trans hs2
  · intro fs1 bc1 h1
    obtain ⟨start1, _, _, ht3, hbc1⟩ := shape fs1 bc1 h1
    rw [hbc, hbc1]
    exact foldl_apply_pkgs opts start start1 (ht3.trans hs3.symm)

/-- When the digest file exists, can be opened and loads, the controller that
`NewBuildCache` returns has the loaded mapping and its flag is false. -/
theorem NewBuildCache_loaded (env : Env) (fs : FS) (base f : GoString)
    (opts : List cacheOption) (info : FileInfo) (m : ModMap) (hbase : base ≠ [])
    (hstat : Lstat fs (cacheDigestFileFor env base) = .ok info)
    (hopen : Open fs (cacheDigestFileFor env base) = .ok f)
    (hm : loadDigest (scannerInput fs f) = .ok m) :
    ∃ bc, NewBuildCache env fs base opts = .ok bc ∧ bc.oldMod = m ∧
      bc.isCacheNeedsRefresh = false := by
  simp only [NewBuildCache, hbase, if_false, hstat, hopen, hm]
  exact ⟨_, rfl, foldl_apply_oldMod opts _, (foldl_apply_keeps opts _).2.1⟩

theorem Cache_of_flag (bc : BuildCache) (fs : FS)
    (h : (bc.dfsMod fs).2.isCacheNeedsRefresh = true) :
    bc.Cache fs = (bc.dfsMod fs).2.refresh fs := by
  unfold BuildCache.Cache
  simp only [h, Bool.not_true, Bool.false_eq_true, if_false]

theorem Cache_of_equal (bc : BuildCache) (fs : FS)
    (hf : (bc.dfsMod fs).2.isCacheNeedsRefresh = false)
    (heq : DeepEqual (bc.dfsMod fs).2.newMod (bc.dfsMod fs).2.oldMod = true) :
    bc.Cache fs = (.nil, { (bc.dfsMod fs).2 with isCacheNeedsRefresh := false }, fs) := by
  unfold BuildCache.Cache
  simp only [hf, heq, Bool.not_false, if_true]

/-- A refresh that returns nil has written the text of the new mapping to the digest file
it created. -/
theorem refresh_nil (bc : BuildCache) (fs : FS) (h : (bc.refresh fs).1 = .nil) :
    ∃ fs3 fs4 f, Create fs3 bc.cacheDigestFile = .ok (fs4, f) ∧
      (bc.refresh fs).2.2 = fs4.write f (digestText bc.newMod) := by
  unfold BuildCache.refresh at h ⊢
  simp only at h ⊢
  revert h
  cases RemoveAll fs bc.GetCacheDir with
  | error err => intro h; cases h
  | ok fs1 =>
    simp only
    generalize (match MkdirAll fs1 bc.GetCacheDir with | .ok fs2 => fs2 | .error _ => fs1) = fs2
    cases bc.dfsCopy fs2 with
    | mk o fs3 =>
      have key : (bc.saveCache fs3).1 = .nil →
          ∃ fs5 fs4 f, Create fs5 bc.cacheDigestFile = .ok (fs4, f) ∧
            (bc.saveCache fs3).2 = fs4.write f (digestText bc.newMod) := by
        intro hs
        cases hcr : Create fs3 bc.cacheDigestFile with
        | error err => simp [BuildCache.saveCache, hcr] at hs
        | ok r =>
          obtain ⟨fs4, f⟩ := r
          refine ⟨fs3, fs4, f, hcr, ?_⟩
          simp only [BuildCache.saveCache, hcr]
      cases o with
      | fatal => intro h; cases h
      | panic => intro h; cases h
      | nil => intro h; exact key h
      | error e => intro h; exact key h
      | diverge => intro h; exact key h


theorem dfsModLoop_cons (fs : FS) (src : GoString) (rest : List GoString) (bc : BuildCache) :
    dfsModLoop fs (src :: rest) bc =
      match modTimeOf fs src with
      | .error err => (some err, bc)
      | .ok t => dfsModLoop fs rest { bc with newMod := bc.newMod.set src t } := by
  simp only [dfsModLoop, modTimeOf]
  cases Lstat fs src with
  | error e => rfl
  | ok info =>
    simp only
    by_cases hm : info.mode = .symlink
    · simp only [hm, if_true]
      cases Readlink fs src with
      | error e => rfl
      | ok orig =>
        simp only
        cases Stat fs orig with
        | error e => rfl
        | ok f => rfl
    · simp only [hm, if_false]
      cases Stat fs src with
      | error e => rfl
      | ok f => rfl

/-- A walk that ends without error has read the time of every file. -/
theorem dfsModLoop_times (fs : FS) (srcs : List GoString) (bc : BuildCache)
    (h : (dfsModLoop fs srcs bc).1 = none) : ∀ s ∈ srcs, ∃ t, modTimeOf fs s = .ok t := by
  induction srcs generalizing bc with
  | nil => intro s hs; cases hs
  | cons src rest ih =>
    rw [dfsModLoop_cons] at h
    cases ht : modTimeOf fs src with
    | error e => rw [ht] at h; cases h
    | ok t =>
      rw [ht] at h
      intro s hs
      rcases List.mem_cons.1 hs with hs | hs
      · subst hs
        exact ⟨t, ht⟩
      · exact ih _ h s hs

/-- When the time of every file can be read, the walk ends without error and has recorded
for each file its time, in whatever order the files come. -/
theorem dfsModLoop_of_times (fs : FS) (srcs : List GoString) (bc : BuildCache)
    (h : ∀ s ∈ srcs, ∃ t, modTimeOf fs s = .ok t) :
    (dfsModLoop fs srcs bc).1 = none ∧
    ∀ k ∈ srcs, ∃ t, modTimeOf fs k = .ok t ∧
      (dfsModLoop fs srcs bc).2.newMod.get? k = some t := by
  induction srcs generalizing bc with
  | nil => exact ⟨rfl, fun k hk => by cases hk⟩
  | cons src rest ih =>
    obtain ⟨t, ht⟩ := h src (List.mem_cons_self _ _)
    rw [dfsModLoop_cons, ht]
    simp only
    obtain ⟨h1, h2⟩ := ih { bc with newMod := bc.newMod.set src t }
      (fun s hs => h s (List.mem_cons_of_mem _ hs))
    refine ⟨h1, ?_⟩
    intro k hk
    by_cases hr : k ∈ rest
    · exact h2 k hr
    · have hks : k = src := by
        rcases List.mem_cons.1 hk with hh | hh
        · exact hh
        · exact absurd hh hr
      subst hks
      refine ⟨t, ht, ?_⟩
      rw [dfsModLoop_get?_of_not_mem fs rest _ k hr]
      exact ModMap.get?_set_self _ _ _

/-- The time of a file is the same on two filesystems on which the reads of the walker
agree. -/
theorem modTimeOf_congr (fs fs1 : FS) (files : List GoString) (hs : sameSources fs fs1 files)
    (p : GoString) (hp : p ∈ files) : modTimeOf fs1 p = modTimeOf fs p := by
  obtain ⟨h1, h2, h3, h4⟩ := hs p hp
  unfold modTimeOf
  rw [h1, h2, h3]
  cases Lstat fs p with
  | error e => rfl
  | ok info =>
    simp only
    by_cases hm : info.mode = .symlink
    · simp only [hm, if_true]
      cases hr : Readlink fs p with
      | error e => rfl
      | ok orig =>
        simp only
        rw [h4 orig hr]
    · simp only [hm, if_false]

theorem foldl_apply_pkgs_perm (opts opts2 : List cacheOption)
    (h : List.Forall₂ cacheOption.sameUpToOrder opts opts2) (b b1 : BuildCache)
    (hb : b1.pkgs.Perm b.pkgs) :
    (opts2.foldl (fun bc o => o.apply bc) b1).pkgs.Perm
      (opts.foldl (fun bc o => o.apply bc) b).pkgs := by
  induction h generalizing b b1 with
  | nil => exact hb
  | @cons o o2 rest rest2 ho _ ih =>
    rw [List.foldl_cons, List.foldl_cons]
    apply ih
    cases o with
    | WithSkip p =>
      cases o2 with
      | WithSkip q => exact hb
      | WithPackage l => exact absurd ho (by simp [cacheOption.sameUpToOrder])
    | WithPackage l =>
      cases o2 with
      | WithSkip q => exact absurd ho (by simp [cacheOption.sameUpToOrder])
      | WithPackage l2 =>
        have hl : l.Perm l2 := ho
        exact List.Perm.append hb hl.symm

/-- The packages of a controller that `NewBuildCache` returns are those that the options
append to an empty list. -/
theorem NewBuildCache_pkgs (env : Env) (fs : FS) (base : GoString) (opts : List cacheOption)
    (bc : BuildCache) (h : NewBuildCache env fs base opts = .ok bc) :
    ∃ start : BuildCache, start.pkgs = [] ∧
      bc.pkgs = (opts.foldl (fun bc o => o.apply bc) start).pkgs := by
  unfold NewBuildCache at h
  by_cases hbase : base = []
  · rw [if_pos hbase] at h
    cases h
  · rw [if_neg hbase] at h
    simp only at h
    cases hl : Lstat fs (cacheDigestFileFor env base) with
    | error err =>
      rw [hl] at h
      simp only at h
      by_cases hne : IsNotExist err = true
      · rw [if_pos hne] at h
        rw [← Except.ok.inj h]
        exact ⟨_, rfl, rfl⟩
      · rw [if_neg hne] at h
        cases h
    | ok info =>
      rw [hl] at h
      simp only at h
      cases ho : Open fs (cacheDigestFileFor env base) with
      | error err => rw [ho] at h; cases h
      | ok f =>
        rw [ho] at h
        simp only at h
        cases hd : loadDigest (scannerInput fs f) with
        | error err => rw [hd] at h; cases h
        | ok m =>
          rw [hd] at h
          rw [← Except.ok.inj h]
          exact ⟨_, rfl, rfl⟩

/-- Two controllers built with options that differ at most in the order of the packages
walk the same files. -/
theorem modFiles_mem_of_sameUpToOrder (env : Env) (fs fs1 : FS) (base : GoString)
    (opts opts2 : List cacheOption) (bc bc2 : BuildCache)
    (horder : List.Forall₂ cacheOption.sameUpToOrder opts opts2)
    (h : NewBuildCache env fs base opts = .ok bc)
    (h2 : NewBuildCache env fs1 base opts2 = .ok bc2) (p : GoString) :
    p ∈ bc2.modFiles ↔ p ∈ bc.modFiles := by
  obtain ⟨s, hs, hp⟩ := NewBuildCache_pkgs env fs base opts bc h
  obtain ⟨s2, hs2, hp2⟩ := NewBuildCache_pkgs env fs1 base opts2 bc2 h2
  have hperm : bc2.pkgs.Perm bc.pkgs := by
    rw [hp, hp2]
    apply foldl_apply_pkgs_perm opts opts2 horder
    rw [hs, hs2]
  unfold BuildCache.modFiles
  simp only [List.mem_flatten, List.mem_map]
  constructor
  · rintro ⟨l, ⟨pkg, hpkg, rfl⟩, hl⟩
    exact ⟨_, ⟨pkg, hperm.mem_iff.1 hpkg, rfl⟩, hl⟩
  · rintro ⟨l, ⟨pkg, hpkg, rfl⟩, hl⟩
    exact ⟨_, ⟨pkg, hperm.mem_iff.2 hpkg, rfl⟩, hl⟩

end build

/-! ## Two runs in a row -/

/-- C4 as written fails in three ways. On the project `/p` whose storage directory holds a
directory `pkg` that is not empty and cannot be changed, with no digest file, the
controller is built and `Cache` returns the error of `os.RemoveAll` with `NeedRefresh`
true and the filesystem as it was; the second controller, built on that filesystem, does
the same: its `Cache` returns an error again and `NeedRefresh` is true, not false. On the
project `/my p`, with a space in the name of its directory and no digest file, the first
`Cache` returns nil with `NeedRefresh` true and writes the digest line `/my p/a.go 100`,
the sources are untouched, and the second `NewBuildCache` returns the error
`digest file bad format` and no controller. On the project `/p` with a package that lists
the missing file `gone.go` and a package with `a.go`, the first run visits the package with
the missing file first: the walk stops at once, its error is dropped, and `Cache` returns
nil after writing an empty digest; the second run visits the packages in the other order,
records `a.go` before the walk stops, finds the mapping different from the digest, and
reports `NeedRefresh` true and writes the digest again, with no source changed. -/
theorem C4_second_run_not_always_quiet :
    (∃ bc, build.NewBuildCache exEnv stuckFS "/p".toList [.WithPackage [onePkg]] = .ok bc ∧
      stuckFS.node? "/p/.gococo/digest.modtime".toList = none ∧
      (∃ err, (bc.Cache stuckFS).1 = .error err) ∧
      (bc.Cache stuckFS).2.1.NeedRefresh = true ∧
      (bc.Cache stuckFS).2.2 = stuckFS ∧
      ∃ bc2, build.NewBuildCache exEnv (bc.Cache stuckFS).2.2 "/p".toList
          [.WithPackage [onePkg]] = .ok bc2 ∧
        (∃ err, (bc2.Cache (bc.Cache stuckFS).2.2).1 = .error err) ∧
        (bc2.Cache (bc.Cache stuckFS).2.2).2.1.NeedRefresh = true) ∧
    (∃ bc, build.NewBuildCache exEnv spaceFS "/my p".toList [.WithPackage [spacePkg]] = .ok bc ∧
      spaceFS.node? "/my p/.gococo/digest.modtime".toList = none ∧
      (bc.Cache spaceFS).1 = .nil ∧ (bc.Cache spaceFS).2.1.NeedRefresh = true ∧
      (bc.Cache spaceFS).2.2.node? "/my p/.gococo/digest.modtime".toList =
        some (.file 7 "/my p/a.go 100\n".toList true) ∧
      (bc.Cache spaceFS).2.2.node? "/my p/a.go".toList = spaceFS.node? "/my p/a.go".toList ∧
      build.NewBuildCache exEnv (bc.Cache spaceFS).2.2 "/my p".toList
        [.WithPackage [spacePkg]] = .error (.text "digest file bad format")) ∧
    (∃ bc, build.NewBuildCache exEnv exFS "/p".toList
        [.WithPackage [missingPkg, onePkg]] = .ok bc ∧
      exFS.node? "/p/.gococo/digest.modtime".toList = none ∧
      (bc.dfsMod exFS).1 = some (.sys .ENOENT "/p/gone.go".toList) ∧
      (bc.Cache exFS).1 = .nil ∧ (bc.Cache exFS).2.1.NeedRefresh = true ∧
      (bc.Cache exFS).2.2.node? "/p/.gococo/digest.modtime".toList =
        some (.file 7 [] true) ∧
      (bc.Cache exFS).2.2.node? "/p/a.go".toList = exFS.node? "/p/a.go".toList ∧
      (bc.Cache exFS).2.2.node? "/p/gone.go".toList = none ∧
      ∃ bc2, build.NewBuildCache exEnv (bc.Cache exFS).2.2 "/p".toList
          [.WithPackage [onePkg, missingPkg]] = .ok bc2 ∧
        (bc2.Cache (bc.Cache exFS).2.2).1 = .nil ∧
        (bc2.Cache (bc.Cache exFS).2.2).2.1.NeedRefresh = true ∧
        (bc2.Cache (bc.Cache exFS).2.2).2.2.node? "/p/.gococo/digest.modtime".toList =
          some (.file 7 "/p/a.go 100\n".toList true)) := by
  refine ⟨⟨_, rfl, ?_, ⟨_, rfl⟩, ?_, ?_, _, rfl, ⟨_, rfl⟩, ?_⟩, ⟨_, rfl, ?_, ?_, ?_, ?_, ?_, ?_⟩,
    ⟨_, rfl, ?_, ?_, ?_, ?_, ?_, ?_, ?_, _, rfl, ?_, ?_, ?_⟩⟩
  · decide
  · decide
  · decide
  · decide
  · decide
  · decide
  · decide
  · decide
  · decide
  · rfl
  · decide
  · decide
  · decide
  · decide
  · decide
  · decide
  · decide
  · decide
  · decide
  · decide

/-- C4, amended, for package `build`. The first run starts where `os.Lstat` of the digest
file fails and `NewBuildCache` returns a controller; its walk ends without error, its
`Cache` returns nil, and every entry it recorded fits a line of the digest (a path that is
not empty and has no white space, a line shorter than the buffer of the scanner). Then
`NeedRefresh` is true after that `Cache`, and the filesystem it leaves holds a digest file
that can be found, opened and read and has one line for each entry of the new mapping.
The second run then goes quiet, whatever the order in which `WithPackage` and `saveCache`
have visited their maps: on every filesystem whose digest file reads as the lines of that
mapping in some order, and on which the reads of the walker give what they gave to the
first run (no source change), `NewBuildCache`, with options that differ from the first
ones at most in the order of the packages, returns a controller whose `Cache` returns nil,
reports `NeedRefresh` false and leaves the filesystem, the storage directory included, as
it was. -/
theorem C4_second_run_is_quiet (env : Env) (fs : FS) (base : GoString)
    (opts : List build.cacheOption) (bc : build.BuildCache) (err : GoError)
    (hnew : build.NewBuildCache env fs base opts = .ok bc)
    (hcold : Lstat fs (cacheDigestFileFor env base) = .error err)
    (hwalk : (bc.dfsMod fs).1 = none)
    (hrun : (bc.Cache fs).1 = .nil)
    (hplain : (bc.Cache fs).2.1.newMod.plain) :
    (bc.Cache fs).2.1.NeedRefresh = true ∧
    (∃ info f, Lstat (bc.Cache fs).2.2 (cacheDigestFileFor env base) = .ok info ∧
      Open (bc.Cache fs).2.2 (cacheDigestFileFor env base) = .ok f ∧
      readAll (bc.Cache fs).2.2 f = .ok (digestText (bc.Cache fs).2.1.newMod)) ∧
    ∀ (fsB : FS) (opts2 : List build.cacheOption) (info : FileInfo) (f : GoString)
      (written : ModMap),
      List.Forall₂ build.cacheOption.sameUpToOrder opts opts2 →
      written.Perm (bc.Cache fs).2.1.newMod →
      Lstat fsB (cacheDigestFileFor env base) = .ok info →
      Open fsB (cacheDigestFileFor env base) = .ok f →
      readAll fsB f = .ok (digestText written) →
      build.sameSources fs fsB bc.modFiles →
      ∃ bc2, build.NewBuildCache env fsB base opts2 = .ok bc2 ∧
        (bc2.Cache fsB).1 = .nil ∧
        (bc2.Cache fsB).2.1.NeedRefresh = false ∧
        (bc2.Cache fsB).2.2 = fsB := by
  have hbase : base ≠ [] := by
    intro hb
    simp [build.NewBuildCache, hb] at hnew
  have hflagA := build.NewBuildCache_flag_of_error env fs base opts err bc hcold hnew
  obtain ⟨hnm, hdig, _⟩ := build.NewBuildCache_ok env fs base opts bc hnew
  obtain ⟨_, hsb2, _, _, hsb5, _, _⟩ := build.dfsMod_sameBut bc fs
  have hflag : (bc.dfsMod fs).2.isCacheNeedsRefresh = true := hsb2.trans hflagA
  have hC : bc.Cache fs = (bc.dfsMod fs).2.refresh fs := build.Cache_of_flag bc fs hflag
  have hstate : (bc.Cache fs).2.1 = (bc.dfsMod fs).2 := by
    rw [hC]
    exact build.refresh_state _ _
  rw [hstate] at hplain
  rw [hstate]
  refine ⟨hflag, ?_, ?_⟩
  · rw [hC] at hrun
    obtain ⟨fs3, fs4, f, hcr, hfs1⟩ := build.refresh_nil _ fs hrun
    rw [← hC] at hfs1
    rw [hsb5, hdig] at hcr
    obtain ⟨⟨info, hstat⟩, hopen, hread⟩ :=
      created_file_reads fs3 fs4 _ f (digestText (bc.dfsMod fs).2.newMod) hcr
    rw [← hfs1] at hstat hopen hread
    exact ⟨info, f, hstat, hopen, hread⟩
  · intro fsB opts2 info f written horder hperm hstat hopen hread hsame
    have hkeys : ((bc.dfsMod fs).2.newMod.map Prod.fst).Nodup :=
      build.dfsModLoop_nodup fs bc.modFiles bc (by rw [hnm]; exact List.nodup_nil)
    have htidy : written.tidy :=
      ⟨(hperm.map Prod.fst).nodup_iff.2 hkeys, fun e he => hplain e (hperm.mem_iff.1 he)⟩
    obtain ⟨m1, hload, hget⟩ := loadDigest_digestText written htidy
    have hget1 : ∀ k, m1.get? k = (bc.dfsMod fs).2.newMod.get? k := fun k =>
      (hget k).trans (ModMap.get?_perm _ written hkeys hperm k)
    have hinput : scannerInput fsB f = digestText written := by
      unfold scannerInput
      rw [hread]
    rw [← hinput] at hload
    obtain ⟨bc2, h2, hold2, hflag2⟩ :=
      build.NewBuildCache_loaded env fsB base f opts2 info m1 hbase hstat hopen hload
    obtain ⟨hnm2, _, _⟩ := build.NewBuildCache_ok env fsB base opts2 bc2 h2
    have hmem : ∀ p, p ∈ bc2.modFiles ↔ p ∈ bc.modFiles :=
      build.modFiles_mem_of_sameUpToOrder env fs fsB base opts opts2 bc bc2 horder hnew h2
    have htimes : ∀ s ∈ bc.modFiles, ∃ t, build.modTimeOf fs s = .ok t :=
      build.dfsModLoop_times fs bc.modFiles bc hwalk
    have htimes2 : ∀ s ∈ bc2.modFiles, ∃ t, build.modTimeOf fsB s = .ok t := by
      intro p hp
      rw [build.modTimeOf_congr fs fsB bc.modFiles hsame p ((hmem p).1 hp)]
      exact htimes p ((hmem p).1 hp)
    obtain ⟨_, hrec⟩ := build.dfsModLoop_of_times fs bc.modFiles bc htimes
    obtain ⟨_, hrec2⟩ := build.dfsModLoop_of_times fsB bc2.modFiles bc2 htimes2
    obtain ⟨hs1, hs2, _, _, _, _, _⟩ := build.dfsMod_sameBut bc2 fsB
    have hmod : ∀ k, (bc2.dfsMod fsB).2.newMod.get? k = (bc.dfsMod fs).2.newMod.get? k := by
      intro k
      unfold build.BuildCache.dfsMod
      by_cases hk : k ∈ bc.modFiles
      · obtain ⟨t, ht, hv⟩ := hrec k hk
        obtain ⟨t2, ht2, hv2⟩ := hrec2 k ((hmem k).2 hk)
        rw [build.modTimeOf_congr fs fsB bc.modFiles hsame k hk, ht] at ht2
        rw [hv, hv2, ← Except.ok.inj ht2]
      · rw [build.dfsModLoop_get?_of_not_mem fs bc.modFiles bc k hk,
          build.dfsModLoop_get?_of_not_mem fsB bc2.modFiles bc2 k (fun h => hk ((hmem k).1 h)),
          hnm, hnm2]
    have heq : DeepEqual (bc2.dfsMod fsB).2.newMod (bc2.dfsMod fsB).2.oldMod = true := by
      rw [DeepEqual_iff, hs1, hold2]
      intro k
      rw [hmod k, hget1 k]
    have hf2 : (bc2.dfsMod fsB).2.isCacheNeedsRefresh = false := hs2.trans hflag2
    refine ⟨bc2, h2, ?_⟩
    rw [build.Cache_of_equal bc2 _ hf2 heq]
    exact ⟨rfl, rfl, rfl⟩

/-- C4 at the project `/p` with a package for the file `a.go` and a package for the link
`l`: the first run copies the files and writes the digest, and the second run, which
visits the packages in the other order, finds nothing to do. -/
theorem C4_second_run_is_quiet_witness :
    ∃ bc, build.NewBuildCache exEnv exFS "/p".toList [.WithPackage [onePkg, linkPkg]] = .ok bc ∧
      (bc.Cache exFS).1 = .nil ∧
      (bc.Cache exFS).2.1.NeedRefresh = true ∧
      ∃ bc2, build.NewBuildCache exEnv (bc.Cache exFS).2.2 "/p".toList
          [.WithPackage [linkPkg, onePkg]] = .ok bc2 ∧
        (bc2.Cache (bc.Cache exFS).2.2).1 = .nil ∧
        (bc2.Cache (bc.Cache exFS).2.2).2.1.NeedRefresh = false ∧
        (bc2.Cache (bc.Cache exFS).2.2).2.2 = (bc.Cache exFS).2.2 :=
  ⟨_, rfl, by decide,
    (C4_second_run_is_quiet exEnv exFS "/p".toList [.WithPackage [onePkg, linkPkg]] _
      (.sys .ENOENT "/p/.gococo/digest.modtime".toList) rfl rfl (by decide) (by decide)
      (by decide)).1,
    (C4_second_run_is_quiet exEnv exFS "/p".toList [.WithPackage [onePkg, linkPkg]] _
      (.sys .ENOENT "/p/.gococo/digest.modtime".toList) rfl rfl (by decide) (by decide)
      (by decide)).2.2 _ [.WithPackage [linkPkg, onePkg]] ⟨.regular, 7⟩
      "/p/.gococo/digest.modtime".toList [("/p/l".toList, 77), ("/p/a.go".toList, 100)]
      (List.Forall₂.cons (List.Perm.swap _ _ _) List.Forall₂.nil) (List.Perm.refl _)
      rfl rfl rfl (by
        intro p hp
        have hp2 : p = "/p/a.go".toList ∨ p = "/p/l".toList := by
          have hp3 : p ∈ ["/p/a.go".toList, "/p/l".toList] := hp
          simpa using hp3
        rcases hp2 with h | h
        · subst h
          refine ⟨rfl, rfl, rfl, ?_⟩
          intro orig ho
          cases ho
        · subst h
          refine ⟨rfl, rfl, rfl, ?_⟩
          intro orig ho
          cases ho
          rfl)⟩

/-! ## The rewritten directive -/

/-- C11 holds on the example of the specification and fails where another directive has
the same old path. With the staged root `/tmp/stage`, `replace example.com/foo => ../foo`
becomes `replace example.com/foo => /tmp/foo` and the flag is true. On a `go.mod` with
`replace example.com/a v1.0.0 => ../y` and `replace example.com/a => ../x`, staged in
`/p/.gococo/cache`, both directives are rewritten. The first becomes
`replace example.com/a v1.0.0 => /p/.gococo/y`; the rewriting of the second then calls
`AddReplace` with an empty old version, which gives its target to that directive. The
result holds one directive, written `replace example.com/a => /p/.gococo/x`: no directive
of the result has the new path `/p/.gococo/y` of the first rewritten directive. -/
theorem C11_rewritten_directive_is_overwritten :
    stageBuild.updateGoModFile "/wd".toList fooFile =
      some ⟨⟨"/tmp/stage".toList, true⟩,
        ⟨[⟨⟨"example.com/foo".toList, []⟩, ⟨"/tmp/foo".toList, []⟩,
          some ["replace".toList, "example.com/foo".toList, "=>".toList,
            "/tmp/foo".toList]⟩]⟩, true⟩ ∧
    versionedLocal.New.Version = [] ∧ IsAbs versionedLocal.New.Path = false ∧
    build.Abs "/wd".toList (Join exBuild.CacheProjectDir versionedLocal.New.Path) =
      "/p/.gococo/y".toList ∧
    build.updateLoop exBuild "/wd".toList 1 0 twoLocalFile false =
      some (⟨[modfile.Replace.zero, generalLocal,
        ⟨⟨"example.com/a".toList, "v1.0.0".toList⟩, ⟨"/p/.gococo/y".toList, []⟩,
          some ["replace".toList, "example.com/a".toList, "v1.0.0".toList, "=>".toList,
            "/p/.gococo/y".toList]⟩]⟩, true) ∧
    exBuild.updateGoModFile "/wd".toList twoLocalFile =
      some ⟨⟨"/p/.gococo/cache".toList, true⟩,
        ⟨[⟨⟨"example.com/a".toList, "v1.0.0".toList⟩, ⟨"/p/.gococo/x".toList, []⟩,
          some ["replace".toList, "example.com/a".toList, "=>".toList,
            "/p/.gococo/x".toList]⟩]⟩, true⟩ ∧
    ∀ r, exBuild.updateGoModFile "/wd".toList twoLocalFile = some r →
      ¬ ∃ d ∈ r.file.Replace, d.New.Path = "/p/.gococo/y".toList := by
  have h : exBuild.updateGoModFile "/wd".toList twoLocalFile =
      some ⟨⟨"/p/.gococo/cache".toList, true⟩,
        ⟨[⟨⟨"example.com/a".toList, "v1.0.0".toList⟩, ⟨"/p/.gococo/x".toList, []⟩,
          some ["replace".toList, "example.com/a".toList, "=>".toList,
            "/p/.gococo/x".toList]⟩]⟩, true⟩ := by decide
  refine ⟨by decide, by decide, by decide, by decide, by decide, h, ?_⟩
  intro r hr
  rw [h] at hr
  cases hr
  decide

/-! ## The example of the documentation of `updateGoModFile` -/

/-- C12 fails on the example of the documentation of `updateGoModFile`. The project is in
`/path/to/aa/bb/cc` and its `go.mod` has `replace github.com/qiniu/bar => ../home/foo/bar`.
The run of `buildAction` ends normally, the staged copy is `/path/to/aa/bb/cc/.gococo/cache`,
and the staged `go.mod` is overwritten with the directive
`replace github.com/qiniu/bar => /path/to/aa/bb/cc/.gococo/home/foo/bar`: the relative
path is resolved from the staged copy, not from the directory of the project, from which
it names `/path/to/aa/bb/home/foo/bar`. -/
theorem C12_target_resolved_from_staged_copy :
    docRun.outcome = .nil ∧
    docRun.b = ⟨"/path/to/aa/bb/cc/.gococo/cache".toList, true⟩ ∧
    (⟨"/path/to/aa/bb/cc/.gococo/cache".toList, false⟩ : build.Build).updateGoModFile
        "/wd".toList docFile =
      some ⟨⟨"/path/to/aa/bb/cc/.gococo/cache".toList, true⟩,
        ⟨[⟨⟨"github.com/qiniu/bar".toList, []⟩,
          ⟨"/path/to/aa/bb/cc/.gococo/home/foo/bar".toList, []⟩,
          some ["replace".toList, "github.com/qiniu/bar".toList, "=>".toList,
            "/path/to/aa/bb/cc/.gococo/home/foo/bar".toList]⟩]⟩, true⟩ ∧
    docRun.fs.node? "/path/to/aa/bb/cc/.gococo/cache/go.mod".toList =
      some (.file 7
        "replace github.com/qiniu/bar => /path/to/aa/bb/cc/.gococo/home/foo/bar\n".toList
        true) ∧
    Join "/path/to/aa/bb/cc".toList "../home/foo/bar".toList =
      "/path/to/aa/bb/home/foo/bar".toList ∧
    "/path/to/aa/bb/cc/.gococo/home/foo/bar".toList ≠ "/path/to/aa/bb/home/foo/bar".toList := by
  refine ⟨?_, ?_, ?_, ?_, ?_, ?_⟩ <;> decide

/-! ## The build lock and the rewriting of the staged `go.mod` -/

namespace build

/-- The steps that `copyProjectToTmp` can take. -/
theorem copyProjectToTmp_events (b : Build) (env : Env) (fs : FS) (curProjectDir : GoString)
    (pkgs : List Package) (lockOk : Bool) :
    ((b.copyProjectToTmp env fs curProjectDir pkgs lockOk).outcome = .nil ∧
      (b.copyProjectToTmp env fs curProjectDir pkgs lockOk).events = [.lock, .cache, .unlock]) ∨
    ((b.copyProjectToTmp env fs curProjectDir pkgs lockOk).outcome ≠ .nil ∧
      (b.copyProjectToTmp env fs curProjectDir pkgs lockOk).events ∈
        [[], [.lock, .cache], [.lock, .cache, .unlock]]) := by
  unfold Build.copyProjectToTmp
  cases NewBuildCache env fs curProjectDir [.WithPackage pkgs] with
  | error e => right; simp
  | ok bc =>
    cases lockOk with
    | false => right; simp
    | true =>
      simp only [Bool.true_eq_false, if_false]
      cases hc : bc.Cache fs with
      | mk o rest =>
        obtain ⟨bc1, fs1⟩ := rest
        cases o with
        | nil => left; simp
        | panic => right; simp
        | error e => right; simp
        | fatal => right; simp
        | diverge => right; simp

/-- The steps that `Build` can take. -/
theorem Build_events (b : Build) (wd : GoString) (fs : FS)
    (parse : GoString → Option modfile.File) (format : modfile.File → GoString) :
    (b.Build wd fs parse format).events ∈
      [[.readMod], [.readMod, .writeMod], [.readMod, .writeMod, .goBuild],
        [.readMod, .goBuild]] := by
  unfold Build.Build
  simp only
  split
  · simp
  · split
    · simp
    · split
      · simp
      · split
        · split <;> simp
        · simp

/-- Every run of `buildAction` takes one of seven sequences of steps; in each of them
`Unlock` comes before the reading of the staged `go.mod`. -/
theorem buildAction_events (env : Env) (fs : FS) (info : Option (GoString × List Package))
    (lockOk : Bool) (wd : GoString) (parse : GoString → Option modfile.File)
    (format : modfile.File → GoString) :
    (buildAction env fs info lockOk wd parse format).events ∈
      [[], [.lock, .cache], [.lock, .cache, .unlock],
        [.lock, .cache, .unlock, .readMod],
        [.lock, .cache, .unlock, .readMod, .writeMod],
        [.lock, .cache, .unlock, .readMod, .writeMod, .goBuild],
        [.lock, .cache, .unlock, .readMod, .goBuild]] := by
  unfold buildAction
  simp only
  cases info with
  | none => simp [NewBuild]
  | some p =>
    obtain ⟨dir, pkgs⟩ := p
    simp only [NewBuild]
    rcases copyProjectToTmp_events ⟨[], false⟩ env fs dir pkgs lockOk with ⟨h1, h2⟩ | ⟨h1, h2⟩
    · rw [h1]
      simp only [h2]
      have h3 := Build_events (Build.copyProjectToTmp ⟨[], false⟩ env fs dir pkgs lockOk).b wd
        (Build.copyProjectToTmp ⟨[], false⟩ env fs dir pkgs lockOk).fs parse format
      simp only [List.mem_cons, List.mem_singleton, List.not_mem_nil, or_false] at h3
      rcases h3 with h3 | h3 | h3 | h3 <;> rw [h3] <;> simp
    · have h4 : (match (Build.copyProjectToTmp ⟨[], false⟩ env fs dir pkgs lockOk).outcome with
          | Outcome.nil =>
            (⟨((Build.copyProjectToTmp ⟨[], false⟩ env fs dir pkgs lockOk).b.Build wd
                (Build.copyProjectToTmp ⟨[], false⟩ env fs dir pkgs lockOk).fs parse
                format).outcome,
              (Build.copyProjectToTmp ⟨[], false⟩ env fs dir pkgs lockOk).events ++
                ((Build.copyProjectToTmp ⟨[], false⟩ env fs dir pkgs lockOk).b.Build wd
                  (Build.copyProjectToTmp ⟨[], false⟩ env fs dir pkgs lockOk).fs parse
                  format).events,
              ((Build.copyProjectToTmp ⟨[], false⟩ env fs dir pkgs lockOk).b.Build wd
                (Build.copyProjectToTmp ⟨[], false⟩ env fs dir pkgs lockOk).fs parse format).b,
              ((Build.copyProjectToTmp ⟨[], false⟩ env fs dir pkgs lockOk).b.Build wd
                (Build.copyProjectToTmp ⟨[], false⟩ env fs dir pkgs lockOk).fs parse
                format).fs⟩ : Staged)
          | _ => Build.copyProjectToTmp ⟨[], false⟩ env fs dir pkgs lockOk) =
          Build.copyProjectToTmp ⟨[], false⟩ env fs dir pkgs lockOk := by
        split
        · rename_i h
          exact absurd h h1
        · rfl
      rw [h4]
      simp only [List.mem_cons, List.mem_singleton, List.not_mem_nil, or_false] at h2 ⊢
      rcases h2 with h2 | h2 | h2
      · exact Or.inl h2
      · exact Or.inr (Or.inl h2)
      · exact Or.inr (Or.inr (Or.inl h2))

end build

/-- C13 fails in every run: `copyProjectToTmp` takes the lock and defers `Unlock` to its
own return, inside `NewBuild`, and `updateGoModFile` runs afterwards, in `Build`. No run of
`buildAction` reads or overwrites the staged `go.mod` while the lock is held; on the
project `/path/to/aa/bb/cc` the steps are `Lock`, `Cache`, `Unlock`, then the reading and
the overwriting of the staged `go.mod`, then the build, and the lock is held after
`Cache` and free after `Unlock`. -/
theorem C13_lock_released_before_rewrite :
    (∀ (env : Env) (fs : FS) (info : Option (GoString × List build.Package)) (lockOk : Bool)
        (wd : GoString) (parse : GoString → Option modfile.File)
        (format : modfile.File → GoString),
      build.rewritesUnderLock
        (build.buildAction env fs info lockOk wd parse format).events = false) ∧
    docRun.outcome = .nil ∧
    docRun.events = [.lock, .cache, .unlock, .readMod, .writeMod, .goBuild] ∧
    build.heldAfter [.lock, .cache] = true ∧
    build.heldAfter [.lock, .cache, .unlock] = false ∧
    build.heldAfter [.lock, .cache, .unlock, .readMod] = false := by
  refine ⟨?_, by decide, by decide, by decide, by decide, by decide⟩
  intro env fs info lockOk wd parse format
  have h := build.buildAction_events env fs info lockOk wd parse format
  simp only [List.mem_cons, List.mem_singleton, List.not_mem_nil, or_false] at h
  rcases h with h | h | h | h | h | h | h <;> rw [h] <;> decide

/-! ## Where the cache directory lies -/

theorem cleanStep_cleanForm (rooted : Bool) (acc : List GoString) (c : GoString)
    (h : cleanForm rooted acc) (hc : '/' ∉ c) : cleanForm rooted (cleanStep rooted acc c) := by
  obtain ⟨k, names, hn, rfl, hk⟩ := h
  unfold cleanStep
  by_cases h1 : c = [] ∨ c = ['.']
  · rw [if_pos h1]
    exact ⟨k, names, hn, rfl, hk⟩
  · rw [if_neg h1]
    by_cases h2 : c = ['.', '.']
    · rw [if_pos h2]
      cases names with
      | nil =>
        cases k with
        | zero =>
          cases rooted with
          | true => exact ⟨0, [], by simp, by simp, fun _ => rfl⟩
          | false => exact ⟨1, [], by simp, by simp [h2], by simp⟩
        | succ k =>
          have hr : rooted = false := by
            cases rooted with
            | false => rfl
            | true => exact absurd (hk rfl) (Nat.succ_ne_zero k)
          refine ⟨k + 2, [], by simp, ?_, by simp [hr]⟩
          simp [List.replicate_succ, h2]
      | cons s rest =>
        have hs := (simpleName_iff s).1 (hn s (List.mem_cons_self _ _))
        simp only [List.cons_append, hs.2.2.2, if_false]
        exact ⟨k, rest, fun x hx => hn x (List.mem_cons_of_mem _ hx), rfl, hk⟩
    · rw [if_neg h2]
      refine ⟨k, c :: names, ?_, rfl, hk⟩
      intro s hs
      rcases List.mem_cons.1 hs with h | h
      · rw [h, simpleName_iff]
        exact ⟨fun h0 => h1 (Or.inl h0), hc, fun h0 => h1 (Or.inr h0), h2⟩
      · exact hn s h

theorem foldl_cleanStep_cleanForm (rooted : Bool) (pieces acc : List GoString)
    (h : cleanForm rooted acc) (hp : ∀ c ∈ pieces, '/' ∉ c) :
    cleanForm rooted (pieces.foldl (cleanStep rooted) acc) := by
  induction pieces generalizing acc with
  | nil => exact h
  | cons c rest ih =>
    rw [List.foldl_cons]
    exact ih _ (cleanStep_cleanForm rooted acc c h (hp c (List.mem_cons_self _ _)))
      (fun x hx => hp x (List.mem_cons_of_mem _ hx))

/-- The elements of a path in cleaned form are not empty, have no `/` and are not `.`. -/
theorem pathForm_elems (rooted : Bool) (elems : List GoString) (h : pathForm rooted elems) :
    ∀ a ∈ elems, a ≠ [] ∧ '/' ∉ a ∧ a ≠ ['.'] := by
  obtain ⟨k, names, hn, rfl, _⟩ := h
  intro a ha
  rcases List.mem_append.1 ha with h | h
  · rw [List.eq_of_mem_replicate h]
    decide
  · obtain ⟨h1, h2, h3, _⟩ := (simpleName_iff a).1 (hn a h)
    exact ⟨h1, h2, h3⟩

theorem pathForm_of_cleanForm (rooted : Bool) (acc : List GoString) (h : cleanForm rooted acc) :
    pathForm rooted acc.reverse := by
  obtain ⟨k, names, hn, rfl, hk⟩ := h
  refine ⟨k, names.reverse, fun s hs => hn s (List.mem_reverse.1 hs), ?_, hk⟩
  simp

theorem pathForm_append (rooted : Bool) (elems names : List GoString)
    (h : pathForm rooted elems) (hn : ∀ s ∈ names, simpleName s = true) :
    pathForm rooted (elems ++ names) := by
  obtain ⟨k, ns, hns, rfl, hk⟩ := h
  refine ⟨k, ns ++ names, ?_, by simp, hk⟩
  intro s hs
  rcases List.mem_append.1 hs with h | h
  · exact hns s h
  · exact hn s h

/-- The cleaned form of a path that is not empty, from the elements that are kept. -/
theorem Clean_eq_renderPath (path : GoString) (hp : path ≠ []) :
    Clean path = renderPath (IsAbs path)
      ((splitOn '/' path).foldl (cleanStep (IsAbs path)) []).reverse := by
  cases path with
  | nil => exact absurd rfl hp
  | cons c rest =>
    by_cases hc : c = '/'
    · subst hc
      simp [Clean, renderPath, IsAbs]
    · have habs : IsAbs (c :: rest) = false := by
        simp [IsAbs, hc]
      rw [habs]
      simp [Clean, renderPath, hc]

theorem joinWith_eq_nil (elems : List GoString) (h : ∀ a ∈ elems, a ≠ [])
    (hj : joinWith '/' elems = []) : elems = [] := by
  cases elems with
  | nil => rfl
  | cons a rest =>
    have ha := h a (List.mem_cons_self _ _)
    cases rest with
    | nil => exact absurd hj ha
    | cons b rest2 =>
      have : joinWith '/' (a :: b :: rest2) = a ++ '/' :: joinWith '/' (b :: rest2) := rfl
      rw [this] at hj
      simp at hj

theorem IsAbs_joinWith (elems : List GoString) (h : ∀ a ∈ elems, a ≠ [] ∧ '/' ∉ a) :
    IsAbs (joinWith '/' elems) = false := by
  cases elems with
  | nil => rfl
  | cons a rest =>
    obtain ⟨ha, hs⟩ := h a (List.mem_cons_self _ _)
    cases a with
    | nil => exact absurd rfl ha
    | cons c cs =>
      have hc : c ≠ '/' := fun hc => hs (by simp [hc])
      cases rest with
      | nil => simp [joinWith, IsAbs, hc]
      | cons b rest2 =>
        have : joinWith '/' ((c :: cs) :: b :: rest2) =
            c :: (cs ++ '/' :: joinWith '/' (b :: rest2)) := rfl
        rw [this]
        simp [IsAbs, hc]

theorem IsAbs_renderPath (rooted : Bool) (elems : List GoString) (h : pathForm rooted elems) :
    IsAbs (renderPath rooted elems) = rooted := by
  have he := pathForm_elems rooted elems h
  unfold renderPath
  cases rooted with
  | true => rfl
  | false =>
    simp only [Bool.false_eq_true, if_false]
    by_cases hj : joinWith '/' elems = []
    · rw [if_pos hj]
      rfl
    · rw [if_neg hj]
      exact IsAbs_joinWith elems (fun a ha => ⟨(he a ha).1, (he a ha).2.1⟩)

theorem elements_joinWith (elems : List GoString) (hne : elems ≠ [])
    (h : ∀ a ∈ elems, a ≠ [] ∧ '/' ∉ a) : elements (joinWith '/' elems) = elems := by
  unfold elements
  rw [splitOn_joinWith '/' elems hne (fun w hw => (h w hw).2), List.filter_eq_self]
  intro a ha
  simpa using (h a ha).1

theorem elements_renderPath (rooted : Bool) (elems : List GoString)
    (h : pathForm rooted elems) (hne : rooted = true ∨ elems ≠ []) :
    elements (renderPath rooted elems) = elems := by
  have he := pathForm_elems rooted elems h
  have he2 : ∀ a ∈ elems, a ≠ [] ∧ '/' ∉ a := fun a ha => ⟨(he a ha).1, (he a ha).2.1⟩
  unfold renderPath
  cases rooted with
  | true =>
    simp only [if_true]
    cases helems : elems with
    | nil => decide
    | cons a rest =>
      rw [← helems]
      have hne2 : elems ≠ [] := by rw [helems]; exact List.cons_ne_nil _ _
      have := elements_joinWith elems hne2 he2
      unfold elements at this ⊢
      rw [splitOn, if_pos rfl, List.filter_cons]
      simpa using this
  | false =>
    have hne2 : elems ≠ [] := by
      rcases hne with h | h
      · cases h
      · exact h
    have hj : joinWith '/' elems ≠ [] := fun hj =>
      hne2 (joinWith_eq_nil elems (fun a ha => (he a ha).1) hj)
    simp only [Bool.false_eq_true, if_false, hj]
    exact elements_joinWith elems hne2 he2

theorem renderPath_ne_dot (rooted : Bool) (elems : List GoString)
    (h : pathForm rooted elems) (hne : rooted = true ∨ elems ≠ []) :
    renderPath rooted elems ≠ ['.'] := by
  intro hd
  have h1 := elements_renderPath rooted elems h hne
  rw [hd] at h1
  have h2 : elements ['.'] = [['.']] := by decide
  rw [h2] at h1
  have := (pathForm_elems rooted elems h) ['.'] (by rw [← h1]; simp)
  exact this.2.2 rfl

theorem foldl_cleanStep_dots (k j : Nat) :
    (List.replicate k ['.', '.']).foldl (cleanStep false) (List.replicate j ['.', '.']) =
      List.replicate (j + k) ['.', '.'] := by
  induction k generalizing j with
  | zero => rfl
  | succ k ih =>
    rw [List.replicate_succ, List.foldl_cons]
    have hstep : cleanStep false (List.replicate j ['.', '.']) ['.', '.'] =
        List.replicate (j + 1) ['.', '.'] := by
      cases j with
      | zero => simp [cleanStep]
      | succ j => simp [cleanStep, List.replicate_succ]
    rw [hstep, ih]
    congr 1
    omega

/-- Cleaning a path in cleaned form leaves it as it is. -/
theorem Clean_renderPath (rooted : Bool) (elems : List GoString) (h : pathForm rooted elems) :
    Clean (renderPath rooted elems) = renderPath rooted elems := by
  have he := pathForm_elems rooted elems h
  have he2 : ∀ a ∈ elems, a ≠ [] ∧ '/' ∉ a := fun a ha => ⟨(he a ha).1, (he a ha).2.1⟩
  obtain ⟨k, names, hn, helems, hk⟩ := h
  have hfold : ∀ r, (r = true → k = 0) →
      (elems.foldl (cleanStep r) []).reverse = elems := by
    intro r hr
    rw [helems, List.foldl_append]
    cases r with
    | true =>
      rw [hr rfl]
      simp only [List.replicate_zero, List.foldl_nil, List.nil_append]
      rw [foldl_cleanStep_simple true names [] hn]
      simp
    | false =>
      have := foldl_cleanStep_dots k 0
      simp only [List.replicate_zero, Nat.zero_add] at this
      rw [this, foldl_cleanStep_simple false names _ hn]
      simp
  cases rooted with
  | true =>
    have hpath : renderPath true elems = '/' :: joinWith '/' elems := rfl
    rw [hpath, Clean_eq_renderPath _ (List.cons_ne_nil _ _)]
    have habs : IsAbs ('/' :: joinWith '/' elems) = true := rfl
    rw [habs, splitOn, if_pos rfl, List.foldl_cons]
    have h0 : cleanStep true [] [] = [] := by simp [cleanStep]
    rw [h0]
    by_cases hnil : elems = []
    · rw [hnil]
      simp [joinWith, splitOn, cleanStep, renderPath]
    · rw [splitOn_joinWith '/' elems hnil (fun w hw => (he2 w hw).2), hfold true hk]
      rfl
  | false =>
    by_cases hnil : elems = []
    · rw [hnil]
      decide
    · have hj : joinWith '/' elems ≠ [] := fun hj =>
        hnil (joinWith_eq_nil elems (fun a ha => (he a ha).1) hj)
      have hpath : renderPath false elems = joinWith '/' elems := by
        simp [renderPath, hj]
      rw [hpath, Clean_eq_renderPath _ hj, IsAbs_joinWith elems he2,
        splitOn_joinWith '/' elems hnil (fun w hw => (he2 w hw).2), hfold false (by simp)]
      exact hpath

theorem dropCommon_append (a t : List GoString) : dropCommon a (a ++ t) = ([], t) := by
  induction a with
  | nil => cases t <;> rfl
  | cons x rest ih =>
    show dropCommon (x :: rest) (x :: (rest ++ t)) = _
    rw [dropCommon, if_pos rfl, ih]

theorem foldl_cleanStep_noDots (rooted : Bool) (pieces acc : List GoString)
    (h : ∀ c ∈ pieces, '/' ∉ c ∧ c ≠ ['.', '.']) :
    pieces.foldl (cleanStep rooted) acc = (pieces.filter simpleName).reverse ++ acc := by
  induction pieces generalizing acc with
  | nil => rfl
  | cons c rest ih =>
    obtain ⟨hs, hd⟩ := h c (List.mem_cons_self _ _)
    rw [List.foldl_cons, ih _ (fun x hx => h x (List.mem_cons_of_mem _ hx))]
    by_cases h1 : c = [] ∨ c = ['.']
    · have hstep : cleanStep rooted acc c = acc := by simp [cleanStep, h1]
      have hsimple : simpleName c = false := by
        rcases h1 with h1 | h1 <;> rw [h1] <;> decide
      rw [hstep, List.filter_cons, hsimple]
      simp
    · have hsimple : simpleName c = true := by
        rw [simpleName_iff]
        exact ⟨fun h0 => h1 (Or.inl h0), hs, fun h0 => h1 (Or.inr h0), hd⟩
      rw [cleanStep_simple rooted acc c hsimple, List.filter_cons, hsimple]
      simp

theorem IsAbs_append (base rest : GoString) (hb : base ≠ []) :
    IsAbs (base ++ rest) = IsAbs base := by
  cases base with
  | nil => exact absurd rfl hb
  | cons c cs =>
    by_cases hc : c = '/'
    · subst hc; rfl
    · simp [IsAbs, hc]

/-- A directory without `..` joined to a base path: the elements of the cleaned base, then
the names of the directory. -/
theorem Join_innerDir (base d : GoString) (hb : base ≠ []) (hd : innerDir d = true) :
    ∃ elems names, pathForm (IsAbs base) elems ∧ names ≠ [] ∧
      (∀ s ∈ names, simpleName s = true) ∧
      Clean base = renderPath (IsAbs base) elems ∧
      Join base d = renderPath (IsAbs base) (elems ++ names) := by
  simp only [innerDir, Bool.and_eq_true, List.all_eq_true, List.any_eq_true,
    decide_eq_true_eq] at hd
  obtain ⟨hdots, n, hn, hns⟩ := hd
  refine ⟨((splitOn '/' base).foldl (cleanStep (IsAbs base)) []).reverse,
    (splitOn '/' d).filter simpleName, ?_, ?_, ?_, Clean_eq_renderPath base hb, ?_⟩
  · exact pathForm_of_cleanForm _ _ (foldl_cleanStep_cleanForm _ _ []
      ⟨0, [], by simp, by simp, fun _ => rfl⟩ (splitOn_not_mem '/' base))
  · intro h
    have : n ∈ (splitOn '/' d).filter simpleName := List.mem_filter.2 ⟨hn, hns⟩
    rw [h] at this
    simp at this
  · intro s hs
    exact (List.mem_filter.1 hs).2
  · unfold Join
    rw [if_neg hb, Clean_eq_renderPath _ (by simp), IsAbs_append base _ hb,
      splitOn_append_sep, List.foldl_append,
      foldl_cleanStep_noDots _ (splitOn '/' d) _
        (fun c hc => ⟨splitOn_not_mem '/' d c hc, hdots c hc⟩)]
    simp

/-- The relative path from a base to a path with the same elements and more names after
them is those names. -/
theorem Rel_renderPath (basepath targpath : GoString) (rooted : Bool)
    (elems names : List GoString) (hf : pathForm rooted elems) (hne : names ≠ [])
    (hn : ∀ s ∈ names, simpleName s = true)
    (h1 : Clean basepath = renderPath rooted elems)
    (h2 : Clean targpath = renderPath rooted (elems ++ names)) :
    Rel basepath targpath = some (joinWith '/' names) := by
  have hf2 := pathForm_append rooted elems names hf hn
  have hne2 : elems ++ names ≠ [] := by
    intro h
    exact hne (List.append_eq_nil.1 h).2
  have ht := elements_renderPath rooted (elems ++ names) hf2 (Or.inr hne2)
  have hb : (if renderPath rooted elems = ['.'] then [] else
      elements (renderPath rooted elems)) = elems := by
    by_cases hc : rooted = true ∨ elems ≠ []
    · rw [if_neg (renderPath_ne_dot rooted elems hf hc)]
      exact elements_renderPath rooted elems hf hc
    · have hr : rooted = false := by
        cases rooted with
        | false => rfl
        | true => exact absurd (Or.inl rfl) hc
      have he : elems = [] := by
        by_contra he
        exact hc (Or.inr he)
      rw [hr, he]
      rfl
  have hneq : renderPath rooted (elems ++ names) ≠ renderPath rooted elems := by
    intro heq
    by_cases hc : rooted = true ∨ elems ≠ []
    · have := elements_renderPath rooted elems hf hc
      rw [← heq, ht] at this
      exact hne (List.append_right_eq_self.1 this)
    · have hr : rooted = false := by
        cases rooted with
        | false => rfl
        | true => exact absurd (Or.inl rfl) hc
      have he : elems = [] := by
        by_contra he
        exact hc (Or.inr he)
      have hdot : renderPath rooted elems = ['.'] := by
        rw [hr, he]
        rfl
      rw [hdot] at heq
      exact renderPath_ne_dot rooted (elems ++ names) hf2 (Or.inr hne2) heq
  unfold Rel
  simp only [h1, h2]
  rw [if_neg hneq, IsAbs_renderPath rooted elems hf, IsAbs_renderPath rooted _ hf2,
    if_neg (by simp), hb, ht, dropCommon_append]

namespace build

theorem foldl_apply_dirs (opts : List cacheOption) (b : BuildCache) :
    (opts.foldl (fun bc o => o.apply bc) b).baseDir = b.baseDir ∧
    (opts.foldl (fun bc o => o.apply bc) b).cacheDir = b.cacheDir := by
  induction opts generalizing b with
  | nil => exact ⟨rfl, rfl⟩
  | cons o rest ih =>
    rw [List.foldl_cons]
    obtain ⟨h1, h2⟩ := ih (o.apply b)
    rw [h1, h2]
    cases o <;> exact ⟨rfl, rfl⟩

/-- The directories of a controller that `NewBuildCache` of package `build` returns. -/
theorem NewBuildCache_dirs (env : Env) (fs : FS) (base : GoString) (opts : List cacheOption)
    (bc : BuildCache) (h : NewBuildCache env fs base opts = .ok bc) :
    bc.baseDir = base ∧ bc.cacheDir = cacheDirFor env base := by
  unfold NewBuildCache at h
  by_cases hbase : base = []
  · rw [if_pos hbase] at h
    cases h
  · rw [if_neg hbase] at h
    simp only at h
    have key : ∀ b : BuildCache, b.baseDir = base → b.cacheDir = cacheDirFor env base →
        (Except.ok { (opts.foldl (fun bc o => o.apply bc) b) with
          skipPattern := (opts.foldl (fun bc o => o.apply bc) b).cacheDir ::
            (opts.foldl (fun bc o => o.apply bc) b).skipPattern } : Except GoError BuildCache) =
          .ok bc → bc.baseDir = base ∧ bc.cacheDir = cacheDirFor env base := by
      intro b hb1 hb2 hok
      obtain ⟨k1, k2⟩ := foldl_apply_dirs opts b
      rw [← Except.ok.inj hok]
      exact ⟨k1.trans hb1, k2.trans hb2⟩
    revert h
    split
    · split
      · exact key _ rfl rfl
      · intro h; cases h
    · split
      · intro h; cases h
      · split
        · intro h; cases h
        · exact key _ rfl rfl

end build

namespace cache

/-- The directories of a controller that `NewBuildCache` of package `cache` returns. -/
theorem walk_NewBuildCache_dirs (env : Env) (fs : FS) (base : GoString)
    (opts : List CacheOption) (bc : BuildCache) (h : NewBuildCache env fs base opts = .ok bc) :
    bc.baseDir = base ∧ bc.cacheDir = cacheDirFor env base := by
  unfold NewBuildCache at h
  by_cases hbase : base = []
  · rw [if_pos hbase] at h
    cases h
  · rw [if_neg hbase] at h
    simp only at h
    have key : ∀ b : BuildCache, b.baseDir = base → b.cacheDir = cacheDirFor env base →
        (Except.ok { (opts.foldl (fun bc o => o.apply bc) b) with
          skipPattern := (opts.foldl (fun bc o => o.apply bc) b).cacheDir ::
            (opts.foldl (fun bc o => o.apply bc) b).skipPattern } : Except GoError BuildCache) =
          .ok bc → bc.baseDir = base ∧ bc.cacheDir = cacheDirFor env base := by
      intro b hb1 hb2 hok
      obtain ⟨k1, _, k3, _⟩ := foldl_apply_fields opts b
      rw [← Except.ok.inj hok]
      exact ⟨k1.trans hb1, k3.trans hb2⟩
    revert h
    split
    · split
      · exact key _ rfl rfl
      · intro h; cases h
    · split
      · intro h; cases h
      · split
        · intro h; cases h
        · exact key _ rfl rfl

end cache

/-- C15 fails when the override leaves the base: with `GOCOCO_CACHE_DIR=../out` and the
base `/p`, `NewBuildCache` of either package returns a controller whose `cacheDir` is
`/out`, which is not under `/p` (the relative path from `/p` to it is `../out`), and
`GetCacheDir` is `/out/cache`. -/
theorem C15_override_leaves_base :
    (∃ bc, build.NewBuildCache escapeEnv exFS "/p".toList [] = .ok bc ∧
      bc.baseDir = "/p".toList ∧ bc.cacheDir = "/out".toList ∧
      Rel bc.baseDir bc.cacheDir = some "../out".toList ∧
      isUnder bc.baseDir bc.cacheDir = false ∧ bc.GetCacheDir = "/out/cache".toList) ∧
    (∃ bc, cache.NewBuildCache escapeEnv exFS "/p".toList [] = .ok bc ∧
      bc.baseDir = "/p".toList ∧ bc.cacheDir = "/out".toList ∧
      Rel bc.baseDir bc.cacheDir = some "../out".toList ∧
      isUnder bc.baseDir bc.cacheDir = false ∧ bc.GetCacheDir = "/out/cache".toList) := by
  refine ⟨⟨_, rfl, ?_, ?_, ?_, ?_, ?_⟩, ⟨_, rfl, ?_, ?_, ?_, ?_, ?_⟩⟩ <;> decide

/-- C15, amended: for a base path that is not empty, when `GOCOCO_CACHE_DIR` is not set,
or is a relative directory none of whose elements is `..` and one of whose elements is a
name, the `cacheDir` of the controller that `NewBuildCache` of either package returns is
`Join(base, dir)`, with `dir` the override or `.gococo`; the relative path from the base to
it is a path of names (it lies inside the base), and `GetCacheDir` is
`Join(cacheDir, "cache")`. -/
theorem C15_cache_dir_inside_base (env : Env) (base : GoString) (hbase : base ≠ [])
    (hdir : env.GOCOCO_CACHE_DIR = [] ∨ innerDir env.GOCOCO_CACHE_DIR = true) :
    (∃ names, names ≠ [] ∧ (∀ s ∈ names, simpleName s = true) ∧
      Rel base (cacheDirFor env base) = some (joinWith '/' names)) ∧
    (∀ fs opts bc, build.NewBuildCache env fs base opts = .ok bc →
      bc.baseDir = base ∧ bc.cacheDir = cacheDirFor env base ∧
      bc.cacheDir =
        Join base (if env.GOCOCO_CACHE_DIR ≠ [] then env.GOCOCO_CACHE_DIR else CACHE_DIR) ∧
      bc.GetCacheDir = Join bc.cacheDir "cache".toList) ∧
    (∀ fs opts bc, cache.NewBuildCache env fs base opts = .ok bc →
      bc.baseDir = base ∧ bc.cacheDir = cacheDirFor env base ∧
      bc.cacheDir =
        Join base (if env.GOCOCO_CACHE_DIR ≠ [] then env.GOCOCO_CACHE_DIR else CACHE_DIR) ∧
      bc.GetCacheDir = Join bc.cacheDir "cache".toList) := by
  have hform : cacheDirFor env base =
      Join base (if env.GOCOCO_CACHE_DIR ≠ [] then env.GOCOCO_CACHE_DIR else CACHE_DIR) := by
    unfold cacheDirFor
    by_cases h : env.GOCOCO_CACHE_DIR ≠ []
    · rw [if_pos h, if_pos h]
    · rw [if_neg h, if_neg h]
  have hinner : innerDir
      (if env.GOCOCO_CACHE_DIR ≠ [] then env.GOCOCO_CACHE_DIR else CACHE_DIR) = true := by
    by_cases h : env.GOCOCO_CACHE_DIR ≠ []
    · rw [if_pos h]
      rcases hdir with hd | hd
      · exact absurd hd h
      · exact hd
    · rw [if_neg h]
      decide
  refine ⟨?_, ?_, ?_⟩
  · obtain ⟨elems, names, hf, hne, hn, hc, hj⟩ := Join_innerDir base _ hbase hinner
    refine ⟨names, hne, hn, ?_⟩
    rw [hform]
    refine Rel_renderPath base _ (IsAbs base) elems names hf hne hn hc ?_
    rw [hj]
    exact Clean_renderPath _ _ (pathForm_append _ _ _ hf hn)
  · intro fs opts bc h
    obtain ⟨h1, h2⟩ := build.NewBuildCache_dirs env fs base opts bc h
    exact ⟨h1, h2, h2.trans hform, rfl⟩
  · intro fs opts bc h
    obtain ⟨h1, h2⟩ := cache.walk_NewBuildCache_dirs env fs base opts bc h
    exact ⟨h1, h2, h2.trans hform, rfl⟩

/-- C15 at the base `/p` without an override, where the cache directory is
`/p/.gococo`. -/
theorem C15_cache_dir_inside_base_witness :
    (∃ names, names ≠ [] ∧ (∀ s ∈ names, simpleName s = true) ∧
      Rel "/p".toList (cacheDirFor exEnv "/p".toList) = some (joinWith '/' names)) ∧
    (∀ fs opts bc, build.NewBuildCache exEnv fs "/p".toList opts = .ok bc →
      bc.baseDir = "/p".toList ∧ bc.cacheDir = cacheDirFor exEnv "/p".toList ∧
      bc.cacheDir =
        Join "/p".toList
          (if exEnv.GOCOCO_CACHE_DIR ≠ [] then exEnv.GOCOCO_CACHE_DIR else CACHE_DIR) ∧
      bc.GetCacheDir = Join bc.cacheDir "cache".toList) ∧
    (∀ fs opts bc, cache.NewBuildCache exEnv fs "/p".toList opts = .ok bc →
      bc.baseDir = "/p".toList ∧ bc.cacheDir = cacheDirFor exEnv "/p".toList ∧
      bc.cacheDir =
        Join "/p".toList
          (if exEnv.GOCOCO_CACHE_DIR ≠ [] then exEnv.GOCOCO_CACHE_DIR else CACHE_DIR) ∧
      bc.GetCacheDir = Join bc.cacheDir "cache".toList) :=
  C15_cache_dir_inside_base exEnv "/p".toList (by decide) (Or.inl rfl)

/-! ## Special files -/

/-- C17 fails for sockets and devices: only the named pipe has a case of its own in `dfs2`
and `dfs`, the other special files go to the default case, the one of regular files. On
the project `/p` with the file `a.go`, the socket `s` and the device `d`, the walker
returns nil and has recorded `/p/s` and `/p/d` in the new mapping. -/
theorem C17_socket_is_recorded :
    Lstat sockFS "/p/s".toList = .ok ⟨.socket, 9⟩ ∧
    Lstat sockFS "/p/d".toList = .ok ⟨.device, 8⟩ ∧
    (cache.dfs2 5 sockFS exCacheStale "/p".toList ⟨.dir, 2⟩).1 = .nil ∧
    (cache.dfs2 5 sockFS exCacheStale "/p".toList ⟨.dir, 2⟩).2.newMod.get? "/p/s".toList =
      some 9 ∧
    (cache.dfs2 5 sockFS exCacheStale "/p".toList ⟨.dir, 2⟩).2.newMod.get? "/p/d".toList =
      some 8 ∧
    (cache.dfs2 1 sockFS exCacheStale "/p/s".toList ⟨.socket, 9⟩).2.newMod =
      [("/p/s".toList, 9)] := by
  refine ⟨rfl, rfl, ?_, ?_, ?_, ?_⟩ <;> decide

/-- C17, amended to named pipes: the walker and the copier of package `cache`, called on an
entry whose mode is that of a named pipe, return nil at once; the controller, with its new
mapping, and the filesystem are as before. In the loops over the entries of a directory
such an entry changes nothing, and the loop goes on with the entries after it. -/
theorem C17_named_pipe_is_skipped (fuel : Nat) (fs : FS) (bc : cache.BuildCache)
    (dst src : GoString) (info : FileInfo) (hpipe : info.mode = .namedPipe) :
    cache.dfs2 (fuel + 1) fs bc src info = (.nil, bc) ∧
    cache.dfs bc (fuel + 1) fs dst src info = (.nil, fs) ∧
    (∀ dir name rest, DirEntryInfo fs dir name = .ok info →
      cache.dinfoLoop (cache.dfs2 (fuel + 1) fs) fs dir (name :: rest) bc =
        cache.dinfoLoop (cache.dfs2 (fuel + 1) fs) fs dir rest bc) ∧
    (∀ dstDir dir name rest, DirEntryInfo fs dir name = .ok info →
      cache.dcopyLoop (cache.dfs bc (fuel + 1)) dstDir dir (name :: rest) fs =
        cache.dcopyLoop (cache.dfs bc (fuel + 1)) dstDir dir rest fs) := by
  have h2 : ∀ (b : cache.BuildCache) (p : GoString),
      cache.dfs2 (fuel + 1) fs b p info = (.nil, b) := by
    intro b p
    unfold cache.dfs2
    by_cases hs : p ∈ b.skipPattern
    · rw [if_pos hs]
    · rw [if_neg hs, hpipe]
  have h3 : ∀ (f : FS) (d p : GoString), cache.dfs bc (fuel + 1) f d p info = (.nil, f) := by
    intro f d p
    unfold cache.dfs
    by_cases hs : p ∈ bc.skipPattern
    · rw [if_pos hs]
    · rw [if_neg hs, hpipe]
  refine ⟨h2 bc src, h3 fs dst src, ?_, ?_⟩
  · intro dir name rest hinfo
    rw [cache.dinfoLoop]
    simp only [hinfo, h2]
  · intro dstDir dir name rest hinfo
    rw [cache.dcopyLoop]
    simp only [hinfo, h3]

/-- C17 at the project `/p` with the file `a.go` and the named pipe `f`: the walker records
`a.go` alone. -/
theorem C17_named_pipe_is_skipped_witness :
    (cache.dfs2 1 pipeFS exCacheStale "/p/f".toList ⟨.namedPipe, 9⟩ = (.nil, exCacheStale) ∧
      cache.dfs exCacheStale 1 pipeFS "/p/.gococo/cache/f".toList "/p/f".toList
        ⟨.namedPipe, 9⟩ = (.nil, pipeFS) ∧
      (∀ dir name rest, DirEntryInfo pipeFS dir name = .ok ⟨.namedPipe, 9⟩ →
        cache.dinfoLoop (cache.dfs2 1 pipeFS) pipeFS dir (name :: rest) exCacheStale =
          cache.dinfoLoop (cache.dfs2 1 pipeFS) pipeFS dir rest exCacheStale) ∧
      (∀ dstDir dir name rest, DirEntryInfo pipeFS dir name = .ok ⟨.namedPipe, 9⟩ →
        cache.dcopyLoop (cache.dfs exCacheStale 1) dstDir dir (name :: rest) pipeFS =
          cache.dcopyLoop (cache.dfs exCacheStale 1) dstDir dir rest pipeFS)) ∧
    Lstat pipeFS "/p/f".toList = .ok ⟨.namedPipe, 9⟩ ∧
    (cache.dfs2 5 pipeFS exCacheStale "/p".toList ⟨.dir, 2⟩).2.newMod =
      [("/p/a.go".toList, 100)] :=
  ⟨C17_named_pipe_is_skipped 0 pipeFS exCacheStale "/p/.gococo/cache/f".toList "/p/f".toList
    ⟨.namedPipe, 9⟩ rfl, rfl, by decide⟩

/-! ## The digest in any order -/

theorem byteLen_append (a b : GoString) : byteLen (a ++ b) = byteLen a + byteLen b := by
  simp [byteLen]

/-- The loading of a digest whose first path has as many bytes as the buffer of the scanner
holds, or more: nothing is loaded, and there is no error. -/
theorem loadDigest_long_path (n : Nat) (hn : MaxScanTokenSize ≤ n) (t : Int)
    (rest : ModMap) (hrest : ∀ e ∈ rest, plainPath e.1 = true) :
    0 < n → loadDigest (digestText ((List.replicate n 'a', t) :: rest)) = .ok [] := by
  intro hpos
  have hplain : ∀ e ∈ (List.replicate n 'a', t) :: rest, plainPath e.1 = true := by
    intro e he
    rcases List.mem_cons.1 he with h | h
    · rw [h, plainPath_iff]
      constructor
      · intro h0
        have := congrArg List.length h0
        simp at this
        omega
      · intro c hc
        rw [List.eq_of_mem_replicate hc]
        decide
    · exact hrest e h
  have hlong : ¬ byteLen (digestLine (List.replicate n 'a', t)) < MaxScanTokenSize := by
    unfold digestLine
    rw [byteLen_append, byteLen_replicate_a]
    omega
  unfold loadDigest scanLines
  rw [rawLines_digestText _ hplain, List.map_cons, List.takeWhile_cons]
  simp only [hlong, decide_False, Bool.false_eq_true, if_false, List.map_nil]
  rfl

/-- C18 fails for a path of 65536 bytes: the path is not empty and has no white space, the
text that `saveCache` writes for the mapping of that path to the time 1 is loaded without
error, and the loaded mapping is empty, because the scanner stops at a line that does not
fit its buffer. -/
theorem C18_long_path_is_lost :
    plainPath longPath = true ∧
    loadDigest (digestText [(longPath, 1)]) = .ok [] ∧
    ModMap.get? [(longPath, 1)] longPath = some 1 ∧
    ModMap.get? [] longPath = none := by
  refine ⟨?_, ?_, ?_, rfl⟩
  · rw [plainPath_iff]
    constructor
    · intro h0
      have hlen : longPath.length = 65536 := by
        unfold longPath
        exact List.length_replicate _ _
      rw [h0] at hlen
      exact absurd hlen (by decide)
    · intro c hc
      rw [List.eq_of_mem_replicate hc]
      decide
  · exact loadDigest_long_path 65536 (by decide) 1 [] (by simp) (by decide)
  · simp [ModMap.get?]

/-- C18, amended with the length of the lines: for every mapping without a path twice in
which every path is not empty and has no white space, every time is an `int64` and every
line `<path> <modtime>` is shorter than 65536 bytes, the text that `saveCache` writes, one
line for each entry in any order, is loaded by `NewBuildCache` without error into a mapping
equal to the original. -/
theorem C18_digest_round_trip (m written : ModMap) (hkeys : (m.map Prod.fst).Nodup)
    (hplain : m.plain) (hperm : written.Perm m) :
    ∃ m1, loadDigest (digestText written) = .ok m1 ∧ (∀ k, m1.get? k = m.get? k) ∧
      DeepEqual m1 m = true := by
  have htidy : written.tidy :=
    ⟨(hperm.map Prod.fst).nodup_iff.2 hkeys, fun e he => hplain e (hperm.mem_iff.1 he)⟩
  obtain ⟨m1, hload, hget⟩ := loadDigest_digestText written htidy
  have hsame : ∀ k, m1.get? k = m.get? k := fun k =>
    (hget k).trans (ModMap.get?_perm m written hkeys hperm k)
  exact ⟨m1, hload, hsame, (DeepEqual_iff m1 m).2 hsame⟩

/-- C18 at the mapping of `/p/a.go` to 100 and `/p/l` to 77, written in the other
order. -/
theorem C18_digest_round_trip_witness :
    ∃ m1, loadDigest (digestText [("/p/l".toList, 77), ("/p/a.go".toList, 100)]) = .ok m1 ∧
      (∀ k, m1.get? k = ModMap.get? [("/p/a.go".toList, 100), ("/p/l".toList, 77)] k) ∧
      DeepEqual m1 [("/p/a.go".toList, 100), ("/p/l".toList, 77)] = true :=
  C18_digest_round_trip [("/p/a.go".toList, 100), ("/p/l".toList, 77)]
    [("/p/l".toList, 77), ("/p/a.go".toList, 100)] (by decide) (by decide)
    (List.Perm.swap _ _ _)

/-! ## What is copied and what is tracked -/

/-- C16 fails in package `build`: `dfsCopy` puts `go.mod` and `go.sum` in front of the
files that `dfsMod` records. On the project `/p`, with no digest file, `Cache` returns nil
after a refresh; the storage directory holds copies of `go.mod` and `go.sum`, and the new
mapping has the keys `/p/a.go` and `/p/l` and no key for `/p/go.mod` or `/p/go.sum`. The
walker of package `cache` records `/p/go.mod` on the same project. When `go.mod` is then
changed, the next controller of package `build` finds the mapping equal to the digest:
`Cache` returns nil without a refresh, writes nothing, and the storage directory keeps the
old `go.mod`. -/
theorem C16_go_mod_copied_but_not_tracked :
    (∃ bc, build.NewBuildCache exEnv exFS "/p".toList [.WithPackage [exPkg]] = .ok bc ∧
      (bc.Cache exFS).1 = .nil ∧ (bc.Cache exFS).2.1.NeedRefresh = true ∧
      (bc.Cache exFS).2.2 = firstRunFS ∧
      (bc.Cache exFS).2.1.newMod.get? "/p/a.go".toList = some 100 ∧
      (bc.Cache exFS).2.1.newMod.get? "/p/l".toList = some 77 ∧
      (bc.Cache exFS).2.1.newMod.get? "/p/go.mod".toList = none ∧
      (bc.Cache exFS).2.1.newMod.get? "/p/go.sum".toList = none) ∧
    firstRunFS.node? "/p/.gococo/cache/go.mod".toList =
      some (.file 7 "module x".toList true) ∧
    firstRunFS.node? "/p/.gococo/cache/go.sum".toList = some (.file 7 [] true) ∧
    firstRunFS.node? "/p/.gococo/cache/a.go".toList =
      some (.file 7 "package a".toList true) ∧
    (cache.dfs2 5 exFS exCacheStale "/p".toList ⟨.dir, 2⟩).2.newMod.get? "/p/go.mod".toList =
      some 50 ∧
    editedFS.node? "/p/go.mod".toList = some (.file 200 "module y".toList true) ∧
    (∃ bc2, build.NewBuildCache exEnv editedFS "/p".toList [.WithPackage [exPkg]] = .ok bc2 ∧
      (bc2.Cache editedFS).1 = .nil ∧ (bc2.Cache editedFS).2.1.NeedRefresh = false ∧
      (bc2.Cache editedFS).2.2 = editedFS) ∧
    editedFS.node? "/p/.gococo/cache/go.mod".toList =
      some (.file 7 "module x".toList true) := by
  refine ⟨⟨_, rfl, ?_, ?_, ?_, ?_, ?_, ?_, ?_⟩, ?_, ?_, ?_, ?_, ?_, ⟨_, rfl, ?_, ?_, ?_⟩, ?_⟩ <;>
    decide

/-! ## Files that stay in place -/

theorem stable_refl (fs : FS) : stable fs fs :=
  ⟨sameLinks_refl fs, fun _ n h hn => ⟨n, h, hn⟩⟩

theorem stable_trans {a b c : FS} (h1 : stable a b) (h2 : stable b c) : stable a c := by
  refine ⟨sameLinks_trans h1.1 h2.1, ?_⟩
  intro q n hq hn
  obtain ⟨n1, hq1, hn1⟩ := h1.2 q n hq hn
  exact h2.2 q n1 hq1 hn1

/-- A regular file that stands at a path stands there in every later filesystem that keeps
the links and the files. -/
theorem regularAt_stable (fs fs1 : FS) (path : GoString) (h : stable fs fs1)
    (hr : regularAt fs path) : regularAt fs1 path := by
  obtain ⟨p, n, hp, hnode, hfile⟩ := hr
  obtain ⟨n1, hnode1, hfile1⟩ := h.2 p n hnode hfile
  exact ⟨p, n1, by rw [resolve_congr MAXSYMLINKS fs fs1 h.1, hp], hnode1, hfile1⟩

theorem stable_put (fs : FS) (k : GoString) (n : Node) (hn : n.isLink = false)
    (hk : ∀ m, fs.node? k = some m → m.isLink = false)
    (hf : n.isFile = true ∨ ∀ m, fs.node? k = some m → m.isFile = false) :
    stable fs (fs.put k n) := by
  refine ⟨sameLinks_put fs k n hn hk, ?_⟩
  intro q m hq hm
  rw [node?_put]
  by_cases hc : Clean k = Clean q
  · rw [if_pos hc]
    rcases hf with hf | hf
    · exact ⟨n, rfl, hf⟩
    · rw [← node?_congr fs k q hc] at hq
      rw [hf m hq] at hm
      cases hm
  · rw [if_neg hc]
    exact ⟨m, hq, hm⟩

theorem stable_link (fs fs1 : FS) (path : GoString) (n : Node) (h : fs.link path n = .ok fs1)
    (hn : n.isLink = false) (hk : ∀ m, fs.node? path = some m → m.isLink = false)
    (hf : n.isFile = true ∨ ∀ m, fs.node? path = some m → m.isFile = false) :
    stable fs fs1 := by
  unfold FS.link at h
  cases hp : parentDir fs path with
  | error e => rw [hp] at h; cases h
  | ok r =>
    obtain ⟨t, names⟩ := r
    rw [hp] at h
    simp only [Except.ok.injEq] at h
    subst h
    have hd : ∀ m, fs.node? (Dir (Clean path)) = some m →
        m.isLink = false ∧ m.isFile = false := by
      intro m hm
      unfold parentDir at hp
      rw [hm] at hp
      cases m with
      | symlink t1 target => cases hp
      | file t1 d a => cases hp
      | dir t1 ns a => exact ⟨rfl, rfl⟩
      | special k t1 => cases hp
    refine stable_trans (stable_put fs _ (.dir _ _ _) rfl (fun m hm => (hd m hm).1)
      (Or.inr (fun m hm => (hd m hm).2))) (stable_put _ _ n hn ?_ ?_)
    · intro m hm
      rw [node?_put] at hm
      by_cases hc : Clean (Dir (Clean path)) = Clean path
      · rw [if_pos hc] at hm
        rw [← Option.some.inj hm]
        rfl
      · rw [if_neg hc] at hm
        exact hk m hm
    · rcases hf with hf | hf
      · exact Or.inl hf
      · right
        intro m hm
        rw [node?_put] at hm
        by_cases hc : Clean (Dir (Clean path)) = Clean path
        · rw [if_pos hc] at hm
          rw [← Option.some.inj hm]
          rfl
        · rw [if_neg hc] at hm
          exact hf m hm

theorem stable_Mkdir (fs fs1 : FS) (path : GoString) (h : Mkdir fs path = .ok fs1) :
    stable fs fs1 := by
  replace h := (Mkdir_found fs fs1 path h).2
  cases hn : fs.node? path with
  | some m => rw [hn] at h; cases h
  | none =>
    rw [hn] at h
    refine stable_link fs fs1 path _ h rfl ?_ (Or.inr ?_)
    · intro m hm
      rw [hn] at hm
      cases hm
    · intro m hm
      rw [hn] at hm
      cases hm

theorem stable_MkdirAllAux (fuel : Nat) (fs fs1 : FS) (path : GoString)
    (h : MkdirAllAux fuel fs path = .ok fs1) : stable fs fs1 := by
  induction fuel generalizing fs fs1 path with
  | zero => simp [MkdirAllAux] at h
  | succ fuel ih =>
    rw [MkdirAllAux] at h
    cases hs : Stat fs path with
    | ok info =>
      rw [hs] at h
      simp only at h
      by_cases hm : info.mode = .dir
      · rw [if_pos hm] at h
        rw [← Except.ok.inj h]
        exact stable_refl fs
      · rw [if_neg hm] at h
        cases h
    | error e =>
      rw [hs] at h
      simp only at h
      by_cases hd : Dir (Clean path) = Clean path
      · rw [if_pos hd] at h
        exact stable_Mkdir fs fs1 path h
      · rw [if_neg hd] at h
        cases hr : MkdirAllAux fuel fs (Dir (Clean path)) with
        | error e2 => rw [hr] at h; cases h
        | ok fs2 =>
          rw [hr] at h
          exact stable_trans (ih fs fs2 _ hr) (stable_Mkdir fs2 fs1 path h)

theorem stable_MkdirAll (fs fs1 : FS) (path : GoString) (h : MkdirAll fs path = .ok fs1) :
    stable fs fs1 :=
  stable_MkdirAllAux _ fs fs1 path h

theorem stable_write (fs : FS) (f text : GoString) : stable fs (fs.write f text) := by
  unfold FS.write
  cases hn : fs.node? f with
  | none => exact stable_refl fs
  | some m =>
    cases m with
    | file t d a =>
      refine stable_put fs f (.file _ _ _) rfl ?_ (Or.inl rfl)
      intro m hm
      rw [hn] at hm
      rw [← Option.some.inj hm]
      rfl
    | dir t ns a => exact stable_refl fs
    | symlink t target => exact stable_refl fs
    | special k t => exact stable_refl fs

theorem stable_Create (fs fs1 : FS) (path f : GoString) (h : Create fs path = .ok (fs1, f)) :
    stable fs fs1 := by
  replace h := (Create_found fs fs1 path f h).2
  cases hr : resolve MAXSYMLINKS fs path with
  | error e => rw [hr] at h; cases h
  | ok p =>
    rw [hr] at h
    simp only at h
    cases hn : fs.node? p with
    | none =>
      rw [hn] at h
      simp only at h
      cases hl : fs.link p (.file fs.now [] true) with
      | error e => rw [hl] at h; cases h
      | ok fs2 =>
        rw [hl] at h
        simp only [Except.ok.injEq, Prod.mk.injEq] at h
        rw [← h.1]
        refine stable_link fs fs2 p _ hl rfl ?_ (Or.inl rfl)
        intro m hm
        rw [hn] at hm
        cases hm
    | some m =>
      rw [hn] at h
      cases m with
      | symlink t1 target => cases h
      | dir t ns a => cases h
      | special k t => cases h
      | file t d a =>
        cases a with
        | false => cases h
        | true =>
          simp only [Except.ok.injEq, Prod.mk.injEq] at h
          rw [← h.1]
          refine stable_put fs p (.file _ _ _) rfl ?_ (Or.inl rfl)
          intro m hm
          rw [hn] at hm
          rw [← Option.some.inj hm]
          rfl

/-- A file that was created and written is a regular file at its path. -/
theorem regularAt_created (fs fs1 : FS) (path f text : GoString)
    (h : Create fs path = .ok (fs1, f)) : regularAt (fs1.write f text) path := by
  obtain ⟨hr, hn, hl, _⟩ := Create_ok fs fs1 path f h
  obtain ⟨hw, hl2⟩ := write_file fs1 f text [] fs.now true hn
  refine ⟨f, _, ?_, hw, rfl⟩
  rw [resolve_congr MAXSYMLINKS fs _ (sameLinks_trans hl hl2), hr]

/-! ## The files of the walker and of the copier of package `build` -/

theorem ModMap.get?_set_ne_none (m : ModMap) (k p : GoString) (v : Int) :
    (m.set k v).get? p ≠ none ↔ (m.get? p ≠ none ∨ p = k) := by
  by_cases h : k = p
  · subst h
    rw [ModMap.get?_set_self]
    simp
  · rw [ModMap.get?_set_ne m k p v h]
    constructor
    · intro hp
      exact Or.inl hp
    · intro hp
      rcases hp with hp | hp
      · exact hp
      · exact absurd hp.symm h

namespace build

/-- When the walker of package `build` returns no error, the paths of the new mapping are
those it had and the files of the list. -/
theorem dfsModLoop_keys (fs : FS) (srcs : List GoString) (bc : BuildCache)
    (h : (dfsModLoop fs srcs bc).1 = none) (p : GoString) :
    (dfsModLoop fs srcs bc).2.newMod.get? p ≠ none ↔ (bc.newMod.get? p ≠ none ∨ p ∈ srcs) := by
  induction srcs generalizing bc with
  | nil => simp [dfsModLoop]
  | cons src rest ih =>
    have step : ∀ t : Int,
        (dfsModLoop fs rest { bc with newMod := bc.newMod.set src t }).1 = none →
        ((dfsModLoop fs rest { bc with newMod := bc.newMod.set src t }).2.newMod.get? p ≠ none ↔
          (bc.newMod.get? p ≠ none ∨ p ∈ src :: rest)) := by
      intro t ht
      rw [ih _ ht]
      simp only [ModMap.get?_set_ne_none, List.mem_cons]
      tauto
    unfold dfsModLoop at h ⊢
    revert h
    cases Lstat fs src with
    | error e => intro h; cases h
    | ok info =>
      simp only
      by_cases hm : info.mode = .symlink
      · rw [if_pos hm]
        cases Readlink fs src with
        | error e => intro h; cases h
        | ok orig =>
          simp only
          cases Stat fs orig with
          | error e => intro h; cases h
          | ok f => exact step _
      · rw [if_neg hm]
        cases Stat fs src with
        | error e => intro h; cases h
        | ok f => exact step _

/-- The new mapping of the controller after `Cache` is the one that `dfsMod` leaves. -/
theorem Cache_keeps_newMod (bc : BuildCache) (fs : FS) :
    (bc.Cache fs).2.1.newMod = (bc.dfsMod fs).2.newMod := by
  unfold BuildCache.Cache
  simp only
  split
  · split
    · rfl
    · rw [refresh_state]
  · rw [refresh_state]

/-- The list of the copier: it holds the files of the packages, and whatever else it holds
is `go.sum` or the `go.mod` of a package. -/
theorem copyFiles_mem (c : BuildCache) (pkgs : List Package) (modFile : GoString)
    (acc srcs : List GoString) (h : copyFiles c pkgs modFile acc = some srcs) :
    (∀ p, p ∈ acc ∨ p ∈ (pkgs.map c.sourceFiles).flatten → p ∈ srcs) ∧
    (∀ p ∈ srcs, p ∈ acc ∨ p ∈ (pkgs.map c.sourceFiles).flatten ∨
      p = Join c.baseDir "go.sum".toList ∨
      ∃ pkg ∈ pkgs, ∃ m, pkg.Module = some m ∧ p = m.GoMod) := by
  induction pkgs generalizing modFile acc with
  | nil =>
    simp only [copyFiles, Option.some.injEq] at h
    subst h
    constructor
    · intro p hp
      rcases hp with hp | hp
      · exact hp
      · simp at hp
    · intro p hp
      exact Or.inl hp
  | cons pkg rest ih =>
    have hflat : ((pkg :: rest).map c.sourceFiles).flatten =
        c.sourceFiles pkg ++ (rest.map c.sourceFiles).flatten := by
      rw [List.map_cons, List.flatten_cons]
    rw [hflat]
    rw [copyFiles] at h
    by_cases hmf : modFile = []
    · rw [if_pos hmf] at h
      cases hmod : pkg.Module with
      | none => rw [hmod] at h; cases h
      | some m =>
        rw [hmod] at h
        obtain ⟨h1, h2⟩ := ih _ _ h
        constructor
        · intro p hp
          apply h1
          rcases hp with hp | hp
          · exact Or.inl (List.mem_append.2 (Or.inl (List.mem_append.2 (Or.inl hp))))
          · rcases List.mem_append.1 hp with hp | hp
            · exact Or.inl (List.mem_append.2 (Or.inr hp))
            · exact Or.inr hp
        · intro p hp
          rcases h2 p hp with h3 | h3 | h3 | h3
          · rcases List.mem_append.1 h3 with h4 | h4
            · rcases List.mem_append.1 h4 with h5 | h5
              · exact Or.inl h5
              · rcases List.mem_cons.1 h5 with h6 | h6
                · exact Or.inr (Or.inr (Or.inr ⟨pkg, List.mem_cons_self _ _, m, hmod, h6⟩))
                · rcases List.mem_cons.1 h6 with h7 | h7
                  · exact Or.inr (Or.inr (Or.inl h7))
                  · cases h7
            · exact Or.inr (Or.inl (List.mem_append.2 (Or.inl h4)))
          · exact Or.inr (Or.inl (List.mem_append.2 (Or.inr h3)))
          · exact Or.inr (Or.inr (Or.inl h3))
          · obtain ⟨q, hq, m1, hm1, hp1⟩ := h3
            exact Or.inr (Or.inr (Or.inr ⟨q, List.mem_cons_of_mem _ hq, m1, hm1, hp1⟩))
    · rw [if_neg hmf] at h
      obtain ⟨h1, h2⟩ := ih _ _ h
      constructor
      · intro p hp
        apply h1
        rcases hp with hp | hp
        · exact Or.inl (List.mem_append.2 (Or.inl hp))
        · rcases List.mem_append.1 hp with hp | hp
          · exact Or.inl (List.mem_append.2 (Or.inr hp))
          · exact Or.inr hp
      · intro p hp
        rcases h2 p hp with h3 | h3 | h3 | h3
        · rcases List.mem_append.1 h3 with h4 | h4
          · exact Or.inl h4
          · exact Or.inr (Or.inl (List.mem_append.2 (Or.inl h4)))
        · exact Or.inr (Or.inl (List.mem_append.2 (Or.inr h3)))
        · exact Or.inr (Or.inr (Or.inl h3))
        · obtain ⟨q, hq, m1, hm1, hp1⟩ := h3
          exact Or.inr (Or.inr (Or.inr ⟨q, List.mem_cons_of_mem _ hq, m1, hm1, hp1⟩))

theorem copyFiles_congr (c c1 : BuildCache) (hb : c1.baseDir = c.baseDir)
    (pkgs : List Package) (modFile : GoString) (acc : List GoString) :
    copyFiles c1 pkgs modFile acc = copyFiles c pkgs modFile acc := by
  induction pkgs generalizing modFile acc with
  | nil => rfl
  | cons pkg rest ih =>
    rw [copyFiles, copyFiles, hb]
    by_cases hmf : modFile = []
    · rw [if_pos hmf, if_pos hmf]
      cases pkg.Module with
      | none => rfl
      | some m => exact ih _ _
    · rw [if_neg hmf, if_neg hmf]
      exact ih _ _

theorem dfsCopyLoop_congr (c c1 : BuildCache) (hb : c1.baseDir = c.baseDir)
    (hc : c1.cacheDir = c.cacheDir) (srcs : List GoString) (fs : FS) :
    dfsCopyLoop c1 srcs fs = dfsCopyLoop c srcs fs := by
  induction srcs generalizing fs with
  | nil => rfl
  | cons src rest ih =>
    have hg : c1.GetCacheDir = c.GetCacheDir := by
      unfold BuildCache.GetCacheDir
      rw [hc]
    rw [dfsCopyLoop, dfsCopyLoop, hb, hg]
    cases Rel c.baseDir src with
    | none => rfl
    | some rel =>
      simp only
      cases MkdirAll fs (Dir (Join c.GetCacheDir rel)) with
      | error e => rfl
      | ok fs1 =>
        simp only
        cases Create fs1 (Join c.GetCacheDir rel) with
        | error e => rfl
        | ok r =>
          obtain ⟨fs2, f⟩ := r
          simp only
          cases Open fs2 src with
          | error e => rfl
          | ok s =>
            simp only
            cases readAll fs2 s with
            | error e => rfl
            | ok data => exact ih _

theorem dfsCopy_congr (c c1 : BuildCache) (hp : c1.pkgs = c.pkgs)
    (hb : c1.baseDir = c.baseDir) (hc : c1.cacheDir = c.cacheDir) (fs : FS) :
    c1.dfsCopy fs = c.dfsCopy fs := by
  unfold BuildCache.dfsCopy
  rw [hp, copyFiles_congr c c1 hb]
  cases copyFiles c c.pkgs [] [] with
  | none => rfl
  | some srcs => exact dfsCopyLoop_congr c c1 hb hc srcs fs

/-- The copier keeps the links and the files that are there. -/
theorem dfsCopyLoop_stable (c : BuildCache) (srcs : List GoString) (fs fs1 : FS) (o : Outcome)
    (h : dfsCopyLoop c srcs fs = (o, fs1)) : stable fs fs1 := by
  induction srcs generalizing fs with
  | nil =>
    simp only [dfsCopyLoop, Prod.mk.injEq] at h
    rw [← h.2]
    exact stable_refl fs
  | cons src rest ih =>
    rw [dfsCopyLoop] at h
    cases hrel : Rel c.baseDir src with
    | none =>
      rw [hrel] at h
      simp only [Prod.mk.injEq] at h
      rw [← h.2]
      exact stable_refl fs
    | some rel =>
      rw [hrel] at h
      simp only at h
      cases hmk : MkdirAll fs (Dir (Join c.GetCacheDir rel)) with
      | error e =>
        rw [hmk] at h
        simp only [Prod.mk.injEq] at h
        rw [← h.2]
        exact stable_refl fs
      | ok fsA =>
        rw [hmk] at h
        simp only at h
        have sA := stable_MkdirAll fs fsA _ hmk
        cases hcr : Create fsA (Join c.GetCacheDir rel) with
        | error e =>
          rw [hcr] at h
          simp only [Prod.mk.injEq] at h
          rw [← h.2]
          exact sA
        | ok r =>
          obtain ⟨fsB, f⟩ := r
          rw [hcr] at h
          simp only at h
          have sB := stable_trans sA (stable_Create fsA fsB _ f hcr)
          cases hop : Open fsB src with
          | error e =>
            rw [hop] at h
            simp only [Prod.mk.injEq] at h
            rw [← h.2]
            exact sB
          | ok s =>
            rw [hop] at h
            simp only at h
            cases hrd : readAll fsB s with
            | error e =>
              rw [hrd] at h
              simp only [Prod.mk.injEq] at h
              rw [← h.2]
              exact sB
            | ok data =>
              rw [hrd] at h
              simp only at h
              exact stable_trans (stable_trans sB (stable_write fsB f data)) (ih _ h)

/-- When the copier returns nil, a regular file stands under the storage directory at the
place of each file of its list. -/
theorem dfsCopyLoop_copied (c : BuildCache) (srcs : List GoString) (fs fs1 : FS)
    (h : dfsCopyLoop c srcs fs = (.nil, fs1)) :
    ∀ p ∈ srcs, ∃ rel, Rel c.baseDir p = some rel ∧
      regularAt fs1 (Join c.GetCacheDir rel) := by
  induction srcs generalizing fs with
  | nil => simp
  | cons src rest ih =>
    rw [dfsCopyLoop] at h
    cases hrel : Rel c.baseDir src with
    | none => rw [hrel] at h; cases h
    | some rel =>
      rw [hrel] at h
      simp only at h
      cases hmk : MkdirAll fs (Dir (Join c.GetCacheDir rel)) with
      | error e => rw [hmk] at h; cases h
      | ok fsA =>
        rw [hmk] at h
        simp only at h
        cases hcr : Create fsA (Join c.GetCacheDir rel) with
        | error e => rw [hcr] at h; cases h
        | ok r =>
          obtain ⟨fsB, f⟩ := r
          rw [hcr] at h
          simp only at h
          cases hop : Open fsB src with
          | error e => rw [hop] at h; cases h
          | ok s =>
            rw [hop] at h
            simp only at h
            cases hrd : readAll fsB s with
            | error e => rw [hrd] at h; cases h
            | ok data =>
              rw [hrd] at h
              simp only at h
              intro p hp
              rcases List.mem_cons.1 hp with hp | hp
              · subst hp
                exact ⟨rel, hrel, regularAt_stable _ _ _ (dfsCopyLoop_stable c rest _ fs1 _ h)
                  (regularAt_created fsA fsB _ f data hcr)⟩
              · exact ih _ h p hp

theorem saveCache_stable (c : BuildCache) (fs : FS) : stable fs (c.saveCache fs).2 := by
  unfold BuildCache.saveCache
  cases hcr : Create fs c.cacheDigestFile with
  | error e => exact stable_refl fs
  | ok r =>
    obtain ⟨fs1, f⟩ := r
    exact stable_trans (stable_Create fs fs1 _ f hcr) (stable_write fs1 f _)

/-- The filesystem that a refresh leaves when the storage directory could be removed and
the copier returned nil: the one that `saveCache` leaves after the copy. -/
theorem refresh_of_copy (c : BuildCache) (fs fs1 fs3 : FS)
    (hrm : RemoveAll fs c.GetCacheDir = .ok fs1)
    (hcopy : c.dfsCopy (match MkdirAll fs1 c.GetCacheDir with
      | .ok fs2 => fs2
      | .error _ => fs1) = (.nil, fs3)) :
    (c.refresh fs).2.2 = (c.saveCache fs3).2 := by
  unfold BuildCache.refresh
  simp only [hrm, hcopy]

end build

namespace build

/-- When `Cache` refreshes, it is the refresh of a controller with the packages and the
directories of the one it was called on. -/
theorem Cache_refresh (bc : BuildCache) (fs : FS)
    (h : (bc.dfsMod fs).2.isCacheNeedsRefresh = true ∨
      DeepEqual (bc.dfsMod fs).2.newMod (bc.dfsMod fs).2.oldMod = false) :
    ∃ c : BuildCache, c.pkgs = bc.pkgs ∧ c.baseDir = bc.baseDir ∧ c.cacheDir = bc.cacheDir ∧
      bc.Cache fs = c.refresh fs := by
  obtain ⟨_, _, hb, hc, _, _, hp⟩ := dfsMod_sameBut bc fs
  cases hflag : (bc.dfsMod fs).2.isCacheNeedsRefresh with
  | true => exact ⟨(bc.dfsMod fs).2, hp, hb, hc, Cache_of_flag bc fs hflag⟩
  | false =>
    have hne : DeepEqual (bc.dfsMod fs).2.newMod (bc.dfsMod fs).2.oldMod = false := by
      rcases h with h | h
      · rw [hflag] at h
        cases h
      · exact h
    refine ⟨{ (bc.dfsMod fs).2 with isCacheNeedsRefresh := true }, hp, hb, hc, ?_⟩
    unfold BuildCache.Cache
    simp only [hflag, hne, Bool.not_false, if_true, Bool.false_eq_true, if_false]

end build

/-- What the walker and the copier of package `build` have in common, for a walk and a
copy without error: when `dfsMod` returns no error on a controller whose new mapping is empty,
`Cache` refreshes, the storage directory can be removed and `dfsCopy` returns nil, then the
paths of the new digest mapping are the source files of the packages; the list of the
copier holds these files, and whatever else it holds is `go.sum` or the `go.mod` of a
package; and after `Cache` a regular file stands under the storage directory at the place
of every file of that list. -/
theorem refresh_copies_walked_files (bc : build.BuildCache) (fs fs1 fs3 : FS)
    (hnew : bc.newMod = [])
    (hmod : (bc.dfsMod fs).1 = none)
    (hrefresh : (bc.dfsMod fs).2.isCacheNeedsRefresh = true ∨
      DeepEqual (bc.dfsMod fs).2.newMod (bc.dfsMod fs).2.oldMod = false)
    (hrm : RemoveAll fs bc.GetCacheDir = .ok fs1)
    (hcopy : bc.dfsCopy (match MkdirAll fs1 bc.GetCacheDir with
      | .ok fs2 => fs2
      | .error _ => fs1) = (.nil, fs3)) :
    (∀ p, (bc.Cache fs).2.1.newMod.get? p ≠ none ↔ p ∈ bc.modFiles) ∧
    ∃ srcs, build.copyFiles bc bc.pkgs [] [] = some srcs ∧
      (∀ p ∈ bc.modFiles, p ∈ srcs) ∧
      (∀ p ∈ srcs, p ∈ bc.modFiles ∨ p = Join bc.baseDir "go.sum".toList ∨
        ∃ pkg ∈ bc.pkgs, ∃ m, pkg.Module = some m ∧ p = m.GoMod) ∧
      ∀ p ∈ srcs, ∃ rel, Rel bc.baseDir p = some rel ∧
        regularAt (bc.Cache fs).2.2 (Join bc.GetCacheDir rel) := by
  constructor
  · intro p
    rw [build.Cache_keeps_newMod]
    have := build.dfsModLoop_keys fs bc.modFiles bc hmod p
    rw [hnew] at this
    simpa [ModMap.get?, build.BuildCache.dfsMod] using this
  · obtain ⟨c, hp, hb, hc, hcache⟩ := build.Cache_refresh bc fs hrefresh
    have hg : c.GetCacheDir = bc.GetCacheDir := by
      unfold build.BuildCache.GetCacheDir
      rw [hc]
    have hfs : (bc.Cache fs).2.2 = (c.saveCache fs3).2 := by
      rw [hcache]
      refine build.refresh_of_copy c fs fs1 fs3 (by rw [hg]; exact hrm) ?_
      rw [build.dfsCopy_congr bc c hp hb hc, hg]
      exact hcopy
    unfold build.BuildCache.dfsCopy at hcopy
    cases hlist : build.copyFiles bc bc.pkgs [] [] with
    | none =>
      rw [hlist] at hcopy
      cases hcopy
    | some srcs =>
      rw [hlist] at hcopy
      obtain ⟨h1, h2⟩ := build.copyFiles_mem bc bc.pkgs [] [] srcs hlist
      refine ⟨srcs, rfl, fun p hp => h1 p (Or.inr hp), ?_, ?_⟩
      · intro p hp
        rcases h2 p hp with h | h | h | h
        · cases h
        · exact Or.inl h
        · exact Or.inr (Or.inl h)
        · exact Or.inr (Or.inr h)
      · intro p hp
        obtain ⟨rel, hrel, hreg⟩ := build.dfsCopyLoop_copied bc srcs _ fs3 hcopy p hp
        refine ⟨rel, hrel, ?_⟩
        rw [hfs]
        exact regularAt_stable _ _ _ (build.saveCache_stable c fs3) hreg

/-- On the project `/p`, with no digest file, the new mapping has the paths of `a.go` and
of the link `l`, and the list of the copier has `go.mod` and `go.sum` in front of them. -/
theorem refresh_copies_walked_files_example :
    build.NewBuildCache exEnv exFS "/p".toList [.WithPackage [exPkg]] = .ok exBuildCold ∧
    build.copyFiles exBuildCold exBuildCold.pkgs [] [] =
      some ["/p/go.mod".toList, "/p/go.sum".toList, "/p/a.go".toList, "/p/l".toList] ∧
    ((∀ p, (exBuildCold.Cache exFS).2.1.newMod.get? p ≠ none ↔ p ∈ exBuildCold.modFiles) ∧
      ∃ srcs, build.copyFiles exBuildCold exBuildCold.pkgs [] [] = some srcs ∧
        (∀ p ∈ exBuildCold.modFiles, p ∈ srcs) ∧
        (∀ p ∈ srcs, p ∈ exBuildCold.modFiles ∨ p = Join exBuildCold.baseDir "go.sum".toList ∨
          ∃ pkg ∈ exBuildCold.pkgs, ∃ m, pkg.Module = some m ∧ p = m.GoMod) ∧
        ∀ p ∈ srcs, ∃ rel, Rel exBuildCold.baseDir p = some rel ∧
          regularAt (exBuildCold.Cache exFS).2.2 (Join exBuildCold.GetCacheDir rel)) :=
  ⟨rfl, by decide,
    refresh_copies_walked_files exBuildCold exFS exFS
      (exBuildCold.dfsCopy (match MkdirAll exFS exBuildCold.GetCacheDir with
        | .ok fs2 => fs2
        | .error _ => exFS)).2
      rfl (by decide) (Or.inl (by decide)) rfl (Prod.ext (by decide) rfl)⟩

/-! ## Paths of names -/

theorem renderPath_true (elems : List GoString) : renderPath true elems = rootedPath elems := by
  simp [renderPath, rootedPath]

theorem pathForm_simple (elems : List GoString) (h : ∀ c ∈ elems, simpleName c = true) :
    pathForm true elems :=
  ⟨0, elems, h, by simp, fun _ => rfl⟩

/-- An absolute path of names is in cleaned form. -/
theorem Clean_rootedPath (elems : List GoString) (h : ∀ c ∈ elems, simpleName c = true) :
    Clean (rootedPath elems) = rootedPath elems := by
  rw [← renderPath_true]
  exact Clean_renderPath true elems (pathForm_simple elems h)

theorem rootedPath_snoc (elems : List GoString) (n : GoString) :
    rootedPath (elems ++ [n]) =
      (if elems = [] then [] else rootedPath elems) ++ '/' :: n := by
  unfold rootedPath
  by_cases he : elems = []
  · subst he
    simp [joinWith]
  · rw [if_neg he, joinWith_append '/' elems [n] he (by simp)]
    simp [joinWith]

theorem dirPart_append (x n : GoString) (hn : '/' ∉ n) :
    dirPart (x ++ '/' :: n) = x ++ ['/'] := by
  unfold dirPart
  have h1 : (x ++ '/' :: n).reverse = n.reverse ++ '/' :: x.reverse := by simp
  rw [h1]
  have h2 : (n.reverse ++ '/' :: x.reverse).dropWhile (fun c => c ≠ '/') =
      '/' :: x.reverse := by
    rw [List.dropWhile_append_of_pos]
    · simp [List.dropWhile]
    · intro c hc
      have : c ≠ '/' := fun hc1 => hn (by rw [← hc1]; exact List.mem_reverse.1 hc)
      simpa using this
  rw [h2]
  simp

theorem baseName_append (x n : GoString) (hn : '/' ∉ n)
    (hc : Clean (x ++ '/' :: n) = x ++ '/' :: n) : baseName (x ++ '/' :: n) = n := by
  unfold baseName
  rw [hc]
  have h1 : (x ++ '/' :: n).reverse = n.reverse ++ '/' :: x.reverse := by simp
  rw [h1]
  have h2 : (n.reverse ++ '/' :: x.reverse).takeWhile (fun c => c ≠ '/') = n.reverse := by
    rw [List.takeWhile_append_of_pos]
    · simp [List.takeWhile]
    · intro c hc
      have : c ≠ '/' := fun hc1 => hn (by rw [← hc1]; exact List.mem_reverse.1 hc)
      simpa using this
  rw [h2]
  simp

/-- A `/` at the end of a path does not change what `filepath.Clean` gives. -/
theorem Clean_append_sep (x : GoString) (hx : x ≠ []) : Clean (x ++ ['/']) = Clean x := by
  have hne : x ++ ['/'] ≠ [] := by simp
  have habs : IsAbs (x ++ ['/']) = IsAbs x := by
    cases x with
    | nil => exact absurd rfl hx
    | cons c rest =>
      by_cases hc : c = '/'
      · subst hc
        rfl
      · simp [IsAbs, hc]
  rw [Clean_eq_renderPath _ hne, Clean_eq_renderPath _ hx, habs]
  have hs : splitOn '/' (x ++ ['/']) = splitOn '/' x ++ [[]] := by
    have := splitOn_append_sep '/' x []
    simpa [splitOn] using this
  rw [hs, List.foldl_append]
  simp [cleanStep]

/-- The directory of an absolute path of names is the path of the names before the last
one. -/
theorem Dir_rootedPath_snoc (elems : List GoString) (n : GoString)
    (h : ∀ c ∈ elems, simpleName c = true) (hn : simpleName n = true) :
    Dir (rootedPath (elems ++ [n])) = rootedPath elems := by
  have hn1 := ((simpleName_iff n).1 hn).2.1
  unfold Dir
  rw [rootedPath_snoc, dirPart_append _ n hn1]
  by_cases he : elems = []
  · subst he
    rfl
  · rw [if_neg he, Clean_append_sep _ (by simp [rootedPath])]
    exact Clean_rootedPath elems h

/-- The last element of an absolute path of names is its last name. -/
theorem baseName_rootedPath_snoc (elems : List GoString) (n : GoString)
    (h : ∀ c ∈ elems, simpleName c = true) (hn : simpleName n = true) :
    baseName (rootedPath (elems ++ [n])) = n := by
  have hn1 := ((simpleName_iff n).1 hn).2.1
  have hall : ∀ c ∈ elems ++ [n], simpleName c = true := by
    intro c hc
    rcases List.mem_append.1 hc with h1 | h1
    · exact h c h1
    · rw [List.mem_singleton.1 h1]
      exact hn
  have hc := Clean_rootedPath (elems ++ [n]) hall
  rw [rootedPath_snoc] at hc ⊢
  exact baseName_append _ n hn1 hc

theorem simple_append {a b : List GoString} (ha : ∀ c ∈ a, simpleName c = true)
    (hb : ∀ c ∈ b, simpleName c = true) : ∀ c ∈ a ++ b, simpleName c = true := by
  intro c hc
  rcases List.mem_append.1 hc with h | h
  · exact ha c h
  · exact hb c h

theorem simple_of_initial {a b : List GoString} (h : a <+: b)
    (hb : ∀ c ∈ b, simpleName c = true) : ∀ c ∈ a, simpleName c = true :=
  fun c hc => hb c (h.subset hc)

/-! ## Trees without links under the calls that write -/

theorem plain_iff (fs : FS) : fs.plain ↔ ∀ e ∈ fs.nodes, e.2.plain = true := by
  unfold FS.plain FS.noSymlink FS.simpleNames
  simp only [List.all_eq_true]
  constructor
  · rintro ⟨h1, h2⟩ e he
    have a := h1 e he
    have b := h2 e he
    cases hn : e.2 with
    | symlink t target => rw [hn] at a; cases a
    | dir t names acc => rw [hn] at b; exact b
    | file t d acc => rfl
    | special k t => rfl
  · intro h
    constructor
    · intro e he
      have a := h e he
      cases hn : e.2 with
      | symlink t target => rw [hn] at a; cases a
      | dir t names acc => rfl
      | file t d acc => rfl
      | special k t => rfl
    · intro e he
      have a := h e he
      cases hn : e.2 with
      | symlink t target => rfl
      | dir t names acc => rw [hn] at a; exact a
      | file t d acc => rfl
      | special k t => rfl

theorem plain_node (fs : FS) (h : fs.plain) (q : GoString) (n : Node)
    (hq : fs.node? q = some n) : n.plain = true := by
  obtain ⟨e, he, hen⟩ := lookupNode_mem fs.nodes _ n hq
  rw [← hen]
  exact (plain_iff fs).1 h e he

theorem plain_put (fs : FS) (k : GoString) (n : Node) (h : fs.plain) (hn : n.plain = true) :
    (fs.put k n).plain := by
  rw [plain_iff] at h ⊢
  intro e he
  unfold FS.put at he
  rcases List.mem_cons.1 he with h1 | h1
  · rw [h1]
    exact hn
  · exact h e (List.mem_filter.1 h1).1

/-- In a tree without links every path is the end of its own links. -/
theorem resolve_plain (fuel : Nat) (fs : FS) (h : fs.plain) (p : GoString) :
    resolve fuel fs p = .ok p := by
  have hno : ∀ t target, fs.node? p ≠ some (.symlink t target) := by
    intro t target hq
    have := plain_node fs h p _ hq
    cases this
  cases fuel with
  | zero =>
    unfold resolve
    cases hn : fs.node? p with
    | none => rfl
    | some n =>
      cases n with
      | symlink t target => exact absurd hn (hno t target)
      | dir t names acc => rfl
      | file t d acc => rfl
      | special k t => rfl
  | succ fuel =>
    unfold resolve
    cases hn : fs.node? p with
    | none => rfl
    | some n =>
      cases n with
      | symlink t target => exact absurd hn (hno t target)
      | dir t names acc => rfl
      | file t d acc => rfl
      | special k t => rfl

theorem node?_put_of_ne (fs : FS) (k q : GoString) (n : Node) (h : Clean q ≠ Clean k) :
    (fs.put k n).node? q = fs.node? q := by
  rw [node?_put, if_neg (fun hc => h hc.symm)]

theorem parentDir_ok (fs : FS) (path : GoString) (t : Int) (names : List GoString)
    (h : parentDir fs path = .ok (t, names)) :
    fs.node? (Dir (Clean path)) = some (.dir t names true) := by
  unfold parentDir at h
  cases hn : fs.node? (Dir (Clean path)) with
  | none => rw [hn] at h; cases h
  | some n =>
    rw [hn] at h
    cases n with
    | symlink t1 target => cases h
    | file t1 d a => cases h
    | special k t1 => cases h
    | dir t1 ns a =>
      cases a with
      | false => cases h
      | true =>
        simp only [Except.ok.injEq, Prod.mk.injEq] at h
        rw [h.1, h.2]

theorem Dir_root : Dir (Clean ['/']) = ['/'] := by decide

/-- No entry can be put in the place of the root. -/
theorem link_root (fs : FS) (node : Node) (hroot : fs.node? ['/'] = none) :
    ∀ fs1, fs.link ['/'] node ≠ .ok fs1 := by
  intro fs1 h
  unfold FS.link at h
  cases hp : parentDir fs ['/'] with
  | error e => rw [hp] at h; cases h
  | ok r =>
    obtain ⟨t, names⟩ := r
    have := parentDir_ok fs _ t names hp
    rw [Dir_root, hroot] at this
    cases this

/-- A new entry under an absolute path of names changes the entry itself and the directory
that holds it, and keeps a tree without links one. -/
theorem link_plain_frame (fs fs1 : FS) (el : List GoString) (n0 : GoString) (node : Node)
    (hel : ∀ c ∈ el, simpleName c = true) (hn0 : simpleName n0 = true)
    (hnode : node.plain = true) (h : fs.plain)
    (hl : fs.link (rootedPath (el ++ [n0])) node = .ok fs1) :
    fs1.plain ∧ ∀ q, fs1.node? q ≠ fs.node? q →
      Clean q = rootedPath (el ++ [n0]) ∨ Clean q = rootedPath el := by
  have hall : ∀ c ∈ el ++ [n0], simpleName c = true :=
    simple_append hel (fun c hc => by rw [List.mem_singleton.1 hc]; exact hn0)
  have hclean := Clean_rootedPath (el ++ [n0]) hall
  have hdir : Dir (Clean (rootedPath (el ++ [n0]))) = rootedPath el := by
    rw [hclean]
    exact Dir_rootedPath_snoc el n0 hel hn0
  unfold FS.link at hl
  cases hp : parentDir fs (rootedPath (el ++ [n0])) with
  | error e => rw [hp] at hl; cases hl
  | ok r =>
    obtain ⟨t, names⟩ := r
    have hpar := parentDir_ok fs _ t names hp
    rw [hp] at hl
    simp only [Except.ok.injEq] at hl
    rw [hdir] at hl hpar
    have hnames : names.all simpleName = true := plain_node fs h _ _ hpar
    rw [baseName_rootedPath_snoc el n0 hel hn0] at hl
    rw [← hl]
    constructor
    · apply plain_put _ _ _ _ hnode
      apply plain_put _ _ _ h
      show (if n0 ∈ names then names else names ++ [n0]).all simpleName = true
      by_cases hm : n0 ∈ names
      · rw [if_pos hm]
        exact hnames
      · rw [if_neg hm, List.all_append, hnames]
        simp [hn0]
    · intro q hq
      by_cases h1 : Clean q = rootedPath (el ++ [n0])
      · exact Or.inl h1
      · by_cases h2 : Clean q = rootedPath el
        · exact Or.inr h2
        · exfalso
          apply hq
          rw [node?_put_of_ne _ _ _ _ (by rw [hclean]; exact h1),
            node?_put_of_ne _ _ _ _ (by rw [Clean_rootedPath el hel]; exact h2)]

theorem eq_nil_or_snoc (el : List GoString) : el = [] ∨ ∃ x n0, el = x ++ [n0] := by
  rcases List.eq_nil_or_concat el with h | ⟨x, n0, h⟩
  · exact Or.inl h
  · exact Or.inr ⟨x, n0, by rw [h, List.concat_eq_append]⟩

/-- What `os.Mkdir` of an absolute path of names changes. -/
theorem Mkdir_plain_frame (fs fs1 : FS) (el : List GoString)
    (hel : ∀ c ∈ el, simpleName c = true) (h : fs.plain)
    (hm : Mkdir fs (rootedPath el) = .ok fs1) :
    fs1.plain ∧ ∀ q, fs1.node? q ≠ fs.node? q → ∃ pre, pre <+: el ∧ Clean q = rootedPath pre := by
  replace hm := (Mkdir_found fs fs1 _ hm).2
  cases hn : fs.node? (rootedPath el) with
  | some m => rw [hn] at hm; cases hm
  | none =>
    rw [hn] at hm
    simp only at hm
    rcases eq_nil_or_snoc el with he | ⟨x, n0, he⟩
    · subst he
      exact absurd hm (link_root fs _ hn fs1)
    · subst he
      have hx : ∀ c ∈ x, simpleName c = true := fun c hc => hel c (by simp [hc])
      have hn0 : simpleName n0 = true := hel n0 (by simp)
      obtain ⟨hp, hf⟩ := link_plain_frame fs fs1 x n0 (.dir fs.now [] true) hx hn0 rfl h hm
      refine ⟨hp, ?_⟩
      intro q hq
      rcases hf q hq with h1 | h1
      · exact ⟨_, List.prefix_refl _, h1⟩
      · exact ⟨x, List.prefix_append x [n0], h1⟩

/-- What `os.MkdirAll` of an absolute path of names changes: directories on the way to
it. -/
theorem MkdirAllAux_plain_frame (fuel : Nat) (fs fs1 : FS) (el : List GoString)
    (hel : ∀ c ∈ el, simpleName c = true) (h : fs.plain)
    (hm : MkdirAllAux fuel fs (rootedPath el) = .ok fs1) :
    fs1.plain ∧ ∀ q, fs1.node? q ≠ fs.node? q → ∃ pre, pre <+: el ∧ Clean q = rootedPath pre := by
  induction fuel generalizing el fs1 with
  | zero =>
    unfold MkdirAllAux at hm
    cases hm
  | succ fuel ih =>
    unfold MkdirAllAux at hm
    cases hs : Stat fs (rootedPath el) with
    | ok info =>
      rw [hs] at hm
      simp only at hm
      by_cases hd : info.mode = .dir
      · rw [if_pos hd] at hm
        cases hm
        exact ⟨h, fun q hq => absurd rfl hq⟩
      · rw [if_neg hd] at hm
        cases hm
    | error e =>
      rw [hs] at hm
      simp only at hm
      rcases eq_nil_or_snoc el with he | ⟨x, n0, he⟩
      · subst he
        have hroot : Dir (Clean (rootedPath [])) = Clean (rootedPath []) := by decide
        rw [if_pos hroot] at hm
        exact Mkdir_plain_frame fs fs1 [] hel h hm
      · subst he
        have hx : ∀ c ∈ x, simpleName c = true := fun c hc => hel c (by simp [hc])
        have hn0 : simpleName n0 = true := hel n0 (by simp)
        have hclean := Clean_rootedPath (x ++ [n0]) hel
        have hdir : Dir (Clean (rootedPath (x ++ [n0]))) = rootedPath x := by
          rw [hclean]
          exact Dir_rootedPath_snoc x n0 hx hn0
        have hne : Dir (Clean (rootedPath (x ++ [n0]))) ≠ Clean (rootedPath (x ++ [n0])) := by
          rw [hdir, hclean]
          intro heq
          have := rootedPath_injective _ _ hx hel heq
          have hlen := congrArg List.length this
          simp at hlen
        rw [if_neg hne, hdir] at hm
        cases hr : MkdirAllAux fuel fs (rootedPath x) with
        | error e1 => rw [hr] at hm; cases hm
        | ok fs2 =>
          rw [hr] at hm
          simp only at hm
          obtain ⟨hp2, hf2⟩ := ih fs2 x hx hr
          obtain ⟨hp1, hf1⟩ := Mkdir_plain_frame fs2 fs1 _ hel hp2 hm
          refine ⟨hp1, ?_⟩
          intro q hq
          by_cases hq2 : fs2.node? q = fs.node? q
          · rw [← hq2] at hq
            exact hf1 q hq
          · obtain ⟨pre, hpre, hc⟩ := hf2 q hq2
            exact ⟨pre, hpre.trans (List.prefix_append x [n0]), hc⟩

/-- What `os.Create` of an absolute path of names changes in a tree without links: the
file and the directory that holds it. -/
theorem Create_plain_frame (fs fs1 : FS) (el : List GoString) (f : GoString)
    (hel : ∀ c ∈ el, simpleName c = true) (h : fs.plain)
    (hc : Create fs (rootedPath el) = .ok (fs1, f)) :
    f = rootedPath el ∧ fs1.plain ∧
      (∃ t d a, fs1.node? f = some (.file t d a)) ∧
      ∀ q, fs1.node? q ≠ fs.node? q → ∃ pre, pre <+: el ∧ Clean q = rootedPath pre := by
  replace hc := (Create_found fs fs1 _ f hc).2
  rw [resolve_plain MAXSYMLINKS fs h] at hc
  simp only at hc
  have hclean := Clean_rootedPath el hel
  cases hn : fs.node? (rootedPath el) with
  | none =>
    rw [hn] at hc
    simp only at hc
    cases hl : fs.link (rootedPath el) (.file fs.now [] true) with
    | error e => rw [hl] at hc; cases hc
    | ok fs2 =>
      rw [hl] at hc
      simp only [Except.ok.injEq, Prod.mk.injEq] at hc
      obtain ⟨h1, h2⟩ := hc
      subst h1 h2
      rcases eq_nil_or_snoc el with he | ⟨x, n0, he⟩
      · subst he
        exact absurd hl (link_root fs _ hn fs2)
      · subst he
        have hx : ∀ c ∈ x, simpleName c = true := fun c hc => hel c (by simp [hc])
        have hn0 : simpleName n0 = true := hel n0 (by simp)
        obtain ⟨hp, hf⟩ := link_plain_frame fs fs2 x n0 (.file fs.now [] true) hx hn0 rfl h hl
        refine ⟨rfl, hp, ?_, ?_⟩
        · unfold FS.link at hl
          cases hp1 : parentDir fs (rootedPath (x ++ [n0])) with
          | error e => rw [hp1] at hl; cases hl
          | ok r =>
            rw [hp1] at hl
            simp only [Except.ok.injEq] at hl
            rw [← hl, node?_put, if_pos rfl]
            exact ⟨_, _, _, rfl⟩
        · intro q hq
          rcases hf q hq with h1 | h1
          · exact ⟨_, List.prefix_refl _, h1⟩
          · exact ⟨x, List.prefix_append x [n0], h1⟩
  | some m =>
    rw [hn] at hc
    cases m with
    | symlink t1 target => cases hc
    | dir t ns a => cases hc
    | special k t => cases hc
    | file t d a =>
      cases a with
      | false => cases hc
      | true =>
        simp only [Except.ok.injEq, Prod.mk.injEq] at hc
        obtain ⟨h1, h2⟩ := hc
        subst h1 h2
        refine ⟨rfl, plain_put _ _ _ h rfl, ?_, ?_⟩
        · rw [node?_put, if_pos rfl]
          exact ⟨_, _, _, rfl⟩
        · intro q hq
          refine ⟨el, List.prefix_refl _, ?_⟩
          by_contra hne
          apply hq
          exact node?_put_of_ne _ _ _ _ (by rw [hclean]; exact hne)

/-- What a write to an opened file changes: the file. -/
theorem write_plain_frame (fs : FS) (f data : GoString) (h : fs.plain) :
    (fs.write f data).plain ∧
      ∀ q, (fs.write f data).node? q ≠ fs.node? q → Clean q = Clean f := by
  unfold FS.write
  cases hn : fs.node? f with
  | none => exact ⟨h, fun q hq => absurd rfl hq⟩
  | some m =>
    cases m with
    | symlink t1 target => exact ⟨h, fun q hq => absurd rfl hq⟩
    | dir t ns a => exact ⟨h, fun q hq => absurd rfl hq⟩
    | special k t => exact ⟨h, fun q hq => absurd rfl hq⟩
    | file t d a =>
      refine ⟨plain_put _ _ _ h rfl, ?_⟩
      intro q hq
      by_contra hne
      apply hq
      exact node?_put_of_ne _ _ _ _ hne

/-! ## The copier and the skip set -/

theorem node?_changed_trans {a b c : FS} {q : GoString} (h : c.node? q ≠ a.node? q) :
    b.node? q ≠ a.node? q ∨ c.node? q ≠ b.node? q := by
  by_cases h1 : b.node? q = a.node? q
  · right
    rw [h1]
    exact h
  · exact Or.inl h1

theorem Dir_rootedPath (el : List GoString) (hel : ∀ c ∈ el, simpleName c = true) :
    ∃ pre, pre <+: el ∧ (∀ c ∈ pre, simpleName c = true) ∧
      Dir (rootedPath el) = rootedPath pre := by
  rcases eq_nil_or_snoc el with he | ⟨x, n0, he⟩
  · subst he
    exact ⟨[], List.prefix_refl _, hel, by decide⟩
  · subst he
    have hx : ∀ c ∈ x, simpleName c = true := fun c hc => hel c (by simp [hc])
    exact ⟨x, List.prefix_append x [n0], hx, Dir_rootedPath_snoc x n0 hx (hel n0 (by simp))⟩

namespace cache

/-- What `fcopy` changes in a tree without links: the destination and the directories on
the way to it. -/
theorem fcopy_plain_frame (fs : FS) (el : List GoString) (src : GoString)
    (hel : ∀ c ∈ el, simpleName c = true) (h : fs.plain) :
    (fcopy fs (rootedPath el) src).2.plain ∧
    ∀ q, (fcopy fs (rootedPath el) src).2.node? q ≠ fs.node? q →
      ∃ pre, pre <+: el ∧ Clean q = rootedPath pre := by
  obtain ⟨pd, hpd, hpds, hdir⟩ := Dir_rootedPath el hel
  unfold fcopy
  rw [hdir]
  cases hm : MkdirAll fs (rootedPath pd) with
  | error e => exact ⟨h, fun q hq => absurd rfl hq⟩
  | ok fs1 =>
    simp only
    obtain ⟨hp1, hf1⟩ := MkdirAllAux_plain_frame _ fs fs1 pd hpds h hm
    have hf1b : ∀ q, fs1.node? q ≠ fs.node? q → ∃ pre, pre <+: el ∧ Clean q = rootedPath pre := by
      intro q hq
      obtain ⟨pre, hpre, hc⟩ := hf1 q hq
      exact ⟨pre, hpre.trans hpd, hc⟩
    cases hc : Create fs1 (rootedPath el) with
    | error e => exact ⟨hp1, hf1b⟩
    | ok r =>
      obtain ⟨fs2, f⟩ := r
      simp only
      obtain ⟨hf, hp2, _, hf2⟩ := Create_plain_frame fs1 fs2 el f hel hp1 hc
      have hf2b : ∀ q, fs2.node? q ≠ fs.node? q →
          ∃ pre, pre <+: el ∧ Clean q = rootedPath pre := by
        intro q hq
        rcases node?_changed_trans (b := fs1) hq with h1 | h1
        · exact hf1b q h1
        · exact hf2 q h1
      cases ho : Open fs2 src with
      | error e => exact ⟨hp2, hf2b⟩
      | ok sh =>
        simp only
        cases hr : readAll fs2 sh with
        | error e => exact ⟨hp2, hf2b⟩
        | ok data =>
          simp only
          obtain ⟨hp3, hf3⟩ := write_plain_frame fs2 f data hp2
          refine ⟨hp3, ?_⟩
          intro q hq
          rcases node?_changed_trans (b := fs2) hq with h1 | h1
          · exact hf2b q h1
          · refine ⟨el, List.prefix_refl _, ?_⟩
            rw [hf3 q h1, hf]
            exact Clean_rootedPath el hel

theorem copiedPlace_lift (skip : List GoString) (el es : List GoString) (n q : GoString)
    (hn : simpleName n = true) (hskip : rootedPath es ∉ skip)
    (h : copiedPlace skip (el ++ [n]) (es ++ [n]) q) : copiedPlace skip el es q := by
  obtain ⟨rel, pre, hrel, hpre, hc, hchain⟩ := h
  refine ⟨n :: rel, pre, ?_, ?_, hc, ?_⟩
  · intro c hc1
    rcases List.mem_cons.1 hc1 with h1 | h1
    · rw [h1]
      exact hn
    · exact hrel c h1
  · rw [List.append_assoc] at hpre
    exact hpre
  · intro mid hmid
    cases mid with
    | nil =>
      rw [List.append_nil]
      exact hskip
    | cons m rest =>
      have h1 := List.cons_prefix_cons.1 hmid
      rw [h1.1]
      have := hchain rest h1.2
      rw [List.append_assoc] at this
      exact this

/-- The loop of `dcopy` over names writes only where the copier it calls writes. -/
theorem dcopyLoop_plain_frame (skip : List GoString)
    (copy : FS → GoString → GoString → FileInfo → Outcome × FS)
    (el es : List GoString) (hel : ∀ c ∈ el, simpleName c = true)
    (hes : ∀ c ∈ es, simpleName c = true) (hskip : rootedPath es ∉ skip)
    (hcopy : ∀ (fs : FS) (n : GoString) (info : FileInfo), simpleName n = true →
      info.mode ≠ .symlink → fs.plain →
      (copy fs (rootedPath (el ++ [n])) (rootedPath (es ++ [n])) info).2.plain ∧
      ∀ q, (copy fs (rootedPath (el ++ [n])) (rootedPath (es ++ [n])) info).2.node? q ≠
          fs.node? q → copiedPlace skip (el ++ [n]) (es ++ [n]) q)
    (names : List GoString) (hnames : ∀ n ∈ names, simpleName n = true) (fs : FS)
    (h : fs.plain) :
    (dcopyLoop copy (rootedPath el) (rootedPath es) names fs).2.plain ∧
    ∀ q, (dcopyLoop copy (rootedPath el) (rootedPath es) names fs).2.node? q ≠ fs.node? q →
      copiedPlace skip el es q := by
  induction names generalizing fs with
  | nil => exact ⟨h, fun q hq => absurd rfl hq⟩
  | cons n rest ih =>
    have hn : simpleName n = true := hnames n (List.mem_cons_self _ _)
    have hrest : ∀ m ∈ rest, simpleName m = true :=
      fun m hm => hnames m (List.mem_cons_of_mem _ hm)
    unfold dcopyLoop
    simp only [Join_rooted el n hel hn, Join_rooted es n hes hn]
    cases hinfo : DirEntryInfo fs (rootedPath es) n with
    | error e => exact ⟨h, fun q hq => absurd rfl hq⟩
    | ok finfo =>
      simp only
      have hmode := DirEntryInfo_mode_of_noSymlink fs h.1 _ _ finfo hinfo
      obtain ⟨hp1, hf1⟩ := hcopy fs n finfo hn hmode h
      have hf1b : ∀ q,
          (copy fs (rootedPath (el ++ [n])) (rootedPath (es ++ [n])) finfo).2.node? q ≠
            fs.node? q → copiedPlace skip el es q :=
        fun q hq => copiedPlace_lift skip el es n q hn hskip (hf1 q hq)
      cases hstep : copy fs (rootedPath (el ++ [n])) (rootedPath (es ++ [n])) finfo with
      | mk o fs1 =>
        rw [hstep] at hp1 hf1b
        cases o with
        | nil =>
          simp only
          obtain ⟨hp2, hf2⟩ := ih hrest fs1 hp1
          refine ⟨hp2, ?_⟩
          intro q hq
          rcases node?_changed_trans (b := fs1) hq with h1 | h1
          · exact hf1b q h1
          · exact hf2 q h1
        | error e => exact ⟨hp1, hf1b⟩
        | fatal => exact ⟨hp1, hf1b⟩
        | panic => exact ⟨hp1, hf1b⟩
        | diverge => exact ⟨hp1, hf1b⟩

/-- In a tree without links, the copier writes only at the destinations of the sources it
reaches by descent without passing through the skip set, and at the directories on the way
to them; and it leaves a tree without links. -/
theorem dfs_plain_frame (bc : BuildCache) (fuel : Nat) (fs : FS) (el es : List GoString)
    (hel : ∀ c ∈ el, simpleName c = true) (hes : ∀ c ∈ es, simpleName c = true)
    (info : FileInfo) (hmode : info.mode ≠ .symlink) (h : fs.plain) :
    (dfs bc fuel fs (rootedPath el) (rootedPath es) info).2.plain ∧
    ∀ q, (dfs bc fuel fs (rootedPath el) (rootedPath es) info).2.node? q ≠ fs.node? q →
      copiedPlace bc.skipPattern el es q := by
  induction fuel generalizing fs el es info with
  | zero => exact ⟨h, fun q hq => absurd rfl hq⟩
  | succ fuel ih =>
    unfold dfs
    by_cases hskip : rootedPath es ∈ bc.skipPattern
    · rw [if_pos hskip]
      exact ⟨h, fun q hq => absurd rfl hq⟩
    · rw [if_neg hskip]
      have hfile : (fcopy fs (rootedPath el) (rootedPath es)).2.plain ∧
          ∀ q, (fcopy fs (rootedPath el) (rootedPath es)).2.node? q ≠ fs.node? q →
            copiedPlace bc.skipPattern el es q := by
        obtain ⟨hp, hf⟩ := fcopy_plain_frame fs el (rootedPath es) hel h
        refine ⟨hp, ?_⟩
        intro q hq
        obtain ⟨pre, hpre, hc⟩ := hf q hq
        refine ⟨[], pre, ?_, ?_, hc, ?_⟩
        · intro c hc1
          cases hc1
        · rw [List.append_nil]
          exact hpre
        · intro mid hmid
          rw [List.prefix_nil.1 hmid, List.append_nil]
          exact hskip
      cases hm : info.mode with
      | symlink => exact absurd hm hmode
      | namedPipe => exact ⟨h, fun q hq => absurd rfl hq⟩
      | regular => exact hfile
      | socket => exact hfile
      | device => exact hfile
      | dir =>
        simp only
        unfold dcopy
        cases hread : ReadDir fs (rootedPath es) with
        | error e => exact ⟨h, fun q hq => absurd rfl hq⟩
        | ok contents =>
          simp only
          exact dcopyLoop_plain_frame bc.skipPattern (dfs bc fuel) el es hel hes hskip
            (fun fs1 n info1 hn hmode1 h1 =>
              ih fs1 (el ++ [n]) (es ++ [n])
                (simple_append hel (fun c hc => by rw [List.mem_singleton.1 hc]; exact hn))
                (simple_append hes (fun c hc => by rw [List.mem_singleton.1 hc]; exact hn))
                info1 hmode1 h1)
            contents (ReadDir_simple fs h.2 _ contents hread) fs h

/-- The copier leaves as it was the place, under its destination, of every path that is
equal to or lies under a path of the skip set. -/
theorem dfs_skips (bc : BuildCache) (fuel : Nat) (fs : FS) (el es : List GoString)
    (hel : ∀ c ∈ el, simpleName c = true) (hes : ∀ c ∈ es, simpleName c = true)
    (info : FileInfo) (hmode : info.mode ≠ .symlink) (h : fs.plain)
    (rs more : List GoString) (hrs : ∀ c ∈ rs, simpleName c = true)
    (hmore : ∀ c ∈ more, simpleName c = true)
    (hs : rootedPath (es ++ rs) ∈ bc.skipPattern) :
    (dfs bc fuel fs (rootedPath el) (rootedPath es) info).2.node?
        (rootedPath (el ++ (rs ++ more))) =
      fs.node? (rootedPath (el ++ (rs ++ more))) := by
  by_contra hne
  obtain ⟨rel, pre, hrel, hpre, hc, hchain⟩ :=
    (dfs_plain_frame bc fuel fs el es hel hes info hmode h).2 _ hne
  have hall : ∀ c ∈ el ++ (rs ++ more), simpleName c = true :=
    simple_append hel (simple_append hrs hmore)
  rw [Clean_rootedPath _ hall] at hc
  have hpres : ∀ c ∈ pre, simpleName c = true :=
    simple_of_initial hpre (simple_append hel hrel)
  have heq := rootedPath_injective _ _ hall hpres hc
  rw [← heq] at hpre
  have h1 : rs ++ more <+: rel := (List.prefix_append_right_inj el).1 hpre
  exact hchain rs ((List.prefix_append rs more).trans h1) hs

end cache

/-! ## The storage directory and the skip set -/

theorem lookupNode_filter_none (nodes : List (GoString × Node)) (p : GoString → Bool)
    (q : GoString) (hq : p q = false) :
    lookupNode (nodes.filter (fun e => p e.1)) q = none := by
  induction nodes with
  | nil => rfl
  | cons e rest ih =>
    rw [List.filter_cons]
    by_cases he : p e.1 = true
    · rw [if_pos he]
      obtain ⟨k, v⟩ := e
      rw [lookupNode]
      have hk : k ≠ q := by
        intro hkq
        rw [hkq] at he
        rw [hq] at he
        cases he
      rw [if_neg hk]
      exact ih
    · rw [if_neg he]
      exact ih

/-- A call of `os.RemoveAll` that returns nil has left the filesystem as it was, or has
removed the entry and what lies under it and updated the directory that held it. -/
theorem RemoveAll_cases (fs fs1 : FS) (path : GoString) (h : RemoveAll fs path = .ok fs1) :
    fs1 = fs ∨ ∃ t names, parentDir fs path = .ok (t, names) ∧
      fs1 = ({ fs with nodes := fs.nodes.filter (fun e => !isUnder (Clean path) e.1) }.put
        (Dir (Clean path)) (.dir fs.now (names.filter (fun n => n ≠ baseName path)) true)) := by
  unfold RemoveAll at h
  split at h
  · left
    exact (Except.ok.inj h).symm
  · cases h
  · split at h
    · left
      exact (Except.ok.inj h).symm
    · split at h
      · cases h
      · rename_i t names hp
        split at h
        · cases h
        · right
          exact ⟨t, names, hp, (Except.ok.inj h).symm⟩

/-- After `os.RemoveAll` of an absolute path of names, in a tree without links: the tree is
still one, and an entry that lay under the path is gone, or is what it was when nothing
was removed. -/
theorem RemoveAll_plain_under (fs fs1 : FS) (ed rel : List GoString)
    (hed : ∀ c ∈ ed, simpleName c = true) (hrel : ∀ c ∈ rel, simpleName c = true)
    (hne : rel ≠ []) (h : fs.plain) (hr : RemoveAll fs (rootedPath ed) = .ok fs1) :
    fs1.plain ∧ (fs1.node? (rootedPath (ed ++ rel)) = none ∨
      fs1.node? (rootedPath (ed ++ rel)) = fs.node? (rootedPath (ed ++ rel))) := by
  rcases RemoveAll_cases fs fs1 _ hr with h1 | ⟨t, names, hp, h1⟩
  · rw [h1]
    exact ⟨h, Or.inr rfl⟩
  · have hpar := parentDir_ok fs _ t names hp
    have hnames : names.all simpleName = true := plain_node fs h _ _ hpar
    have hall : ∀ c ∈ ed ++ rel, simpleName c = true := simple_append hed hrel
    have hcq := Clean_rootedPath _ hall
    have hce := Clean_rootedPath _ hed
    obtain ⟨pd, hpd, hpds, hdir⟩ := Dir_rootedPath ed hed
    have hplain0 : FS.plain
        (⟨fs.nodes.filter (fun e => !isUnder (Clean (rootedPath ed)) e.1), fs.now⟩ : FS) := by
      rw [plain_iff] at h ⊢
      intro e he
      exact h e (List.mem_filter.1 he).1
    rw [h1]
    constructor
    · apply plain_put _ _ _ hplain0
      show (names.filter (fun n => n ≠ baseName (rootedPath ed))).all simpleName = true
      rw [List.all_eq_true] at hnames ⊢
      intro n hn
      exact hnames n (List.mem_filter.1 hn).1
    · left
      have hneq : Clean (rootedPath (ed ++ rel)) ≠ Clean (Dir (Clean (rootedPath ed))) := by
        rw [hcq, hce, hdir, Clean_rootedPath pd hpds]
        intro heq
        have h2 := rootedPath_injective _ _ hall hpds heq
        have hl1 := congrArg List.length h2
        have hl2 := hpd.length_le
        have hl3 : 0 < rel.length := List.length_pos.2 hne
        rw [List.length_append] at hl1
        omega
      rw [node?_put_of_ne _ _ _ _ hneq]
      unfold FS.node?
      rw [hcq]
      apply lookupNode_filter_none fs.nodes (fun k => !isUnder (Clean (rootedPath ed)) k)
      rw [hce]
      simp only [Bool.not_eq_false']
      exact isUnder_of_prefix ed (ed ++ rel) (List.prefix_append ed rel)

namespace cache

/-- In a tree without links, the refresh of `Cache` leaves nothing, or what was there, at
the place in the storage directory of a path that is equal to or lies under a path of the
skip set. -/
theorem refresh_skips (bc : BuildCache) (fuel : Nat) (fs : FS) (info : FileInfo)
    (ed eb dg : List GoString) (hed : ∀ c ∈ ed, simpleName c = true)
    (heb : ∀ c ∈ eb, simpleName c = true) (hdg : ∀ c ∈ dg, simpleName c = true)
    (hbase : bc.baseDir = rootedPath eb)
    (hstore : Join bc.cacheDir "cache".toList = rootedPath ed)
    (hdig : bc.cacheDigestFile = rootedPath dg) (hout : ¬ ed <+: dg)
    (hmode : info.mode ≠ .symlink) (h : fs.plain)
    (rs more : List GoString) (hrs : ∀ c ∈ rs, simpleName c = true)
    (hmore : ∀ c ∈ more, simpleName c = true) (hne : rs ++ more ≠ [])
    (hs : rootedPath (eb ++ rs) ∈ bc.skipPattern) :
    (bc.refresh fuel fs info).2.2.node? (rootedPath (ed ++ (rs ++ more))) = none ∨
    (bc.refresh fuel fs info).2.2.node? (rootedPath (ed ++ (rs ++ more))) =
      fs.node? (rootedPath (ed ++ (rs ++ more))) := by
  have hrel : ∀ c ∈ rs ++ more, simpleName c = true := simple_append hrs hmore
  have hall : ∀ c ∈ ed ++ (rs ++ more), simpleName c = true := simple_append hed hrel
  have hcq := Clean_rootedPath _ hall
  have hnotpre : ∀ pre, pre <+: ed → Clean (rootedPath (ed ++ (rs ++ more))) ≠ rootedPath pre := by
    intro pre hpre heq
    rw [hcq] at heq
    have h2 := rootedPath_injective _ _ hall (simple_of_initial hpre hed) heq
    have hl1 := congrArg List.length h2
    have hl2 := hpre.length_le
    have hl3 : 0 < (rs ++ more).length := List.length_pos.2 hne
    rw [List.length_append] at hl1
    omega
  have hnotdig : ∀ pre, pre <+: dg → Clean (rootedPath (ed ++ (rs ++ more))) ≠ rootedPath pre := by
    intro pre hpre heq
    rw [hcq] at heq
    have h2 := rootedPath_injective _ _ hall (simple_of_initial hpre hdg) heq
    apply hout
    rw [← h2] at hpre
    exact (List.prefix_append ed (rs ++ more)).trans hpre
  unfold BuildCache.refresh
  simp only
  rw [hstore, hbase]
  -- the storage directory is removed
  have hrm : ∃ fs1, (match RemoveAll fs (rootedPath ed) with
        | .ok fs1 => fs1
        | .error _ => fs) = fs1 ∧ fs1.plain ∧
      (fs1.node? (rootedPath (ed ++ (rs ++ more))) = none ∨
        fs1.node? (rootedPath (ed ++ (rs ++ more))) =
          fs.node? (rootedPath (ed ++ (rs ++ more)))) := by
    cases hr : RemoveAll fs (rootedPath ed) with
    | error e => exact ⟨fs, rfl, h, Or.inr rfl⟩
    | ok fs1 =>
      obtain ⟨hp, hq⟩ := RemoveAll_plain_under fs fs1 ed (rs ++ more) hed hrel hne h hr
      exact ⟨fs1, rfl, hp, hq⟩
  obtain ⟨fs1, hfs1, hp1, hq1⟩ := hrm
  rw [hfs1]
  have keep : ∀ fsx : FS, fsx.node? (rootedPath (ed ++ (rs ++ more))) =
      fs1.node? (rootedPath (ed ++ (rs ++ more))) →
      fsx.node? (rootedPath (ed ++ (rs ++ more))) = none ∨
        fsx.node? (rootedPath (ed ++ (rs ++ more))) =
          fs.node? (rootedPath (ed ++ (rs ++ more))) := by
    intro fsx hx
    rw [hx]
    exact hq1
  cases hm : MkdirAll fs1 (rootedPath ed) with
  | error e => exact keep fs1 rfl
  | ok fs2 =>
    simp only
    obtain ⟨hp2, hf2⟩ := MkdirAllAux_plain_frame _ fs1 fs2 ed hed hp1 hm
    have hq2 : fs2.node? (rootedPath (ed ++ (rs ++ more))) =
        fs1.node? (rootedPath (ed ++ (rs ++ more))) := by
      by_contra hc
      obtain ⟨pre, hpre, heq⟩ := hf2 _ hc
      exact hnotpre pre hpre heq
    have hq3 := dfs_skips bc fuel fs2 ed eb hed heb info hmode hp2 rs more hrs hmore hs
    obtain ⟨hp3, _⟩ := dfs_plain_frame bc fuel fs2 ed eb hed heb info hmode hp2
    cases hd : dfs bc fuel fs2 (rootedPath ed) (rootedPath eb) info with
    | mk o fs3 =>
      rw [hd] at hq3 hp3
      have hq3b : fs3.node? (rootedPath (ed ++ (rs ++ more))) =
          fs1.node? (rootedPath (ed ++ (rs ++ more))) := hq3.trans hq2
      have hsave : (bc.saveCache fs3).2.node? (rootedPath (ed ++ (rs ++ more))) =
          fs3.node? (rootedPath (ed ++ (rs ++ more))) := by
        unfold BuildCache.saveCache
        rw [hdig]
        cases hc : Create fs3 (rootedPath dg) with
        | error e => rfl
        | ok r =>
          obtain ⟨fs4, f⟩ := r
          simp only
          obtain ⟨hf, hp4, _, hf4⟩ := Create_plain_frame fs3 fs4 dg f hdg hp3 hc
          by_contra hc1
          rcases node?_changed_trans (b := fs4) hc1 with h1 | h1
          · obtain ⟨pre, hpre, heq⟩ := hf4 _ h1
            exact hnotdig pre hpre heq
          · have h2 := (write_plain_frame fs4 f (digestText bc.newMod) hp4).2 _ h1
            rw [hf, Clean_rootedPath dg hdg] at h2
            exact hnotdig dg (List.prefix_refl _) h2
      cases o with
      | nil =>
        simp only
        exact keep _ (hsave.trans hq3b)
      | error e => exact keep _ hq3b
      | fatal => exact keep _ hq3b
      | panic => exact keep _ hq3b
      | diverge => exact keep _ hq3b

end cache

namespace cache

theorem walk_foldl_apply_digest (opts : List CacheOption) (b : BuildCache) :
    (opts.foldl (fun bc o => o.apply bc) b).cacheDigestFile = b.cacheDigestFile := by
  induction opts generalizing b with
  | nil => rfl
  | cons o rest ih =>
    rw [List.foldl_cons, ih]
    cases o
    rfl

/-- The digest path of a controller that `NewBuildCache` of package `cache` returns. -/
theorem walk_NewBuildCache_digest (env : Env) (fs : FS) (base : GoString)
    (opts : List CacheOption) (bc : BuildCache) (h : NewBuildCache env fs base opts = .ok bc) :
    bc.cacheDigestFile = cacheDigestFileFor env base := by
  unfold NewBuildCache at h
  by_cases hbase : base = []
  · rw [if_pos hbase] at h
    cases h
  · rw [if_neg hbase] at h
    simp only at h
    have key : ∀ b : BuildCache, b.cacheDigestFile = cacheDigestFileFor env base →
        (Except.ok { (opts.foldl (fun bc o => o.apply bc) b) with
          skipPattern := (opts.foldl (fun bc o => o.apply bc) b).cacheDir ::
            (opts.foldl (fun bc o => o.apply bc) b).skipPattern } : Except GoError BuildCache) =
          .ok bc → bc.cacheDigestFile = cacheDigestFileFor env base := by
      intro b hb1 hok
      rw [← Except.ok.inj hok]
      exact (walk_foldl_apply_digest opts b).trans hb1
    revert h
    split
    · split
      · exact key _ rfl
      · intro h; cases h
    · split
      · intro h; cases h
      · split
        · intro h; cases h
        · exact key _ rfl

/-- In a tree without links, `Cache` leaves nothing, or what was there, at the place in the
storage directory of a path that is equal to or lies under a path of the skip set. -/
theorem Cache_skips (bc : BuildCache) (fuel : Nat) (fs : FS)
    (ed eb dg : List GoString) (hed : ∀ c ∈ ed, simpleName c = true)
    (heb : ∀ c ∈ eb, simpleName c = true) (hdg : ∀ c ∈ dg, simpleName c = true)
    (hbase : bc.baseDir = rootedPath eb)
    (hstore : Join bc.cacheDir "cache".toList = rootedPath ed)
    (hdig : bc.cacheDigestFile = rootedPath dg) (hout : ¬ ed <+: dg) (h : fs.plain)
    (rs more : List GoString) (hrs : ∀ c ∈ rs, simpleName c = true)
    (hmore : ∀ c ∈ more, simpleName c = true) (hne : rs ++ more ≠ [])
    (hs : rootedPath (eb ++ rs) ∈ bc.skipPattern) :
    (bc.Cache fuel fs).2.2.node? (rootedPath (ed ++ (rs ++ more))) = none ∨
    (bc.Cache fuel fs).2.2.node? (rootedPath (ed ++ (rs ++ more))) =
      fs.node? (rootedPath (ed ++ (rs ++ more))) := by
  unfold BuildCache.Cache
  cases hstat : Lstat fs bc.baseDir with
  | error e => exact Or.inr rfl
  | ok info =>
    simp only
    have hmode := Lstat_mode_of_noSymlink fs h.1 _ info hstat
    have hsb := dfs2_sameBut fuel fs bc bc.baseDir info
    cases hw : dfs2 fuel fs bc bc.baseDir info with
    | mk o bc1 =>
      rw [hw] at hsb
      obtain ⟨_, _, hb, hc, hd, hsk⟩ := hsb
      have key : ∀ b : BuildCache, b.baseDir = bc1.baseDir → b.cacheDir = bc1.cacheDir →
          b.cacheDigestFile = bc1.cacheDigestFile → b.skipPattern = bc1.skipPattern →
          (b.refresh fuel fs info).2.2.node? (rootedPath (ed ++ (rs ++ more))) = none ∨
          (b.refresh fuel fs info).2.2.node? (rootedPath (ed ++ (rs ++ more))) =
            fs.node? (rootedPath (ed ++ (rs ++ more))) := by
        intro b h1 h2 h3 h4
        exact refresh_skips b fuel fs info ed eb dg hed heb hdg (by rw [h1, hb]; exact hbase)
          (by rw [h2, hc]; exact hstore) (by rw [h3, hd]; exact hdig) hout hmode h rs more
          hrs hmore hne (by rw [h4, hsk]; exact hs)
      cases o with
      | nil =>
        simp only
        split
        · split
          · exact Or.inr rfl
          · exact key _ rfl rfl rfl rfl
        · exact key _ rfl rfl rfl rfl
      | error e => exact Or.inr rfl
      | fatal => exact Or.inr rfl
      | panic => exact Or.inr rfl
      | diverge => exact Or.inr rfl

end cache

/-! ## The skip set, for the walker and for the copier -/

/-- C5 as amended, for the controller of package `cache` built by `NewBuildCache`: the
skip set holds the cache directory and `Join(baseDir, p)` for each `WithSkip(p)`;
after `Cache` no key of the new mapping is a path of the skip set, and the copier called
on a path of the skip set returns nil and leaves the filesystem as it is. When the
filesystem has no symbolic link, every directory lists proper names, the base directory
is an absolute cleaned path and no skip path other than the base directory itself
holds the base directory, then moreover no key of the new mapping is equal to or lies
under a skip path; and, the digest file lying outside the storage directory, for every
path below the base directory that is equal to or lies under a skip path, `Cache` has
copied nothing to its place in the storage directory: after `Cache` no entry stands at the
path of the same names below the storage directory, unless one stood there before and is
still as it was. -/
theorem C5_skip_set_respected (env : Env) (fs : FS) (base : GoString)
    (opts : List cache.CacheOption) (bc : cache.BuildCache) (fuel : Nat)
    (hnew : cache.NewBuildCache env fs base opts = .ok bc) :
    (cacheDirFor env base ∈ bc.skipPattern ∧
      ∀ p, cache.CacheOption.WithSkip p ∈ opts → Join base p ∈ bc.skipPattern) ∧
    (∀ k, (bc.Cache fuel fs).2.1.newMod.get? k ≠ none → k ∉ bc.skipPattern) ∧
    (∀ (fs1 : FS) (dst src : GoString) (info : FileInfo), src ∈ bc.skipPattern →
      cache.dfs bc (fuel + 1) fs1 dst src info = (.nil, fs1)) ∧
    (fs.noSymlink = true → fs.simpleNames = true → IsAbs base = true → Clean base = base →
      (∀ s ∈ bc.skipPattern, isUnder s base = true → s = base) →
      (∀ k, (bc.Cache fuel fs).2.1.newMod.get? k ≠ none →
        ∀ s ∈ bc.skipPattern, isUnder s k = false) ∧
      (isUnder bc.GetCacheDir bc.cacheDigestFile = false →
        ∀ (eb ed rel : List GoString), (∀ c ∈ eb, simpleName c = true) →
          (∀ c ∈ ed, simpleName c = true) → (∀ c ∈ rel, simpleName c = true) → rel ≠ [] →
          base = rootedPath eb → bc.GetCacheDir = rootedPath ed →
          ∀ s ∈ bc.skipPattern, isUnder s (rootedPath (eb ++ rel)) = true →
            (bc.Cache fuel fs).2.2.node? (rootedPath (ed ++ rel)) = none ∨
            (bc.Cache fuel fs).2.2.node? (rootedPath (ed ++ rel)) =
              fs.node? (rootedPath (ed ++ rel)))) := by
  obtain ⟨hne, hbase, hmod, hskip⟩ := cache.NewBuildCache_fields env fs base opts bc hnew
  have hnone : ∀ k, bc.newMod.get? k = none := by
    intro k
    rw [hmod]
    rfl
  refine ⟨⟨(hskip _).2 (Or.inl rfl), fun p hp => (hskip _).2 (Or.inr ⟨p, hp, rfl⟩)⟩,
    ?_, ?_, ?_⟩
  · intro k hk
    rcases cache.Cache_newMod bc fuel fs with h | ⟨info, _, h⟩
    · rw [h, hnone k] at hk
      exact absurd rfl hk
    · rw [h] at hk
      rw [← hnone k] at hk
      exact cache.dfs2_not_skipped fuel fs bc bc.baseDir info k hk
  · intro fs1 dst src info hsrc
    simp [cache.dfs, hsrc]
  · intro hlink hnames habs hclean hup
    have hrooted : ∀ s ∈ bc.skipPattern,
        ∃ es, (∀ c ∈ es, simpleName c = true) ∧ s = rootedPath es := by
      intro s hs
      rcases (hskip s).1 hs with h1 | ⟨p, _, h1⟩
      · rw [h1]
        unfold cacheDirFor
        split
        · exact Join_abs_rooted base _ habs
        · exact Join_abs_rooted base _ habs
      · rw [h1]
        exact Join_abs_rooted base _ habs
    constructor
    · intro k hk s hs
      rcases cache.Cache_newMod bc fuel fs with h | ⟨info, hstat, h⟩
      · rw [h, hnone k] at hk
        exact absurd rfl hk
      · obtain ⟨eb, heb, hbeq⟩ := Clean_rooted base habs
        rw [hclean] at hbeq
        rw [h, ← hnone k, hbase, hbeq] at hk
        rw [hbase] at hstat
        have hmode := Lstat_mode_of_noSymlink fs hlink base info hstat
        obtain ⟨ek, hek, hkeq, hpre, hchain⟩ :=
          cache.dfs2_descent fs hlink hnames fuel bc eb heb info hmode k hk
        obtain ⟨es, hes, hseq⟩ := hrooted s hs
        cases hu : isUnder s k with
        | false => rfl
        | true =>
          exfalso
          rw [hseq, hkeq] at hu
          have hsk : es <+: ek := isUnder_rootedPath es ek hes hek hu
          by_cases hlen : es.length ≤ eb.length
          · have hsb : es <+: eb := List.prefix_of_prefix_length_le hsk hpre hlen
            have hsbase : s = base := by
              apply hup s hs
              rw [hseq, hbeq]
              exact isUnder_of_prefix es eb hsb
            apply hchain eb (List.prefix_refl eb) hpre
            rw [← hbeq, ← hsbase]
            exact hs
          · have hbs : eb <+: es :=
              List.prefix_of_prefix_length_le hpre hsk (by omega)
            apply hchain es hbs hsk
            rw [← hseq]
            exact hs
    · intro hdigout eb ed rel heb hed hrel hrne hb hst s hs hu
      obtain ⟨es, hes, hseq⟩ := hrooted s hs
      rw [hseq] at hu
      have hsk : es <+: eb ++ rel :=
        isUnder_rootedPath es (eb ++ rel) hes (simple_append heb hrel) hu
      -- the skip path, seen from the base directory
      obtain ⟨rs, more, hrsm, hsrs⟩ :
          ∃ rs more, rel = rs ++ more ∧ rootedPath (eb ++ rs) ∈ bc.skipPattern := by
        by_cases hlen : es.length ≤ eb.length
        · have hsb : es <+: eb :=
            List.prefix_of_prefix_length_le hsk (List.prefix_append eb rel) hlen
          have hsbase : s = base := by
            apply hup s hs
            rw [hseq, hb]
            exact isUnder_of_prefix es eb hsb
          refine ⟨[], rel, rfl, ?_⟩
          rw [List.append_nil, ← hb, ← hsbase]
          exact hs
        · have hbs : eb <+: es :=
            List.prefix_of_prefix_length_le (List.prefix_append eb rel) hsk (by omega)
          obtain ⟨rs, hrs⟩ := hbs
          rw [← hrs] at hsk
          obtain ⟨more, hmore⟩ := (List.prefix_append_right_inj eb).1 hsk
          refine ⟨rs, more, hmore.symm, ?_⟩
          rw [hrs, ← hseq]
          exact hs
      have hrs : ∀ c ∈ rs, simpleName c = true :=
        fun c hc => hrel c (by rw [hrsm]; exact List.mem_append_left _ hc)
      have hmore : ∀ c ∈ more, simpleName c = true :=
        fun c hc => hrel c (by rw [hrsm]; exact List.mem_append_right _ hc)
      -- the digest file
      obtain ⟨dg, hdg, hdgeq⟩ :
          ∃ dg, (∀ c ∈ dg, simpleName c = true) ∧ bc.cacheDigestFile = rootedPath dg := by
        rw [cache.walk_NewBuildCache_digest env fs base opts bc hnew]
        have hcd : ∃ ec, (∀ c ∈ ec, simpleName c = true) ∧
            cacheDirFor env base = rootedPath ec := by
          unfold cacheDirFor
          split
          · exact Join_abs_rooted base _ habs
          · exact Join_abs_rooted base _ habs
        obtain ⟨ec, _, hceq⟩ := hcd
        unfold cacheDigestFileFor
        rw [hceq]
        split
        · exact Join_abs_rooted _ _ rfl
        · exact Join_abs_rooted _ _ rfl
      have hout : ¬ ed <+: dg := by
        intro hpre
        have := isUnder_of_prefix ed dg hpre
        rw [← hst, ← hdgeq, hdigout] at this
        cases this
      rw [hrsm]
      rw [hrsm] at hrne
      exact cache.Cache_skips bc fuel fs ed eb dg hed heb hdg (hbase.trans hb) hst hdgeq hout
        ⟨hlink, hnames⟩ rs more hrs hmore hrne hsrs

/-- C5 as amended, on the project `/p` without links and with `WithSkip("vendor")`: the
new mapping has the key `/p/a.go` only, no key lies under `/p/vendor` or under the cache
directory, `a.go` has been copied to the storage directory, and nothing stands there at
the place of `/p/vendor/x.go`. -/
theorem C5_skip_set_respected_witness :
    (skipController.Cache 5 plainFS).2.1.newMod = [("/p/a.go".toList, 100)] ∧
    (∀ k, (skipController.Cache 5 plainFS).2.1.newMod.get? k ≠ none →
      k ∉ skipController.skipPattern) ∧
    (∀ k, (skipController.Cache 5 plainFS).2.1.newMod.get? k ≠ none →
      ∀ s ∈ skipController.skipPattern, isUnder s k = false) ∧
    (skipController.Cache 5 plainFS).2.2.node? "/p/.gococo/cache/a.go".toList =
      some (.file 7 "package a".toList true) ∧
    plainFS.node? "/p/.gococo/cache/vendor/x.go".toList = none ∧
    ((skipController.Cache 5 plainFS).2.2.node?
        (rootedPath (["p".toList, ".gococo".toList, "cache".toList] ++
          ["vendor".toList, "x.go".toList])) = none ∨
      (skipController.Cache 5 plainFS).2.2.node?
        (rootedPath (["p".toList, ".gococo".toList, "cache".toList] ++
          ["vendor".toList, "x.go".toList])) =
        plainFS.node? (rootedPath (["p".toList, ".gococo".toList, "cache".toList] ++
          ["vendor".toList, "x.go".toList]))) :=
  have h := C5_skip_set_respected exEnv plainFS "/p".toList [.WithSkip "vendor".toList]
    skipController 5 rfl
  have h4 := h.2.2.2 (by decide) (by decide) (by decide) (by decide) (by decide)
  ⟨by decide, h.2.1, h4.1, by decide, by decide,
    h4.2 (by decide) ["p".toList] ["p".toList, ".gococo".toList, "cache".toList]
      ["vendor".toList, "x.go".toList] (by decide) (by decide) (by decide) (by decide)
      (by decide) (by decide) "/p/vendor".toList (by decide) (by decide)⟩

end Gococo
